import Mathlib

/-!
# BucketStorage: a shallow embedding of `bucket_storage.hpp`

The container is a pointer graph: `Element` nodes of the virtual order list and
`Block` chunks of the physical allocator live on the C++ heap and name each other
through raw pointers.  The embedding keeps that heap explicit.

* A pointer is an `Option Nat`: `none` is `nullptr`, `some a` is the address `a`.
* The heap is a pair of address-indexed tables.  `new` appends a cell (addresses
  are never handed out twice), `delete` turns the cell into `none`.
* Every access through a pointer is checked: a null pointer, a destroyed cell,
  a slot index outside the raw storage, a slot without a constructed value and a
  `pop` on an empty stack are undefined behaviour in C++ and are reported here
  as a `Fault`.
* `size_type` counters are natural numbers.  Increments are plain `+ 1` (a
  counter of live nodes cannot reach `2 ^ 64` inside a 64-bit address space);
  the decrement wraps at zero as `size_t` does.
* Timestamps are natural numbers as well, with a plain `+ 1`: the wrap of the
  64-bit timestamp after `2 ^ 64` inserts is outside the model.
* Constructing a value does not throw in `insert`; the path on which it does is
  modelled on its own (`push_throwing`, `insert_impl_throwing`).
-/

/-- Undefined behaviour met while running the code. -/
inductive Fault where
  | nullDeref
  | useAfterFree
  | outOfBounds
  | deadSlot
  | outOfFuel
deriving DecidableEq, Repr

/-- The C++ `--x` on a `size_t`. -/
def decr64 (n : Nat) : Nat := if n = 0 then 2 ^ 64 - 1 else n - 1

/-- Contents of `details::Stack<T>`: the node chain, `m_top` first. -/
structure details.Stack (α : Type) where
  nodes : List α
deriving DecidableEq, Repr

/-- Code of `Stack::Stack()`. -/
def details.Stack.new {α : Type} : details.Stack α := ⟨[]⟩

/-- Code of `Stack::push`. -/
def details.Stack.push {α : Type} (s : details.Stack α) (x : α) : details.Stack α :=
  ⟨x :: s.nodes⟩

/-- Code of `Stack::pop`: reads `m_top->data` without a null check. -/
def details.Stack.pop {α : Type} (s : details.Stack α) : Except Fault (α × details.Stack α) :=
  match s.nodes with
  | [] => .error .nullDeref
  | x :: rest => .ok (x, ⟨rest⟩)

/-- Code of `Stack::peek` at `T = Block*`: `nullptr` on an empty stack. -/
def details.Stack.peek (s : details.Stack (Option Nat)) : Option Nat :=
  match s.nodes with
  | [] => none
  | x :: _ => x

/-- Code of `Stack::empty`. -/
def details.Stack.empty {α : Type} (s : details.Stack α) : Bool := s.nodes.isEmpty

/-- Code of `Stack::clear`. -/
def details.Stack.clear {α : Type} (_s : details.Stack α) : details.Stack α := ⟨[]⟩

/-- Fields of `BucketStorage::Element`. -/
structure BucketStorage.Element where
  m_block_link : Option Nat
  m_pos : Nat
  m_next : Option Nat
  m_prev : Option Nat
  m_time : Nat
deriving DecidableEq, Repr

/-- Code of `Element::Element(size_type time)`. -/
def BucketStorage.Element.new (time : Nat) : BucketStorage.Element :=
  { m_block_link := none, m_pos := 0, m_next := none, m_prev := none, m_time := time }

/-- Fields of `BucketStorage::Block`; `m_arr` is the raw storage, a slot is
`some v` while a constructed value lives in it. -/
structure BucketStorage.Block (T : Type) where
  m_prev : Option Nat
  m_next : Option Nat
  m_head : Nat
  m_arr : List (Option T)
  m_free_pos : details.Stack Nat
  m_size : Nat
  m_capacity : Nat
deriving DecidableEq, Repr

/-- Code of `Block::Block(size_type)`. -/
def BucketStorage.Block.new {T : Type} (cap : Nat) : BucketStorage.Block T :=
  { m_prev := none, m_next := none, m_head := 0, m_arr := List.replicate cap none,
    m_free_pos := details.Stack.new, m_size := 0, m_capacity := cap }

/-- The C++ heap as far as the container uses it: a cell is `some x` while the
object is alive and `none` once it has been deleted. -/
structure Heap (T : Type) where
  elements : List (Option BucketStorage.Element)
  blocks : List (Option (BucketStorage.Block T))
deriving DecidableEq, Repr

/-- The heap before anything is allocated. -/
def Heap.empty {T : Type} : Heap T := ⟨[], []⟩

/-- Read of `*p` for an `Element* p`. -/
def Heap.element {T : Type} (h : Heap T) (p : Option Nat) : Except Fault BucketStorage.Element :=
  match p with
  | none => .error .nullDeref
  | some a =>
    match h.elements[a]? with
    | some (some e) => .ok e
    | _ => .error .useAfterFree

/-- Write of a field through an `Element* p`. -/
def Heap.modifyElement {T : Type} (h : Heap T) (p : Option Nat)
    (f : BucketStorage.Element → BucketStorage.Element) : Except Fault (Heap T) :=
  match p with
  | none => .error .nullDeref
  | some a =>
    match h.elements[a]? with
    | some (some e) => .ok { h with elements := h.elements.set a (some (f e)) }
    | _ => .error .useAfterFree

/-- The expression `new Element(time)`. -/
def Heap.newElement {T : Type} (h : Heap T) (e : BucketStorage.Element) : Heap T × Nat :=
  ({ h with elements := h.elements ++ [some e] }, h.elements.length)

/-- The statement `delete p` for an `Element* p`: runs `Element::~Element`
(which rewires both neighbours) and releases the node. -/
def Heap.deleteElement {T : Type} (h : Heap T) (p : Option Nat) : Except Fault (Heap T) :=
  match p with
  | none => .ok h
  | some a => do
    let e ← h.element p
    let h ← (match e.m_prev with
      | none => pure h
      | some q => h.modifyElement (some q) (fun x => { x with m_next := e.m_next }))
    let e ← h.element p
    let h ← (match e.m_next with
      | none => pure h
      | some q => h.modifyElement (some q) (fun x => { x with m_prev := e.m_prev }))
    let _ ← h.element p
    pure { h with elements := h.elements.set a none }

/-- Read of `*p` for a `Block* p`. -/
def Heap.block {T : Type} (h : Heap T) (p : Option Nat) : Except Fault (BucketStorage.Block T) :=
  match p with
  | none => .error .nullDeref
  | some a =>
    match h.blocks[a]? with
    | some (some b) => .ok b
    | _ => .error .useAfterFree

/-- Write of a field through a `Block* p`. -/
def Heap.modifyBlock {T : Type} (h : Heap T) (p : Option Nat)
    (f : BucketStorage.Block T → BucketStorage.Block T) : Except Fault (Heap T) :=
  match p with
  | none => .error .nullDeref
  | some a =>
    match h.blocks[a]? with
    | some (some b) => .ok { h with blocks := h.blocks.set a (some (f b)) }
    | _ => .error .useAfterFree

/-- The expression `new Block(cap)`. -/
def Heap.newBlock {T : Type} (h : Heap T) (b : BucketStorage.Block T) : Heap T × Nat :=
  ({ h with blocks := h.blocks ++ [some b] }, h.blocks.length)

/-- The statement `delete p` for a `Block* p`; `delete nullptr` does nothing. -/
def Heap.deleteBlock {T : Type} (h : Heap T) (p : Option Nat) : Except Fault (Heap T) :=
  match p with
  | none => .ok h
  | some a => do
    let _ ← h.block p
    pure { h with blocks := h.blocks.set a none }

/-- Placement `new (p->get_data(pos)) value_type(x)`. -/
def Heap.construct {T : Type} (h : Heap T) (p : Option Nat) (pos : Nat) (x : T) :
    Except Fault (Heap T) := do
  let b ← h.block p
  if pos < b.m_arr.length then
    h.modifyBlock p (fun b => { b with m_arr := b.m_arr.set pos (some x) })
  else
    .error .outOfBounds

/-- The call `p->get_data(pos)->~value_type()`. -/
def Heap.destruct {T : Type} (h : Heap T) (p : Option Nat) (pos : Nat) :
    Except Fault (Heap T) := do
  let b ← h.block p
  match b.m_arr[pos]? with
  | none => .error .outOfBounds
  | some none => .error .deadSlot
  | some (some _) => h.modifyBlock p (fun b => { b with m_arr := b.m_arr.set pos none })

/-- Read of `*p->get_data(pos)`. -/
def Heap.slot {T : Type} (h : Heap T) (p : Option Nat) (pos : Nat) : Except Fault T := do
  let b ← h.block p
  match b.m_arr[pos]? with
  | none => .error .outOfBounds
  | some none => .error .deadSlot
  | some (some v) => .ok v

/-- Number of blocks that are allocated and not deallocated. -/
def Heap.liveBlocks {T : Type} (h : Heap T) : Nat :=
  (h.blocks.filter Option.isSome).length

/-- Fields of `BucketStorage::VirtualMemory`. -/
structure BucketStorage.VirtualMemory where
  m_start : Option Nat
  m_end : Option Nat
  m_over_end : Option Nat
deriving DecidableEq, Repr

/-- Fields of `BucketStorage::PhysicalMemory`; the stack `*m_free_blocks` is
held by value. -/
structure BucketStorage.PhysicalMemory where
  m_free_blocks : details.Stack (Option Nat)
  m_last_block : Option Nat
  m_bucket_capacity : Nat
  m_size : Nat
deriving DecidableEq, Repr

/-- Fields of `BucketStorage<T>`; the two owned sub-objects are held by value,
`none` standing for a null `m_virtual_memory` / `m_physical_memory`. -/
structure BucketStorage where
  m_virtual_memory : Option BucketStorage.VirtualMemory
  m_physical_memory : Option BucketStorage.PhysicalMemory
  m_bucket_size : Nat
  m_bucket_capacity : Nat
deriving DecidableEq, Repr

/-- Field of `BaseIterator`. -/
structure BucketStorage.BaseIterator where
  m_current : Option Nat
deriving DecidableEq, Repr

/-- Dereference of an owned sub-object pointer. -/
def derefPtr {α : Type} (p : Option α) : Except Fault α :=
  match p with
  | none => .error .nullDeref
  | some x => .ok x

/-- Code of `VirtualMemory::VirtualMemory()`: allocates the sentinel `Element(0)`. -/
def BucketStorage.VirtualMemory.new {T : Type} (h : Heap T) :
    BucketStorage.VirtualMemory × Heap T :=
  let r := h.newElement (BucketStorage.Element.new 0)
  ({ m_start := some r.2, m_end := some r.2, m_over_end := some r.2 }, r.1)

/-- Code of `VirtualMemory::push(Element* el)`. -/
def BucketStorage.VirtualMemory.push {T : Type} (vm : BucketStorage.VirtualMemory)
    (h : Heap T) (el : Option Nat) : Except Fault (BucketStorage.VirtualMemory × Heap T) := do
  let (vm, h) ←
    (if vm.m_start = vm.m_over_end then
      pure ({ vm with m_start := el, m_end := el }, h)
    else do
      let h ← h.modifyElement vm.m_end (fun e => { e with m_next := el })
      let h ← h.modifyElement el (fun e => { e with m_prev := vm.m_end })
      pure ({ vm with m_end := el }, h) : Except Fault (BucketStorage.VirtualMemory × Heap T))
  let h ← h.modifyElement vm.m_over_end (fun e => { e with m_prev := vm.m_end })
  let h ← h.modifyElement vm.m_end (fun e => { e with m_next := vm.m_over_end })
  let last ← h.element vm.m_end
  let h ← h.modifyElement vm.m_over_end (fun e => { e with m_time := last.m_time + 1 })
  pure (vm, h)

/-- Code of `PhysicalMemory::PhysicalMemory(size_type)`. -/
def BucketStorage.PhysicalMemory.new (cap : Nat) : BucketStorage.PhysicalMemory :=
  { m_free_blocks := details.Stack.new, m_last_block := none, m_bucket_capacity := cap,
    m_size := 0 }

/-- Code of `PhysicalMemory::size`. -/
def BucketStorage.PhysicalMemory.size (pm : BucketStorage.PhysicalMemory) : Nat := pm.m_size

/-- Code of `PhysicalMemory::push_free_block`. -/
def BucketStorage.PhysicalMemory.push_free_block (pm : BucketStorage.PhysicalMemory)
    (block_link : Option Nat) : BucketStorage.PhysicalMemory :=
  { pm with m_free_blocks := pm.m_free_blocks.push block_link }

/-- Code of `PhysicalMemory::clear_free_blocks`. -/
def BucketStorage.PhysicalMemory.clear_free_blocks (pm : BucketStorage.PhysicalMemory) :
    BucketStorage.PhysicalMemory :=
  { pm with m_free_blocks := pm.m_free_blocks.clear }

/-- Code of `PhysicalMemory::ensure_capacity`. -/
def BucketStorage.PhysicalMemory.ensure_capacity {T : Type} (pm : BucketStorage.PhysicalMemory)
    (h : Heap T) : Except Fault (BucketStorage.PhysicalMemory × Heap T) := do
  let (pm, h, active) ←
    (match pm.m_free_blocks.peek with
    | none =>
      let pm := { pm with m_size := pm.m_size + 1 }
      let r := h.newBlock (BucketStorage.Block.new pm.m_bucket_capacity)
      let active := some r.2
      let h := r.1
      match pm.m_last_block with
      | some last => do
        let h ← h.modifyBlock (some last) (fun b => { b with m_next := active })
        let h ← h.modifyBlock active (fun b => { b with m_prev := some last })
        pure ({ pm with m_last_block := active,
                        m_free_blocks := pm.m_free_blocks.push active }, h, active)
      | none =>
        pure ({ pm with m_last_block := active,
                        m_free_blocks := pm.m_free_blocks.push active }, h, active)
    | some a => pure (pm, h, some a) :
      Except Fault (BucketStorage.PhysicalMemory × Heap T × Option Nat))
  let b ← h.block active
  if b.m_size = pm.m_bucket_capacity then do
    let pm := { pm with m_size := pm.m_size + 1 }
    let (_, stack) ← pm.m_free_blocks.pop
    let r := h.newBlock (BucketStorage.Block.new pm.m_bucket_capacity)
    let new_block := some r.2
    let h ← r.1.modifyBlock new_block (fun b => { b with m_prev := active })
    let h ← h.modifyBlock active (fun b => { b with m_next := new_block })
    pure ({ pm with m_free_blocks := stack.push new_block }, h)
  else
    pure (pm, h)

/-- Code of `PhysicalMemory::push(x, el)` (both overloads run the same steps). -/
def BucketStorage.PhysicalMemory.push {T : Type} (pm : BucketStorage.PhysicalMemory)
    (h : Heap T) (x : T) (el : Option Nat) :
    Except Fault (BucketStorage.PhysicalMemory × Heap T) := do
  let (pm, h) ← pm.ensure_capacity h
  let m_active_block := pm.m_free_blocks.peek
  let b ← h.block m_active_block
  let h ←
    (if !b.m_free_pos.empty then do
      let (p, rest) ← b.m_free_pos.pop
      let h ← h.modifyBlock m_active_block (fun b => { b with m_free_pos := rest })
      let h ← h.modifyElement el (fun e => { e with m_pos := p })
      let e ← h.element el
      h.construct m_active_block e.m_pos x
    else do
      let h ← h.construct m_active_block b.m_head x
      let h ← h.modifyElement el (fun e => { e with m_pos := b.m_head })
      h.modifyBlock m_active_block (fun b => { b with m_head := b.m_head + 1 }) :
      Except Fault (Heap T))
  let h ← h.modifyElement el (fun e => { e with m_block_link := m_active_block })
  let h ← h.modifyBlock m_active_block (fun b => { b with m_size := b.m_size + 1 })
  pure (pm, h)

/-- Code of `PhysicalMemory::empty(Block* block_link)`. -/
def BucketStorage.PhysicalMemory.empty {T : Type} (pm : BucketStorage.PhysicalMemory)
    (h : Heap T) (block_link : Option Nat) :
    Except Fault (BucketStorage.PhysicalMemory × Heap T) := do
  let b ← h.block block_link
  if b.m_size = 0 then
    match b.m_prev with
    | none => do
      let h ← (match b.m_next with
        | some n => h.modifyBlock (some n) (fun x => { x with m_prev := none })
        | none => pure h)
      let h ← h.deleteBlock block_link
      pure ({ pm with m_last_block := none, m_size := decr64 pm.m_size }, h)
    | some q => do
      let pm := { pm with m_size := decr64 pm.m_size }
      let block_link := some q
      let pb ← h.block block_link
      let h ← h.deleteBlock pb.m_next
      let h ← h.modifyBlock block_link (fun x => { x with m_next := none })
      pure ({ pm with m_last_block := none }, h)
  else
    pure (pm, h)

/-- Code of `BucketStorage::BucketStorage(size_type m_bucket_capacity)`. -/
def BucketStorage.init {T : Type} (h : Heap T) (cap : Nat) : BucketStorage × Heap T :=
  let r := BucketStorage.VirtualMemory.new h
  ({ m_virtual_memory := some r.1,
     m_physical_memory := some (BucketStorage.PhysicalMemory.new cap),
     m_bucket_size := 0, m_bucket_capacity := cap }, r.2)

/-- Code of `BucketStorage::begin`. -/
def BucketStorage.begin (bs : BucketStorage) : Except Fault BucketStorage.BaseIterator := do
  let vm ← derefPtr bs.m_virtual_memory
  pure ⟨vm.m_start⟩

/-- Code of `BucketStorage::end`. -/
def BucketStorage.end (bs : BucketStorage) : Except Fault BucketStorage.BaseIterator := do
  let vm ← derefPtr bs.m_virtual_memory
  pure ⟨vm.m_over_end⟩

/-- Code of `BucketStorage::size`. -/
def BucketStorage.size (bs : BucketStorage) : Nat := bs.m_bucket_size

/-- Code of `BucketStorage::empty`. -/
def BucketStorage.empty (bs : BucketStorage) : Bool := bs.m_bucket_size = 0

/-- Code of `BucketStorage::capacity`. -/
def BucketStorage.capacity (bs : BucketStorage) : Except Fault Nat := do
  let pm ← derefPtr bs.m_physical_memory
  pure (bs.m_bucket_capacity * pm.size)

/-- Code of `BucketStorage::insert_impl` (reached from both `insert` overloads). -/
def BucketStorage.insert_impl {T : Type} (bs : BucketStorage) (h : Heap T) (x : T) :
    Except Fault (BucketStorage × Heap T × BucketStorage.BaseIterator) := do
  let vm ← derefPtr bs.m_virtual_memory
  let last ← h.element vm.m_end
  let r := h.newElement (BucketStorage.Element.new (last.m_time + 1))
  let el := some r.2
  let pm ← derefPtr bs.m_physical_memory
  let (pm, h) ← pm.push r.1 x el
  let (vm, h) ← vm.push h el
  pure ({ bs with m_virtual_memory := some vm, m_physical_memory := some pm,
                  m_bucket_size := bs.m_bucket_size + 1 }, h, ⟨el⟩)

/-- Code of `BucketStorage::insert`. -/
def BucketStorage.insert {T : Type} (bs : BucketStorage) (h : Heap T) (x : T) :
    Except Fault (BucketStorage × Heap T × BucketStorage.BaseIterator) :=
  bs.insert_impl h x

/-- Code of `BucketStorage::erase(iterator iter)`. -/
def BucketStorage.erase {T : Type} (bs : BucketStorage) (h : Heap T)
    (iter : BucketStorage.BaseIterator) :
    Except Fault (BucketStorage × Heap T × BucketStorage.BaseIterator) := do
  let el := iter.m_current
  match el with
  | none => do
    let e ← bs.end
    pure (bs, h, e)
  | some _ => do
    let e ← h.element el
    let b ← h.block e.m_block_link
    let pmo ←
      (if b.m_size = b.m_capacity then do
        let pm ← derefPtr bs.m_physical_memory
        pure (some (pm.push_free_block e.m_block_link))
      else pure bs.m_physical_memory : Except Fault (Option BucketStorage.PhysicalMemory))
    let h ← h.modifyBlock e.m_block_link
      (fun b => { b with m_free_pos := b.m_free_pos.push e.m_pos })
    let h ← h.modifyBlock e.m_block_link (fun b => { b with m_size := decr64 b.m_size })
    let e ← h.element el
    let (vmo, h) ←
      (match e.m_prev with
      | some q => do
        let h ← h.modifyElement (some q) (fun x => { x with m_next := e.m_next })
        pure (bs.m_virtual_memory, h)
      | none => do
        let vm ← derefPtr bs.m_virtual_memory
        pure (some { vm with m_start := e.m_next }, h) :
        Except Fault (Option BucketStorage.VirtualMemory × Heap T))
    let e ← h.element el
    let (vmo, h) ←
      (match e.m_next with
      | some q => do
        let h ← h.modifyElement (some q) (fun x => { x with m_prev := e.m_prev })
        pure (vmo, h)
      | none => do
        let vm ← derefPtr vmo
        pure (some { vm with m_end := e.m_prev }, h) :
        Except Fault (Option BucketStorage.VirtualMemory × Heap T))
    let e ← h.element el
    let next_el := e.m_next
    let h ← h.destruct e.m_block_link e.m_pos
    let pm ← derefPtr pmo
    let (pm, h) ← pm.empty h e.m_block_link
    let h ← h.deleteElement el
    pure ({ bs with m_virtual_memory := vmo, m_physical_memory := some pm,
                    m_bucket_size := decr64 bs.m_bucket_size }, h, ⟨next_el⟩)

/-- Code of `BaseIterator::operator*`. -/
def BucketStorage.BaseIterator.deref {T : Type} (it : BucketStorage.BaseIterator)
    (h : Heap T) : Except Fault T := do
  let e ← h.element it.m_current
  h.slot e.m_block_link e.m_pos

/-- Code of `BaseIterator::operator++`. -/
def BucketStorage.BaseIterator.incr {T : Type} (it : BucketStorage.BaseIterator)
    (h : Heap T) : Except Fault BucketStorage.BaseIterator := do
  let e ← h.element it.m_current
  pure ⟨e.m_next⟩

/-- Code of `BaseIterator::operator--`. -/
def BucketStorage.BaseIterator.decr {T : Type} (it : BucketStorage.BaseIterator)
    (h : Heap T) : Except Fault BucketStorage.BaseIterator := do
  let e ← h.element it.m_current
  pure ⟨e.m_prev⟩

/-- Code of `BaseIterator::operator==`: compares the timestamps of the two nodes. -/
def BucketStorage.BaseIterator.eq {T : Type} (it other : BucketStorage.BaseIterator)
    (h : Heap T) : Except Fault Bool := do
  let a ← h.element it.m_current
  let b ← h.element other.m_current
  pure (decide (a.m_time = b.m_time))

/-- Code of `BaseIterator::operator!=`: compares the timestamps of the two nodes. -/
def BucketStorage.BaseIterator.ne {T : Type} (it other : BucketStorage.BaseIterator)
    (h : Heap T) : Except Fault Bool := do
  let a ← h.element it.m_current
  let b ← h.element other.m_current
  pure (decide (a.m_time ≠ b.m_time))

/-- The loop `for (it = from; it != end(); ++it) out.push_back(*it)`, at most
`fuel` rounds. -/
def BucketStorage.walk {T : Type} (bs : BucketStorage) (h : Heap T) :
    Nat → BucketStorage.BaseIterator → Except Fault (List T)
  | 0, _ => .error .outOfFuel
  | fuel + 1, it => do
    let e ← bs.end
    if (← it.ne e h) then do
      let v ← it.deref h
      let nxt ← it.incr h
      let rest ← BucketStorage.walk bs h fuel nxt
      pure (v :: rest)
    else
      pure []

/-- The range-for loop of `main.cpp`, `for (const auto& elem : stl)`, collecting
what it visits.  A walk that does not come back to a node visits fewer nodes
than were ever allocated, so that count bounds the rounds. -/
def BucketStorage.values {T : Type} (bs : BucketStorage) (h : Heap T) :
    Except Fault (List T) := do
  let b ← bs.begin
  bs.walk h (h.elements.length + 1) b

/-- The loop `while (!empty()) erase(begin());`, at most `fuel` rounds. -/
def BucketStorage.eraseAll {T : Type} :
    Nat → BucketStorage → Heap T → Except Fault (BucketStorage × Heap T)
  | 0, bs, h => if bs.empty then pure (bs, h) else .error .outOfFuel
  | fuel + 1, bs, h =>
    if bs.empty then pure (bs, h)
    else do
      let b ← bs.begin
      let (bs, h, _) ← bs.erase h b
      BucketStorage.eraseAll fuel bs h

/-- Code of `BucketStorage::clear`.  Every round of the loop lowers
`m_bucket_size` by one, so `m_bucket_size` rounds are enough. -/
def BucketStorage.clear {T : Type} (bs : BucketStorage) (h : Heap T) :
    Except Fault (BucketStorage × Heap T) := do
  let (bs, h) ← BucketStorage.eraseAll bs.m_bucket_size bs h
  let vm ← derefPtr bs.m_virtual_memory
  let vm := { vm with m_start := vm.m_over_end }
  let vm := { vm with m_end := vm.m_over_end }
  let pm ← derefPtr bs.m_physical_memory
  pure ({ bs with m_virtual_memory := some vm,
                  m_physical_memory := some pm.clear_free_blocks,
                  m_bucket_size := 0 }, h)

/-- Code of `BucketStorage::swap`: the four `swap` calls on the members, in
the order of the source; the result is the pair (`*this`, `other`). -/
def BucketStorage.swap (a other : BucketStorage) : BucketStorage × BucketStorage :=
  let s1 : BucketStorage × BucketStorage :=
    ({ a with m_virtual_memory := other.m_virtual_memory },
     { other with m_virtual_memory := a.m_virtual_memory })
  let s2 : BucketStorage × BucketStorage :=
    ({ s1.1 with m_bucket_capacity := s1.2.m_bucket_capacity },
     { s1.2 with m_bucket_capacity := s1.1.m_bucket_capacity })
  let s3 : BucketStorage × BucketStorage :=
    ({ s2.1 with m_bucket_size := s2.2.m_bucket_size },
     { s2.2 with m_bucket_size := s2.1.m_bucket_size })
  ({ s3.1 with m_physical_memory := s3.2.m_physical_memory },
   { s3.2 with m_physical_memory := s3.1.m_physical_memory })

/-- Code of `VirtualMemory::~VirtualMemory`: deletes every node reached from
`m_start` through `m_next`, at most `fuel` rounds. -/
def BucketStorage.VirtualMemory.deleteChain {T : Type} :
    Nat → Heap T → Option Nat → Except Fault (Heap T)
  | 0, h, cur => if cur = none then pure h else .error .outOfFuel
  | fuel + 1, h, cur =>
    match cur with
    | none => pure h
    | some a => do
      let e ← h.element (some a)
      let h ← h.deleteElement (some a)
      BucketStorage.VirtualMemory.deleteChain fuel h e.m_next

/-- Code of `BucketStorage::~BucketStorage`; `delete` of a null sub-object
pointer does nothing, and `~PhysicalMemory` only releases the stack. -/
def BucketStorage.destroy {T : Type} (bs : BucketStorage) (h : Heap T) :
    Except Fault (Heap T) := do
  let (bs, h) ← BucketStorage.eraseAll bs.m_bucket_size bs h
  match bs.m_virtual_memory with
  | none => pure h
  | some vm => BucketStorage.VirtualMemory.deleteChain h.elements.length h vm.m_start

/-- The loop of `shrink_to_fit`: `while (i != end()) { temp.insert(std::move(*i)); i++; }`,
at most `fuel` rounds. -/
def BucketStorage.moveInto {T : Type} (bs : BucketStorage) :
    Nat → BucketStorage → Heap T → BucketStorage.BaseIterator →
      Except Fault (BucketStorage × Heap T)
  | 0, _, _, _ => .error .outOfFuel
  | fuel + 1, temp, h, i => do
    let e ← bs.end
    if (← i.ne e h) then do
      let v ← i.deref h
      let (temp, h, _) ← temp.insert h v
      let nxt ← i.incr h
      BucketStorage.moveInto bs fuel temp h nxt
    else
      pure (temp, h)

/-- Code of `BucketStorage::shrink_to_fit`, the destructor of the local
`temp_bucket` at the closing brace included. -/
def BucketStorage.shrink_to_fit {T : Type} (bs : BucketStorage) (h : Heap T) :
    Except Fault (BucketStorage × Heap T) := do
  let (temp_bucket, h0) := BucketStorage.init h bs.m_bucket_capacity
  let i ← bs.begin
  let (temp_bucket, h1) ← BucketStorage.moveInto bs (h.elements.length + 1) temp_bucket h0 i
  let (bs, temp_bucket) := bs.swap temp_bucket
  let h2 ← temp_bucket.destroy h1
  pure (bs, h2)

/-- The body `++it` repeated `n` times. -/
def BucketStorage.BaseIterator.advance {T : Type} (h : Heap T) :
    Nat → BucketStorage.BaseIterator → Except Fault BucketStorage.BaseIterator
  | 0, it => pure it
  | n + 1, it => do
    let nxt ← it.incr h
    BucketStorage.BaseIterator.advance h n nxt

/-- The body `--it` repeated `n` times. -/
def BucketStorage.BaseIterator.retreat {T : Type} (h : Heap T) :
    Nat → BucketStorage.BaseIterator → Except Fault BucketStorage.BaseIterator
  | 0, it => pure it
  | n + 1, it => do
    let prv ← it.decr h
    BucketStorage.BaseIterator.retreat h n prv

/-- Code of `BucketStorage::get_to_distance`: the first loop runs `dist` times
when `dist > 0`, the second `-dist` times when `dist < 0`. -/
def BucketStorage.get_to_distance {T : Type} (_bs : BucketStorage) (h : Heap T)
    (it : BucketStorage.BaseIterator) (dist : Int) :
    Except Fault BucketStorage.BaseIterator := do
  let it ← BucketStorage.BaseIterator.advance h dist.toNat it
  BucketStorage.BaseIterator.retreat h (-dist).toNat it

deriving instance DecidableEq for Except

/-- One call of a driver program in the style of `main.cpp`. -/
inductive BucketStorage.Call (T : Type) where
  | insert (x : T)
  | eraseAt (k : Nat)
  | eraseEnd
  | clear
  | shrink_to_fit
deriving DecidableEq, Repr

/-- Run one driver call: `insert(x)`; `erase(get_to_distance(begin(), k))`,
that is erase of the element at index `k` of the iteration order;
`erase(end())`; `clear()`; `shrink_to_fit()`. -/
def BucketStorage.call {T : Type} (s : BucketStorage × Heap T) :
    BucketStorage.Call T → Except Fault (BucketStorage × Heap T)
  | .insert x => do
    let (bs, h, _) ← s.1.insert s.2 x
    pure (bs, h)
  | .eraseAt k => do
    let b ← s.1.begin
    let it ← s.1.get_to_distance s.2 b (k : Int)
    let (bs, h, _) ← s.1.erase s.2 it
    pure (bs, h)
  | .eraseEnd => do
    let e ← s.1.end
    let (bs, h, _) ← s.1.erase s.2 e
    pure (bs, h)
  | .clear => s.1.clear s.2
  | .shrink_to_fit => s.1.shrink_to_fit s.2

/-- Run a driver program on a container of its own. -/
def BucketStorage.runFrom {T : Type} (s : BucketStorage × Heap T) :
    List (BucketStorage.Call T) → Except Fault (BucketStorage × Heap T)
  | [] => pure s
  | c :: cs => do
    let s ← BucketStorage.call s c
    BucketStorage.runFrom s cs

/-- Run a driver program on a freshly constructed `BucketStorage(cap)`. -/
def BucketStorage.run {T : Type} (cap : Nat) (calls : List (BucketStorage.Call T)) :
    Except Fault (BucketStorage × Heap T) :=
  BucketStorage.runFrom (BucketStorage.init Heap.empty cap) calls

/-- What a caller can observe of a container: the iteration sequence,
`size()` and `capacity()`. -/
def BucketStorage.observe {T : Type} (s : BucketStorage × Heap T) :
    Except Fault (List T × Nat × Nat) := do
  let vs ← s.1.values s.2
  let c ← s.1.capacity
  pure (vs, s.1.size, c)

/-- Code of `BaseIterator::operator<`: compares the timestamps of the two nodes. -/
def BucketStorage.BaseIterator.lt {T : Type} (it other : BucketStorage.BaseIterator)
    (h : Heap T) : Except Fault Bool := do
  let a ← h.element it.m_current
  let b ← h.element other.m_current
  pure (decide (a.m_time < b.m_time))

/-- Code of `BucketStorage::cbegin`. -/
def BucketStorage.cbegin (bs : BucketStorage) : BucketStorage.BaseIterator :=
  match bs.m_virtual_memory with
  | some vm => ⟨vm.m_start⟩
  | none => ⟨none⟩

/-- Code of `BucketStorage::cend`: the node after `m_end`. -/
def BucketStorage.cend {T : Type} (bs : BucketStorage) (h : Heap T) :
    Except Fault BucketStorage.BaseIterator :=
  match bs.m_virtual_memory with
  | some vm => do
    let e ← h.element vm.m_end
    pure ⟨e.m_next⟩
  | none => pure ⟨none⟩

/-- The loop of the copy constructor,
`while (temp != other.end()) { insert(*temp); ++temp; }`, at most `fuel` rounds. -/
def BucketStorage.copyLoop {T : Type} (other : BucketStorage) :
    Nat → BucketStorage → Heap T → BucketStorage.BaseIterator →
      Except Fault (BucketStorage × Heap T)
  | 0, _, _, _ => .error .outOfFuel
  | fuel + 1, self, h, temp => do
    let e ← other.end
    if (← temp.ne e h) then do
      let v ← temp.deref h
      let (self, h, _) ← self.insert h v
      let nxt ← temp.incr h
      BucketStorage.copyLoop other fuel self h nxt
    else
      pure (self, h)

/-- Code of `BucketStorage::BucketStorage(const BucketStorage& other)`: the new
container and the heap after the construction. -/
def BucketStorage.copy_construct {T : Type} (other : BucketStorage) (h : Heap T) :
    Except Fault (BucketStorage × Heap T) := do
  let (self, h0) := BucketStorage.init h other.m_bucket_capacity
  let temp ← other.begin
  BucketStorage.copyLoop other (h.elements.length + 1) self h0 temp

/-- Code of `BucketStorage::BucketStorage(BucketStorage&& other)`: the new
container and the moved-from `other`. -/
def BucketStorage.move_construct (other : BucketStorage) : BucketStorage × BucketStorage :=
  ({ m_virtual_memory := other.m_virtual_memory,
     m_physical_memory := other.m_physical_memory,
     m_bucket_size := other.m_bucket_size,
     m_bucket_capacity := other.m_bucket_capacity },
   { m_virtual_memory := none, m_physical_memory := none, m_bucket_size := 0,
     m_bucket_capacity := 0 })

/-- What the value constructor throws. -/
inductive Thrown where
  | int
  | other
deriving DecidableEq, Repr

/-- Code of `PhysicalMemory::push` on the path where `value_type(x)` throws:
the statements that run before the placement `new`. -/
def BucketStorage.PhysicalMemory.push_throwing {T : Type} (pm : BucketStorage.PhysicalMemory)
    (h : Heap T) (el : Option Nat) : Except Fault (BucketStorage.PhysicalMemory × Heap T) := do
  let (pm, h) ← pm.ensure_capacity h
  let m_active_block := pm.m_free_blocks.peek
  let b ← h.block m_active_block
  if !b.m_free_pos.empty then do
    let (p, rest) ← b.m_free_pos.pop
    let h ← h.modifyBlock m_active_block (fun b => { b with m_free_pos := rest })
    let h ← h.modifyElement el (fun e => { e with m_pos := p })
    let _ ← h.element el
    pure (pm, h)
  else
    pure (pm, h)

/-- Code of `BucketStorage::insert_impl` on the path where constructing the
value throws: the state in which the exception leaves `insert`.  The handler
`catch (int) { delete el; throw; }` runs for an `int` only. -/
def BucketStorage.insert_impl_throwing {T : Type} (bs : BucketStorage) (h : Heap T)
    (thrown : Thrown) : Except Fault (BucketStorage × Heap T) := do
  let vm ← derefPtr bs.m_virtual_memory
  let last ← h.element vm.m_end
  let r := h.newElement (BucketStorage.Element.new (last.m_time + 1))
  let el := some r.2
  let pm ← derefPtr bs.m_physical_memory
  let (pm, h) ← pm.push_throwing r.1 el
  let h ← (match thrown with
    | .int => h.deleteElement el
    | .other => pure h)
  pure ({ bs with m_physical_memory := some pm }, h)

/-- The iterator that stands at index `i` of the iteration order, `begin()`
advanced `i` times; index `size()` is `end()`. -/
def BucketStorage.iterAt {T : Type} (s : BucketStorage × Heap T) (i : Nat) :
    Except Fault BucketStorage.BaseIterator := do
  let b ← s.1.begin
  BucketStorage.BaseIterator.advance s.2 i b

/-! ## The shape of the order list

These predicates are not code: they say what a well-formed Virtual Order List
looks like on the heap, and are shown to hold in every state that a driver
program reaches. -/

/-- What unlinking the node `e` makes of the node `c` at address `b`: a new
`m_next` if `b` is the predecessor of `e`, a new `m_prev` if `b` is its
successor, and `c` itself otherwise. -/
def BucketStorage.Element.relink (e : BucketStorage.Element) (b : Nat)
    (c : BucketStorage.Element) : BucketStorage.Element :=
  { c with m_next := if e.m_prev = some b then e.m_next else c.m_next,
           m_prev := if e.m_next = some b then e.m_prev else c.m_prev }

/-- The nodes at the addresses `ns` are alive and doubly linked in this order,
the first with a null `m_prev` and the last with a null `m_next`, and their
timestamps ascend strictly. -/
def Heap.Linked {T : Type} (h : Heap T) (ns : List Nat) : Prop :=
  (∀ j a, ns[j]? = some a → ∃ e, h.elements[a]? = some (some e) ∧
      e.m_next = ns[j + 1]? ∧ e.m_prev = (if j = 0 then none else ns[j - 1]?)) ∧
  (∀ (i j a b : Nat) (ea eb : BucketStorage.Element), i < j → ns[i]? = some a →
      ns[j]? = some b →
      h.elements[a]? = some (some ea) → h.elements[b]? = some (some eb) →
      ea.m_time < eb.m_time)

/-- The container `s` holds the elements at the addresses `as`, in this order,
before the sentinel at address `o`: `m_start` is the first node of `as ++ [o]`,
`m_bucket_size` is the number of elements, the nodes are linked, the sentinel
has no block, and `m_end` is the last element (the sentinel when there is
none) or names a node that has been destroyed. -/
def BucketStorage.ListInv {T : Type} (s : BucketStorage × Heap T) (as : List Nat)
    (o : Nat) : Prop :=
  ∃ en, s.1.m_virtual_memory = some ⟨(as ++ [o])[0]?, en, some o⟩ ∧
    s.1.m_bucket_size = as.length ∧
    (en = (as ++ [o])[as.length - 1]? ∨ ∃ a, en = some a ∧ s.2.elements[a]? = some none) ∧
    s.2.Linked (as ++ [o]) ∧
    (∃ e, s.2.elements[o]? = some (some e) ∧ e.m_block_link = none)

/-! ## The shape of the blocks

These predicates are not code either: they say what the slot bookkeeping of
the blocks looks like on the heap. -/

/-- A block without its chain links: what is left is its slot bookkeeping
(`m_head`, `m_arr`, `m_free_pos`, `m_size`, `m_capacity`). -/
def BucketStorage.Block.unlinked {T : Type} (b : BucketStorage.Block T) :
    BucketStorage.Block T :=
  { b with m_prev := none, m_next := none }

/-- From `h` to `h2` no node was touched, and every block that is allocated in
`h2` either was allocated in `h` with the same slot bookkeeping or is a new
block, constructed with capacity `C`.  Blocks may have been deallocated. -/
def Heap.Grows {T : Type} (h h2 : Heap T) (C : Nat) : Prop :=
  h2.elements = h.elements ∧ h.blocks.length ≤ h2.blocks.length ∧
  ∀ (u : Nat) (b2 : BucketStorage.Block T), h2.blocks[u]? = some (some b2) →
    ∃ b0 : BucketStorage.Block T,
      (h.blocks[u]? = some (some b0) ∨
        (h.blocks.length ≤ u ∧ b0 = BucketStorage.Block.new C)) ∧
      b2.unlinked = b0.unlinked

/-- The slot bookkeeping of the heap for bucket capacity `C`.  Every allocated
block has capacity `C`, raw storage for `C` values, `m_head ≤ C`,
`m_size + |m_free_pos| = m_head`, pairwise distinct free positions below
`m_head`, and a node at every position below `m_head` that is not free; every
node that names an allocated block sits at a position below `m_head` that is
not free; no two nodes name the same block and position; and every block that
a node names has been allocated at some time. -/
def Heap.BlockInv {T : Type} (h : Heap T) (C : Nat) : Prop :=
  (∀ (t : Nat) (b : BucketStorage.Block T), h.blocks[t]? = some (some b) →
      b.m_capacity = C ∧ b.m_arr.length = C ∧ b.m_head ≤ C ∧
      b.m_size + b.m_free_pos.nodes.length = b.m_head ∧
      b.m_free_pos.nodes.Nodup ∧ (∀ p, p ∈ b.m_free_pos.nodes → p < b.m_head) ∧
      (∀ p, p < b.m_head → p ∉ b.m_free_pos.nodes →
        ∃ (a : Nat) (e : BucketStorage.Element), h.elements[a]? = some (some e) ∧
          e.m_block_link = some t ∧ e.m_pos = p)) ∧
  (∀ (a t : Nat) (e : BucketStorage.Element) (b : BucketStorage.Block T),
      h.elements[a]? = some (some e) → e.m_block_link = some t →
      h.blocks[t]? = some (some b) →
      e.m_pos < b.m_head ∧ e.m_pos ∉ b.m_free_pos.nodes) ∧
  (∀ (a a2 : Nat) (e e2 : BucketStorage.Element),
      h.elements[a]? = some (some e) → h.elements[a2]? = some (some e2) →
      e.m_block_link ≠ none → e.m_block_link = e2.m_block_link → e.m_pos = e2.m_pos →
      a = a2) ∧
  (∀ (a t : Nat) (e : BucketStorage.Element),
      h.elements[a]? = some (some e) → e.m_block_link = some t → t < h.blocks.length)

/-- The container `s` has bucket capacity `C`, in the container and in its
allocator, its order list is well formed with the elements `as` before the
sentinel `o`, and the blocks of the heap obey the slot bookkeeping. -/
def BucketStorage.Good {T : Type} (s : BucketStorage × Heap T) (C : Nat) (as : List Nat)
    (o : Nat) : Prop :=
  BucketStorage.ListInv s as o ∧ s.1.m_bucket_capacity = C ∧
  (∃ pm, s.1.m_physical_memory = some pm ∧ pm.m_bucket_capacity = C) ∧
  s.2.BlockInv C

/-- Every node that is alive belongs to one of the lists `ns`. -/
def Heap.Listed {T : Type} (h : Heap T) (ns : List Nat) : Prop :=
  ∀ (a : Nat) (e : BucketStorage.Element), h.elements[a]? = some (some e) → a ∈ ns

/-- Every allocated block with a slot available (`m_size < C`) is on the
free-block stack of the container. -/
def BucketStorage.FreeListed {T : Type} (s : BucketStorage × Heap T) (C : Nat) : Prop :=
  ∃ pm, s.1.m_physical_memory = some pm ∧
    ∀ (t : Nat) (b : BucketStorage.Block T), s.2.blocks[t]? = some (some b) →
      b.m_size < C → some t ∈ pm.m_free_blocks.nodes

/-- The driver calls `insert(x)` and `erase(it)`. -/
def BucketStorage.Call.isInsertOrErase {T : Type} : BucketStorage.Call T → Bool
  | .insert _ => true
  | .eraseAt _ => true
  | .eraseEnd => true
  | .clear => false
  | .shrink_to_fit => false

/-! ## The container after `n` inserts and no erase, in closed form

With the sentinel at address `0`, the `i`-th inserted element (counting from
`0`) sits at element address `i + 1`, in slot `i % C` of block `i / C`. -/

theorem lt_length_of_getElem? {α : Type} {l : List α} {a : Nat} {x : α}
    (hg : l[a]? = some x) : a < l.length := by
  by_contra hc
  rw [List.getElem?_eq_none (by omega)] at hg
  cases hg

theorem Heap.modifyElement_get {T : Type} {h : Heap T} {a : Nat} {e : BucketStorage.Element}
    (hg : h.elements[a]? = some (some e)) (f : BucketStorage.Element → BucketStorage.Element) :
    h.modifyElement (some a) f = .ok ⟨h.elements.set a (some (f e)), h.blocks⟩ := by
  simp [Heap.modifyElement, hg]

theorem Heap.block_get {T : Type} {h : Heap T} {a : Nat} {b : BucketStorage.Block T}
    (hg : h.blocks[a]? = some (some b)) : h.block (some a) = .ok b := by
  simp [Heap.block, hg]

theorem Heap.modifyBlock_get {T : Type} {h : Heap T} {a : Nat} {b : BucketStorage.Block T}
    (hg : h.blocks[a]? = some (some b)) (f : BucketStorage.Block T → BucketStorage.Block T) :
    h.modifyBlock (some a) f = .ok ⟨h.elements, h.blocks.set a (some (f b))⟩ := by
  simp [Heap.modifyBlock, hg]

theorem Heap.construct_get {T : Type} {h : Heap T} {a : Nat} {b : BucketStorage.Block T}
    (hg : h.blocks[a]? = some (some b)) {pos : Nat} (hp : pos < b.m_arr.length) (x : T) :
    h.construct (some a) pos x =
      .ok ⟨h.elements, h.blocks.set a (some { b with m_arr := b.m_arr.set pos (some x) })⟩ := by
  simp [Heap.construct, Heap.block_get hg, Heap.modifyBlock_get hg, hp, bind, Except.bind]

theorem decr64_succ (n : Nat) : decr64 (n + 1) = n := by
  simp [decr64]

/-- C2 (fails on the code). `C = 1`, five inserts, then the erase of the 2nd,
the 5th and the 3rd inserted element, a subset with a gap. The first two erases
succeed and leave `[10, 30, 40]`; the block of `30` still names the destroyed
block of `20` as its `m_prev`, and the erase of `30` reads that destroyed block. -/
theorem C2_erase_reads_destroyed_block :
    (BucketStorage.run 1 ([.insert 10, .insert 20, .insert 30, .insert 40, .insert 50,
          .eraseAt 1, .eraseAt 3] : List (BucketStorage.Call Nat))
        >>= BucketStorage.observe) = .ok ([10, 30, 40], 3, 3) ∧
    (do
      let s ← BucketStorage.run 1 ([.insert 10, .insert 20, .insert 30, .insert 40, .insert 50,
          .eraseAt 1, .eraseAt 3] : List (BucketStorage.Call Nat))
      let b ← s.1.begin
      let it ← s.1.get_to_distance s.2 b 1
      let v ← it.deref s.2
      let e ← s.2.element it.m_current
      let blk ← s.2.block e.m_block_link
      pure (v, blk.m_size, blk.m_prev, s.2.block blk.m_prev)) =
      .ok (30, 1, some 1, .error .useAfterFree) ∧
    BucketStorage.run 1 ([.insert 10, .insert 20, .insert 30, .insert 40, .insert 50,
          .eraseAt 1, .eraseAt 3, .eraseAt 1] : List (BucketStorage.Call Nat)) =
      .error .useAfterFree := by
  decide

/-- C3 (fails on the code). `C = 2`, two inserts, erase of the last element:
the state is reachable and shows `[10]`, but `m_end` still points at the
destroyed node, and the next `insert` reads its timestamp. -/
theorem C3_insert_after_erasing_last :
    (BucketStorage.run 2 ([.insert 10, .insert 20, .eraseAt 1] : List (BucketStorage.Call Nat))
        >>= BucketStorage.observe) = .ok ([10], 1, 2) ∧
    (do
      let s ← BucketStorage.run 2
        ([.insert 10, .insert 20, .eraseAt 1] : List (BucketStorage.Call Nat))
      let vm ← derefPtr s.1.m_virtual_memory
      pure (vm.m_end, s.2.element vm.m_end)) = .ok (some 2, .error .useAfterFree) ∧
    (do
      let s ← BucketStorage.run 2
        ([.insert 10, .insert 20, .eraseAt 1] : List (BucketStorage.Call Nat))
      s.1.insert s.2 30) = .error .useAfterFree := by
  decide

/-- C4 (fails on the code). The example of the claim holds (default capacity,
insert `1,2,3,4`, erase `2`: the sequence is `[1,3,4]` and the iterator held to
`4` still yields `4`). But with `C = 2`, after insert `1,2,3`, erase `1`, insert
`4,5` the sequence is `[2,3,4,5]`, and the erase of `3` destroys the block that
holds the live element `5`: the iterator held to `5` yields `5` before the erase
and names a destroyed block after it. -/
theorem C4_erase_destroys_block_of_live_element :
    (do
      let s ← BucketStorage.run 64
        ([.insert 1, .insert 2, .insert 3, .insert 4] : List (BucketStorage.Call Nat))
      let b ← s.1.begin
      let it2 ← s.1.get_to_distance s.2 b 1
      let it4 ← s.1.get_to_distance s.2 b 3
      let (bs, h, _) ← s.1.erase s.2 it2
      let vs ← bs.values h
      pure (vs, it4.deref h)) = .ok ([1, 3, 4], .ok 4) ∧
    (BucketStorage.run 2 ([.insert 1, .insert 2, .insert 3, .eraseAt 0, .insert 4, .insert 5] :
        List (BucketStorage.Call Nat)) >>= BucketStorage.observe) = .ok ([2, 3, 4, 5], 4, 6) ∧
    (do
      let s ← BucketStorage.run 2
        ([.insert 1, .insert 2, .insert 3, .eraseAt 0, .insert 4, .insert 5] :
          List (BucketStorage.Call Nat))
      let b ← s.1.begin
      let it3 ← s.1.get_to_distance s.2 b 1
      let it5 ← s.1.get_to_distance s.2 b 3
      let before ← it5.deref s.2
      let (_, h, _) ← s.1.erase s.2 it3
      pure (before, it5.deref h)) = .ok (5, .error .useAfterFree) := by
  decide

/-- C5 (fails on the code). `C = 1`, three inserts, erase of the middle element:
the state is reachable and shows `[10, 30]`, the iterator at index 1 is live and
yields `30`, and `erase` of it does not return: it reads a destroyed block. -/
theorem C5_erase_of_live_element_faults :
    (BucketStorage.run 1
        ([.insert 10, .insert 20, .insert 30, .eraseAt 1] : List (BucketStorage.Call Nat))
        >>= BucketStorage.observe) = .ok ([10, 30], 2, 2) ∧
    (do
      let s ← BucketStorage.run 1
        ([.insert 10, .insert 20, .insert 30, .eraseAt 1] : List (BucketStorage.Call Nat))
      let b ← s.1.begin
      let it ← s.1.get_to_distance s.2 b 1
      let v ← it.deref s.2
      pure (v, s.1.erase s.2 it)) = .ok (30, .error .useAfterFree) := by
  decide

/-- C6 (fails on the code). `erase(end())` on a fresh container and on a
container with one element: `end()` is the sentinel node, not `nullptr`, so the
guard of `erase` does not fire and the null block link of the sentinel is
dereferenced. -/
theorem C6_erase_end_dereferences_null :
    (do
      let e ← (BucketStorage.init (Heap.empty : Heap Nat) 64).1.end
      pure e.m_current) = .ok (some 0) ∧
    BucketStorage.run 64 ([.eraseEnd] : List (BucketStorage.Call Nat)) = .error .nullDeref ∧
    BucketStorage.run 64 ([.insert 7, .eraseEnd] : List (BucketStorage.Call Nat)) =
      .error .nullDeref := by
  decide

/-- C8 (fails on the code). `C = 2`, insert `1,2,3`, erase `1`, insert `4,5`,
erase `5`, erase `3`: no call faults, the container shows `[2, 4]`, two blocks
are allocated and not deallocated, and `capacity()` is `2`, not `2 * 2`. -/
theorem C8_block_counter_out_of_step :
    (do
      let s ← BucketStorage.run 2 ([.insert 1, .insert 2, .insert 3, .eraseAt 0, .insert 4,
        .insert 5, .eraseAt 3, .eraseAt 1] : List (BucketStorage.Call Nat))
      let c ← s.1.capacity
      let vs ← s.1.values s.2
      pure (vs, c, s.2.liveBlocks, s.1.m_bucket_capacity * s.2.liveBlocks)) =
      .ok ([2, 4], 2, 2, 4) := by
  decide

/-- C9 (fails on the code). `C = 1`, three inserts, erase of the middle element,
then `clear()`: the second erase inside `clear` reads a destroyed block. -/
theorem C9_clear_reads_destroyed_block :
    (BucketStorage.run 1
        ([.insert 10, .insert 20, .insert 30, .eraseAt 1] : List (BucketStorage.Call Nat))
        >>= BucketStorage.observe) = .ok ([10, 30], 2, 2) ∧
    BucketStorage.run 1
        ([.insert 10, .insert 20, .insert 30, .eraseAt 1, .clear] :
          List (BucketStorage.Call Nat)) = .error .useAfterFree := by
  decide

/-- C10 (fails on the code). The same state, then `shrink_to_fit()`: the
destructor of the temporary that took over the old state erases the old
elements, and its second erase reads a destroyed block. On an insert-only
container `shrink_to_fit()` does what the claim says (`C = 2`, three values:
capacity 4 before and after, twice). -/
theorem C10_shrink_reads_destroyed_block :
    (BucketStorage.run 2
        ([.insert 10, .insert 20, .insert 30, .shrink_to_fit, .shrink_to_fit] :
          List (BucketStorage.Call Nat))
        >>= BucketStorage.observe) = .ok ([10, 20, 30], 3, 4) ∧
    (BucketStorage.run 1
        ([.insert 10, .insert 20, .insert 30, .eraseAt 1] : List (BucketStorage.Call Nat))
        >>= BucketStorage.observe) = .ok ([10, 30], 2, 2) ∧
    BucketStorage.run 1
        ([.insert 10, .insert 20, .insert 30, .eraseAt 1, .shrink_to_fit] :
          List (BucketStorage.Call Nat)) = .error .useAfterFree := by
  decide

/-! ## C11: swap -/

/-- C11. `a.swap(b)` leaves in `a` the complete former state of `b` and in `b`
that of `a` (all four members: order list, allocator, size, bucket capacity),
no heap object is touched, so every observation (iteration sequence, `size()`,
`capacity()`) of the one is afterwards that of the other; swapping twice gives
back both containers as they were. -/
theorem C11_swap_exchanges_state {T : Type} (a b : BucketStorage) (h : Heap T) :
    a.swap b = (b, a) ∧
    (a.swap b).1.swap (a.swap b).2 = (a, b) ∧
    BucketStorage.observe ((a.swap b).1, h) = BucketStorage.observe (b, h) ∧
    BucketStorage.observe ((a.swap b).2, h) = BucketStorage.observe (a, h) := by
  have h1 : a.swap b = (b, a) := rfl
  have h2 : b.swap a = (a, b) := rfl
  refine ⟨h1, ?_, ?_, ?_⟩
  · rw [h1]; exact h2
  · rw [h1]
  · rw [h1]

/-! ## C12, C13: copy and move construction -/

/-- C12 (fails on the code). `C = 2`, insert `1,2,3`, erase `2`, insert `4`: the
copy shows the same `[1, 3, 4]`, size and bucket capacity, is built from new
nodes (addresses from 5 on, the source holds 0 to 4) and new blocks (2 and 3,
the source holds 0 and 1) and leaves the source as it was. But after insert `1,2,3`, erase `1`, insert `4,5`, erase `3` the source
is reachable with size 3, and its third element `5` lives in a block that the
last erase destroyed: the loop of the copy constructor reads it. -/
theorem C12_copy_reads_destroyed_block :
    (do
      let s ← BucketStorage.run 2
        ([.insert 1, .insert 2, .insert 3, .eraseAt 1, .insert 4] : List (BucketStorage.Call Nat))
      let r ← s.1.copy_construct s.2
      let before ← BucketStorage.observe s
      let copy ← BucketStorage.observe r
      let after ← BucketStorage.observe (s.1, r.2)
      pure [before, copy, after]) = .ok [([1, 3, 4], 3, 4), ([1, 3, 4], 3, 4), ([1, 3, 4], 3, 4)] ∧
    (do
      let s ← BucketStorage.run 2
        ([.insert 1, .insert 2, .insert 3, .eraseAt 1, .insert 4] : List (BucketStorage.Call Nat))
      let r ← s.1.copy_construct s.2
      let vm ← derefPtr r.1.m_virtual_memory
      pure (r.1.m_bucket_capacity, s.2.elements.length, vm)) =
      .ok (2, 5, { m_start := some 6, m_end := some 8, m_over_end := some 5 }) ∧
    (do
      let s ← BucketStorage.run 2
        ([.insert 1, .insert 2, .insert 3, .eraseAt 1, .insert 4] : List (BucketStorage.Call Nat))
      let r ← s.1.copy_construct s.2
      let pm ← derefPtr r.1.m_physical_memory
      pure (s.2.blocks.length, pm.m_last_block, pm.m_free_blocks.nodes)) =
      .ok (2, some 2, [some 3]) ∧
    (do
      let s ← BucketStorage.run 2 ([.insert 1, .insert 2, .insert 3, .eraseAt 0, .insert 4,
        .insert 5, .eraseAt 1] : List (BucketStorage.Call Nat))
      let b ← s.1.begin
      let it ← s.1.get_to_distance s.2 b 2
      pure (s.1.size, it.deref s.2)) = .ok (3, .error .useAfterFree) ∧
    (do
      let s ← BucketStorage.run 2 ([.insert 1, .insert 2, .insert 3, .eraseAt 0, .insert 4,
        .insert 5, .eraseAt 1] : List (BucketStorage.Call Nat))
      s.1.copy_construct s.2) = .error .useAfterFree := by
  decide

/-- C13 (fails on the code). After move construction from any `src` the
destination holds the former members of `src` (no heap object is touched, so
it shows the former sequence, `size()` and `capacity()`), and on the moved-from
container `size()` is 0 and `empty()` is true; but `capacity()` dereferences
the null `m_physical_memory`, where `cbegin()` checks its pointer for null. -/
theorem C13_moved_from_capacity_dereferences_null (src : BucketStorage) :
    src.move_construct.1 = src ∧
    src.move_construct.2.size = 0 ∧
    src.move_construct.2.empty = true ∧
    src.move_construct.2.m_bucket_capacity = 0 ∧
    src.move_construct.2.m_physical_memory = none ∧
    src.move_construct.2.capacity = .error .nullDeref ∧
    src.move_construct.2.cbegin = ⟨none⟩ := by
  refine ⟨rfl, rfl, rfl, rfl, rfl, rfl, rfl⟩

/-! ## C15: a throwing value constructor -/

/-- C15 (fails on the code). A fresh container with `C = 2` has `capacity()` 0
and no block; after an `insert` whose value constructor throws it has
`capacity()` 2, one allocated block and that block on the free-block stack.
After insert `1,2` and erase `1` the free position 0 of the block is recorded;
the throwing `insert` pops it before the constructor runs and it is not put
back. The sequence and `size()` stay as they were. -/
theorem C15_throwing_insert_changes_state :
    (do
      let s := BucketStorage.init (Heap.empty : Heap Nat) 2
      let r ← s.1.insert_impl_throwing s.2 .int
      let c0 ← s.1.capacity
      let c1 ← r.1.capacity
      pure [c0, c1, s.2.liveBlocks, r.2.liveBlocks]) = .ok [0, 2, 0, 1] ∧
    (do
      let s := BucketStorage.init (Heap.empty : Heap Nat) 2
      let r ← s.1.insert_impl_throwing s.2 .int
      let pm0 ← derefPtr s.1.m_physical_memory
      let pm1 ← derefPtr r.1.m_physical_memory
      pure [pm0.m_free_blocks.nodes, pm1.m_free_blocks.nodes]) = .ok [[], [some 0]] ∧
    (do
      let s := BucketStorage.init (Heap.empty : Heap Nat) 2
      let r ← s.1.insert_impl_throwing s.2 .int
      let vs ← r.1.values r.2
      pure (vs, r.1.size)) = .ok ([], 0) ∧
    (do
      let s ← BucketStorage.run 2
        ([.insert 1, .insert 2, .eraseAt 0] : List (BucketStorage.Call Nat))
      let r ← s.1.insert_impl_throwing s.2 .other
      let b0 ← s.2.block (some 0)
      let b1 ← r.2.block (some 0)
      pure [b0.m_free_pos.nodes, b1.m_free_pos.nodes]) = .ok [[0], []] ∧
    (do
      let s ← BucketStorage.run 2
        ([.insert 1, .insert 2, .eraseAt 0] : List (BucketStorage.Call Nat))
      let r ← s.1.insert_impl_throwing s.2 .other
      let o0 ← BucketStorage.observe s
      let o1 ← BucketStorage.observe r
      pure [o0, o1]) = .ok [([2], 1, 2), ([2], 1, 2)] := by
  decide

/-! ## C16: `cbegin` and `cend` -/

/-- C16 (fails on the code). On a container with elements that was only
inserted into, `cbegin()` and `cend()` are `begin()` and `end()`. On a fresh
container of any bucket capacity `end()` is the sentinel, but `cend()`, the
node after `m_end`, is the null iterator, and `cbegin() == cend()` reads
through it; the same after `clear()`. After the last element was erased
`cend()` reads the destroyed node that `m_end` still names. -/
theorem C16_cend_of_empty_container_is_null :
    (do
      let s ← BucketStorage.run 2 ([.insert 1, .insert 2] : List (BucketStorage.Call Nat))
      let b ← s.1.begin
      let e ← s.1.end
      let ce ← s.1.cend s.2
      pure (b, s.1.cbegin, e, ce)) = .ok (⟨some 1⟩, ⟨some 1⟩, ⟨some 0⟩, ⟨some 0⟩) ∧
    (∀ cap : Nat,
      (BucketStorage.init (Heap.empty : Heap Nat) cap).1.end = .ok ⟨some 0⟩ ∧
      (BucketStorage.init (Heap.empty : Heap Nat) cap).1.cbegin = ⟨some 0⟩ ∧
      (BucketStorage.init (Heap.empty : Heap Nat) cap).1.cend
        (BucketStorage.init (Heap.empty : Heap Nat) cap).2 = .ok ⟨none⟩ ∧
      (BucketStorage.init (Heap.empty : Heap Nat) cap).1.cbegin.eq ⟨none⟩
        (BucketStorage.init (Heap.empty : Heap Nat) cap).2 = .error .nullDeref) ∧
    (do
      let s ← BucketStorage.run 2
        ([.insert 1, .insert 2, .clear] : List (BucketStorage.Call Nat))
      let e ← s.1.end
      let ce ← s.1.cend s.2
      pure (s.1.size, e, ce)) = .ok (0, ⟨some 0⟩, ⟨none⟩) ∧
    (do
      let s ← BucketStorage.run 2
        ([.insert 1, .insert 2, .eraseAt 1] : List (BucketStorage.Call Nat))
      let vs ← s.1.values s.2
      pure (vs, s.1.cend s.2)) = .ok ([1], .error .useAfterFree) := by
  refine ⟨by decide, ?_, by decide, by decide⟩
  intro cap
  exact ⟨rfl, rfl, rfl, rfl⟩

/-! ## C19, C20: the end of the list after an erase -/

/-- C19 (fails on the code). Where the last element is never erased the
timestamps grow: insert, insert, erase of the first, insert, `clear()`, insert
hands out 1, 2, 3 and 5. But `insert_impl` computes the timestamp from the node
`m_end`, and `erase` of the last element leaves `m_end` on the destroyed node:
after three inserts and the erase of the third, `m_end` is the destroyed node 3
and the read of its timestamp in the next `insert` faults. -/
theorem C19_timestamp_read_from_destroyed_node :
    (do
      let s0 := BucketStorage.init (Heap.empty : Heap Nat) 64
      let (bs, h, i1) ← s0.1.insert s0.2 10
      let e1 ← h.element i1.m_current
      let (bs, h, i2) ← bs.insert h 20
      let e2 ← h.element i2.m_current
      let (bs, h) ← BucketStorage.call (bs, h) (.eraseAt 0)
      let (bs, h, i3) ← bs.insert h 30
      let e3 ← h.element i3.m_current
      let (bs, h) ← BucketStorage.call (bs, h) .clear
      let (_, h, i4) ← bs.insert h 40
      let e4 ← h.element i4.m_current
      pure [e1.m_time, e2.m_time, e3.m_time, e4.m_time]) = .ok [1, 2, 3, 5] ∧
    (do
      let s ← BucketStorage.run 64
        ([.insert 10, .insert 20, .insert 30, .eraseAt 2] : List (BucketStorage.Call Nat))
      let vm ← derefPtr s.1.m_virtual_memory
      let vs ← s.1.values s.2
      pure (vs, vm.m_end, s.2.elements[3]?, s.2.element vm.m_end)) =
      .ok ([10, 20], some 3, some none, .error .useAfterFree) ∧
    BucketStorage.run 64
      ([.insert 10, .insert 20, .insert 30, .eraseAt 2, .insert 40] :
        List (BucketStorage.Call Nat)) = .error .useAfterFree := by
  decide

/-- C20 (fails on the code). Default capacity, insert `10, 20, 30`. Erasing the
first element makes `m_start` the former second element (node 2). Erasing the
last element (node 3) makes the next of its predecessor (node 2) the sentinel
(node 0) and the prev of the sentinel that predecessor, but `m_end` is not
repaired: it still names node 3, which is destroyed. -/
theorem C20_erase_last_leaves_end_dangling :
    (do
      let s ← BucketStorage.run 64
        ([.insert 10, .insert 20, .insert 30] : List (BucketStorage.Call Nat))
      let vm ← derefPtr s.1.m_virtual_memory
      pure vm) = .ok { m_start := some 1, m_end := some 3, m_over_end := some 0 } ∧
    (do
      let s ← BucketStorage.run 64
        ([.insert 10, .insert 20, .insert 30, .eraseAt 0] : List (BucketStorage.Call Nat))
      let vm ← derefPtr s.1.m_virtual_memory
      let vs ← s.1.values s.2
      pure (vs, vm)) =
      .ok ([20, 30], { m_start := some 2, m_end := some 3, m_over_end := some 0 }) ∧
    (do
      let s ← BucketStorage.run 64
        ([.insert 10, .insert 20, .insert 30, .eraseAt 2] : List (BucketStorage.Call Nat))
      let vm ← derefPtr s.1.m_virtual_memory
      let vs ← s.1.values s.2
      pure (vs, vm)) =
      .ok ([10, 20], { m_start := some 1, m_end := some 3, m_over_end := some 0 }) ∧
    (do
      let s ← BucketStorage.run 64
        ([.insert 10, .insert 20, .insert 30, .eraseAt 2] : List (BucketStorage.Call Nat))
      let p ← s.2.element (some 2)
      let o ← s.2.element (some 0)
      pure (p.m_next, o.m_prev, s.2.elements[3]?)) = .ok (some 0, some 2, some none) := by
  decide

/-! ## Inversion of the heap primitives -/

theorem bind_ok_iff {ε α β : Type} {x : Except ε α} {f : α → Except ε β} {b : β} :
    (x >>= f) = .ok b ↔ ∃ a, x = .ok a ∧ f a = .ok b := by
  cases x <;> simp [bind, Except.bind]

theorem pure_ok_iff {ε α : Type} {a b : α} : (pure a : Except ε α) = .ok b ↔ a = b := by
  simp [pure, Except.pure]

theorem Heap.element_ok_iff {T : Type} {h : Heap T} {a : Nat} {e : BucketStorage.Element} :
    h.element (some a) = .ok e ↔ h.elements[a]? = some (some e) := by
  simp only [Heap.element]
  split
  · next e2 he => simp [he]
  · next hne =>
    constructor
    · intro hh; cases hh
    · intro hh; exact absurd hh (hne e)

theorem Heap.element_none {T : Type} (h : Heap T) : h.element none = .error .nullDeref := rfl

theorem Heap.modifyElement_ok_iff {T : Type} {h h2 : Heap T} {a : Nat}
    {f : BucketStorage.Element → BucketStorage.Element} :
    h.modifyElement (some a) f = .ok h2 ↔
      ∃ e, h.elements[a]? = some (some e) ∧
        h2 = { h with elements := h.elements.set a (some (f e)) } := by
  simp only [Heap.modifyElement]
  split
  · next e2 he =>
    constructor
    · intro hh; cases hh; exact ⟨e2, he, rfl⟩
    · rintro ⟨e, he2, rfl⟩
      rw [he] at he2; cases he2; rfl
  · next hne =>
    constructor
    · intro hh; cases hh
    · rintro ⟨e, he2, -⟩; exact absurd he2 (hne e)

theorem Heap.modifyBlock_elements {T : Type} {h h2 : Heap T} {p : Option Nat}
    {f : BucketStorage.Block T → BucketStorage.Block T}
    (hok : h.modifyBlock p f = .ok h2) : h2.elements = h.elements := by
  unfold Heap.modifyBlock at hok
  split at hok
  · cases hok
  · split at hok
    · cases hok; rfl
    · cases hok

theorem Heap.deleteBlock_elements {T : Type} {h h2 : Heap T} {p : Option Nat}
    (hok : h.deleteBlock p = .ok h2) : h2.elements = h.elements := by
  unfold Heap.deleteBlock at hok
  split at hok
  · cases hok; rfl
  · simp only [bind_ok_iff, pure_ok_iff] at hok
    obtain ⟨_, _, rfl⟩ := hok
    rfl

theorem Heap.construct_elements {T : Type} {h h2 : Heap T} {p : Option Nat} {pos : Nat} {x : T}
    (hok : h.construct p pos x = .ok h2) : h2.elements = h.elements := by
  simp only [Heap.construct, bind_ok_iff] at hok
  obtain ⟨b, _, hb⟩ := hok
  split at hb
  · exact Heap.modifyBlock_elements hb
  · cases hb

theorem Heap.destruct_elements {T : Type} {h h2 : Heap T} {p : Option Nat} {pos : Nat}
    (hok : h.destruct p pos = .ok h2) : h2.elements = h.elements := by
  simp only [Heap.destruct, bind_ok_iff] at hok
  obtain ⟨b, _, hb⟩ := hok
  split at hb
  · cases hb
  · cases hb
  · exact Heap.modifyBlock_elements hb

theorem empty_elements {T : Type} {pm pm2 : BucketStorage.PhysicalMemory} {h h2 : Heap T}
    {p : Option Nat} (hok : pm.empty h p = .ok (pm2, h2)) : h2.elements = h.elements := by
  simp only [BucketStorage.PhysicalMemory.empty, bind_ok_iff] at hok
  obtain ⟨b, _, hb⟩ := hok
  split at hb
  · split at hb
    · simp only [bind_ok_iff, pure_ok_iff] at hb
      obtain ⟨h3, h3eq, h4, h4eq, hfin⟩ := hb
      cases hfin
      rw [Heap.deleteBlock_elements h4eq]
      split at h3eq
      · exact Heap.modifyBlock_elements h3eq
      · cases h3eq; rfl
    · simp only [bind_ok_iff, pure_ok_iff] at hb
      obtain ⟨pb, _, h3, h3eq, h4, h4eq, hfin⟩ := hb
      cases hfin
      rw [Heap.modifyBlock_elements h4eq, Heap.deleteBlock_elements h3eq]
  · cases hb; rfl

theorem ensure_capacity_elements {T : Type} {pm pm2 : BucketStorage.PhysicalMemory}
    {h h2 : Heap T} (hok : pm.ensure_capacity h = .ok (pm2, h2)) :
    h2.elements = h.elements := by
  simp only [BucketStorage.PhysicalMemory.ensure_capacity, bind_ok_iff] at hok
  obtain ⟨⟨pm1, h1, act⟩, h1eq, b, _, hb⟩ := hok
  have e1 : h1.elements = h.elements := by
    split at h1eq
    · split at h1eq
      · simp only [bind_ok_iff, pure_ok_iff] at h1eq
        obtain ⟨h3, h3eq, h4, h4eq, hfin⟩ := h1eq
        cases hfin
        rw [Heap.modifyBlock_elements h4eq, Heap.modifyBlock_elements h3eq]
        rfl
      · cases h1eq; rfl
    · cases h1eq; rfl
  split at hb
  · simp only [bind_ok_iff, pure_ok_iff] at hb
    obtain ⟨_, _, h3, h3eq, h4, h4eq, hfin⟩ := hb
    cases hfin
    rw [Heap.modifyBlock_elements h4eq, Heap.modifyBlock_elements h3eq]
    exact e1
  · cases hb; exact e1

/-! ## Unlinking a node -/

theorem getElem?_set_alive {α : Type} {l : List α} {a : Nat} {x : α} (v : α)
    (ha : l[a]? = some x) (b : Nat) :
    (l.set a v)[b]? = if b = a then some v else l[b]? := by
  have hlt : a < l.length := lt_length_of_getElem? ha
  rw [List.getElem?_set]
  by_cases hb : b = a
  · subst hb; simp [hlt]
  · have hne : ¬ a = b := fun h => hb h.symm
    simp [hb, hne]

theorem relink_relink (e : BucketStorage.Element) (b : Nat) (c : BucketStorage.Element) :
    e.relink b (e.relink b c) = e.relink b c := by
  simp only [BucketStorage.Element.relink]
  split <;> split <;> rfl

/-- Effect of the two unlink steps (the body of `~Element`, and the same two
steps in `erase`) on the nodes, given as the two writes. -/
theorem unlink_effect {T : Type} {h h1 h2 : Heap T} {a : Nat} {e : BucketStorage.Element}
    (hcell : h.elements[a]? = some (some e))
    (hprev : ∀ q, e.m_prev = some q → q ≠ a)
    (hnext : ∀ q, e.m_next = some q → q ≠ a ∧ e.m_prev ≠ some q)
    (h1eq : (match e.m_prev with
      | none => pure h
      | some q => h.modifyElement (some q) (fun x => { x with m_next := e.m_next })) = .ok h1)
    (h2eq : (match e.m_next with
      | none => pure h1
      | some q => h1.modifyElement (some q) (fun x => { x with m_prev := e.m_prev })) = .ok h2) :
    h2.blocks = h.blocks ∧ h2.elements.length = h.elements.length ∧
    (∀ b, h2.elements[b]? =
      if b = a then some (some e) else (h.elements[b]?).map (Option.map (e.relink b))) ∧
    (∀ q, e.m_prev = some q → ∃ c, h.elements[q]? = some (some c)) ∧
    (∀ q, e.m_next = some q → ∃ c, h.elements[q]? = some (some c)) := by
  -- first write
  have s1 : h1.blocks = h.blocks ∧ h1.elements.length = h.elements.length ∧
      (∀ b, h1.elements[b]? = if e.m_prev = some b then
        (h.elements[b]?).map (Option.map (fun c => { c with m_next := e.m_next }))
        else h.elements[b]?) ∧
      (∀ q, e.m_prev = some q → ∃ c, h.elements[q]? = some (some c)) := by
    cases hp : e.m_prev with
    | none =>
      rw [hp] at h1eq
      cases h1eq
      simp
    | some q =>
      rw [hp] at h1eq
      obtain ⟨c, hc, rfl⟩ := Heap.modifyElement_ok_iff.mp h1eq
      refine ⟨rfl, by simp, ?_, ?_⟩
      · intro b
        simp only [getElem?_set_alive _ hc]
        by_cases hb : b = q
        · subst hb; simp [hc]
        · have : ¬ q = b := fun h => hb h.symm
          simp [hb, this]
      · intro q2 hq2; cases hq2; exact ⟨c, hc⟩
  obtain ⟨hb1, hl1, hp1, hex1⟩ := s1
  cases hn : e.m_next with
  | none =>
    rw [hn] at h2eq
    cases h2eq
    refine ⟨hb1, hl1, ?_, hex1, by intro q hq; cases hq⟩
    intro b
    rw [hp1 b]
    by_cases hba : b = a
    · subst hba
      have : ¬ e.m_prev = some b := fun hh => hprev b hh rfl
      simp [this, hcell]
    · simp only [hba, if_false]
      by_cases hpb : e.m_prev = some b
      · simp only [hpb, if_true]
        congr 1; funext oc; congr 1; funext c
        simp [BucketStorage.Element.relink, hn, hpb]
      · simp only [hpb, if_false]
        cases hh : h.elements[b]? with
        | none => rfl
        | some oc => cases oc <;> simp [BucketStorage.Element.relink, hn, hpb]
  | some q =>
    rw [hn] at h2eq
    obtain ⟨c, hc, rfl⟩ := Heap.modifyElement_ok_iff.mp h2eq
    obtain ⟨hqa, hpq⟩ := hnext q hn
    have hcq : ∃ c0, h.elements[q]? = some (some c0) := by
      rw [hp1 q] at hc
      simp only [hpq, if_false] at hc
      exact ⟨c, hc⟩
    refine ⟨hb1, by simp [hl1], ?_, hex1, ?_⟩
    · intro b
      simp only [getElem?_set_alive _ hc]
      by_cases hba : b = a
      · subst hba
        have h1 : ¬ b = q := fun hh => hqa hh.symm
        have h2 : ¬ e.m_prev = some b := fun hh => hprev b hh rfl
        rw [hp1 b]
        simp [h1, h2, hcell]
      · simp only [hba, if_false]
        by_cases hbq : b = q
        · subst hbq
          rw [hp1 b] at hc
          simp only [hpq, if_false] at hc
          simp [hc, BucketStorage.Element.relink, hn, hpq]
        · simp only [hbq, if_false]
          rw [hp1 b]
          have hnb : ¬ some q = some b := fun hh => hbq (Option.some.inj hh).symm
          by_cases hpb : e.m_prev = some b
          · simp only [hpb, if_true]
            cases hh : h.elements[b]? with
            | none => rfl
            | some oc => cases oc <;> simp [BucketStorage.Element.relink, hn, hpb, hnb]
          · simp only [hpb, if_false]
            cases hh : h.elements[b]? with
            | none => rfl
            | some oc => cases oc <;> simp [BucketStorage.Element.relink, hn, hpb, hnb]
    · intro q2 hq2; cases hq2; exact hcq

/-- Effect of `delete p` on the nodes. -/
theorem deleteElement_effect {T : Type} {h h2 : Heap T} {a : Nat} {e : BucketStorage.Element}
    (hcell : h.elements[a]? = some (some e))
    (hprev : ∀ q, e.m_prev = some q → q ≠ a)
    (hnext : ∀ q, e.m_next = some q → q ≠ a ∧ e.m_prev ≠ some q)
    (hok : h.deleteElement (some a) = .ok h2) :
    h2.blocks = h.blocks ∧ h2.elements.length = h.elements.length ∧
    (∀ b, h2.elements[b]? =
      if b = a then some none else (h.elements[b]?).map (Option.map (e.relink b))) := by
  simp only [Heap.deleteElement, bind_ok_iff, pure_ok_iff, Heap.element_ok_iff] at hok
  obtain ⟨e1, he1, h1, h1eq, e2, he2, h3, h3eq, e3, he3, rfl⟩ := hok
  rw [hcell] at he1
  cases he1
  have he2e : e = e2 := by
    cases hp : e.m_prev with
    | none =>
      rw [hp] at h1eq
      cases h1eq
      rw [hcell] at he2
      cases he2; rfl
    | some q =>
      rw [hp] at h1eq
      obtain ⟨c, hc, rfl⟩ := Heap.modifyElement_ok_iff.mp h1eq
      have hqa : ¬ a = q := fun hh => hprev q hp hh.symm
      simp only [getElem?_set_alive _ hc, hqa, if_false] at he2
      rw [hcell] at he2
      cases he2; rfl
  subst he2e
  obtain ⟨hb, hl, hp, -, -⟩ := unlink_effect hcell hprev hnext h1eq h3eq
  have ha3 : h3.elements[a]? = some (some e) := by rw [hp a]; simp
  refine ⟨hb, by simp [hl], ?_⟩
  intro b
  simp only [getElem?_set_alive _ ha3]
  by_cases hba : b = a
  · simp [hba]
  · simp only [hba, if_false]
    rw [hp b]
    simp [hba]

/-- Erase of the sentinel (a node without block) dereferences a null block. -/
theorem erase_no_block {T : Type} (bs : BucketStorage) {h : Heap T} {a : Nat}
    {e : BucketStorage.Element} (hcell : h.elements[a]? = some (some e))
    (hblk : e.m_block_link = none) : bs.erase h ⟨some a⟩ = .error .nullDeref := by
  have he : h.element (some a) = .ok e := Heap.element_ok_iff.mpr hcell
  simp [BucketStorage.erase, he, hblk, Heap.block, bind, Except.bind]

/-- Effect of `erase` on the order list, for a node whose neighbours are other
nodes: the node is destroyed, its neighbours are relinked, `m_start` moves if
the node was the first, and `m_end` moves only if the node had no successor. -/
theorem erase_effect {T : Type} {bs bs2 : BucketStorage} {h h2 : Heap T} {a : Nat}
    {e : BucketStorage.Element} {vm : BucketStorage.VirtualMemory}
    {it : BucketStorage.BaseIterator}
    (hvm : bs.m_virtual_memory = some vm)
    (hcell : h.elements[a]? = some (some e))
    (hprev : ∀ q, e.m_prev = some q → q ≠ a)
    (hnext : ∀ q, e.m_next = some q → q ≠ a ∧ e.m_prev ≠ some q)
    (hok : bs.erase h ⟨some a⟩ = .ok (bs2, h2, it)) :
    it = ⟨e.m_next⟩ ∧
    bs2.m_bucket_size = decr64 bs.m_bucket_size ∧
    bs2.m_bucket_capacity = bs.m_bucket_capacity ∧
    bs2.m_virtual_memory = some
      { m_start := if e.m_prev = none then e.m_next else vm.m_start,
        m_end := if e.m_next = none then e.m_prev else vm.m_end,
        m_over_end := vm.m_over_end } ∧
    h2.elements.length = h.elements.length ∧
    (∀ b, h2.elements[b]? =
      if b = a then some none else (h.elements[b]?).map (Option.map (e.relink b))) := by
  simp only [BucketStorage.erase, bind_ok_iff, pure_ok_iff, Heap.element_ok_iff] at hok
  obtain ⟨e1, he1, blk, -, pmo, -, h4, h4eq, h5, h5eq, e6, he6, ⟨vmo7, h7⟩, h7eq, e8, he8,
    ⟨vmo9, h9⟩, h9eq, e10, he10, h11, h11eq, pm12, -, ⟨pm13, h13⟩, h13eq, h14, h14eq, hfin⟩ := hok
  rw [hcell] at he1
  cases he1
  have el5 : h5.elements = h.elements := by
    rw [Heap.modifyBlock_elements h5eq, Heap.modifyBlock_elements h4eq]
  rw [el5, hcell] at he6
  cases he6
  -- first write
  have s7 : (match e.m_prev with
      | none => pure h5
      | some q => h5.modifyElement (some q) (fun x => { x with m_next := e.m_next })) = .ok h7 ∧
      vmo7 = some { vm with m_start := if e.m_prev = none then e.m_next else vm.m_start } := by
    cases hp : e.m_prev with
    | none =>
      rw [hp] at h7eq
      simp only [hvm, derefPtr, bind_ok_iff, pure_ok_iff] at h7eq
      obtain ⟨vm2, hvm2, hh⟩ := h7eq
      cases hvm2; cases hh
      exact ⟨rfl, by simp [hp]⟩
    | some q =>
      rw [hp] at h7eq
      simp only [bind_ok_iff, pure_ok_iff] at h7eq
      obtain ⟨h7b, hh, hpair⟩ := h7eq
      cases hpair
      exact ⟨hh, by simp [hvm]⟩
  obtain ⟨h7eq2, hvmo7⟩ := s7
  have hcell5 : h5.elements[a]? = some (some e) := by rw [el5]; exact hcell
  have he8e : e = e8 := by
    cases hp : e.m_prev with
    | none =>
      rw [hp] at h7eq2
      cases h7eq2
      rw [hcell5] at he8
      cases he8; rfl
    | some q =>
      rw [hp] at h7eq2
      obtain ⟨c, hc, rfl⟩ := Heap.modifyElement_ok_iff.mp h7eq2
      have hqa : ¬ a = q := fun hh => hprev q hp hh.symm
      simp only [getElem?_set_alive _ hc, hqa, if_false] at he8
      rw [hcell5] at he8
      cases he8; rfl
  subst he8e
  have s9 : (match e.m_next with
      | none => pure h7
      | some q => h7.modifyElement (some q) (fun x => { x with m_prev := e.m_prev })) = .ok h9 ∧
      vmo9 = some { m_start := if e.m_prev = none then e.m_next else vm.m_start,
                    m_end := if e.m_next = none then e.m_prev else vm.m_end,
                    m_over_end := vm.m_over_end } := by
    cases hn : e.m_next with
    | none =>
      rw [hn] at h9eq
      simp only [hvmo7, derefPtr, bind_ok_iff, pure_ok_iff] at h9eq
      obtain ⟨vm2, hvm2, hh⟩ := h9eq
      cases hvm2; cases hh
      exact ⟨rfl, by simp [hn]⟩
    | some q =>
      rw [hn] at h9eq
      simp only [bind_ok_iff, pure_ok_iff] at h9eq
      obtain ⟨h9b, hh, hpair⟩ := h9eq
      cases hpair
      exact ⟨hh, by simp [hvmo7, hn]⟩
  obtain ⟨h9eq2, hvmo9⟩ := s9
  obtain ⟨-, hl9, hp9, -, -⟩ := unlink_effect hcell5 hprev hnext h7eq2 h9eq2
  have ha9 : h9.elements[a]? = some (some e) := by rw [hp9 a]; simp
  rw [ha9] at he10
  cases he10
  have el13 : h13.elements = h9.elements := by
    rw [empty_elements h13eq, Heap.destruct_elements h11eq]
  have ha13 : h13.elements[a]? = some (some e) := by rw [el13]; exact ha9
  obtain ⟨-, hl14, hp14⟩ := deleteElement_effect ha13 hprev hnext h14eq
  cases hfin
  refine ⟨rfl, rfl, rfl, hvmo9, ?_, ?_⟩
  · rw [hl14, el13, hl9, el5]
  · intro b
    rw [hp14 b, el13, hp9 b, el5]
    by_cases hba : b = a
    · simp [hba]
    · simp only [hba, if_false]
      cases hh : h.elements[b]? with
      | none => rfl
      | some oc =>
        cases oc with
        | none => rfl
        | some c => simp [relink_relink]

/-! ## Effect of `insert` on the order list -/

/-- Effect of `PhysicalMemory::push` on the nodes: only `m_pos` and
`m_block_link` of the new node are written. -/
theorem push_elements {T : Type} {pm pm2 : BucketStorage.PhysicalMemory} {h h2 : Heap T}
    {x : T} {n : Nat} {c : BucketStorage.Element}
    (hc : h.elements[n]? = some (some c))
    (hok : pm.push h x (some n) = .ok (pm2, h2)) :
    ∃ B P, h2.elements = h.elements.set n (some { c with m_block_link := B, m_pos := P }) := by
  simp only [BucketStorage.PhysicalMemory.push, bind_ok_iff, pure_ok_iff] at hok
  obtain ⟨⟨pm1, h1⟩, h1eq, blk, -, h3, h3eq, h4, h4eq, h5, h5eq, hfin⟩ := hok
  have e1 : h1.elements = h.elements := ensure_capacity_elements h1eq
  have hc1 : h1.elements[n]? = some (some c) := by rw [e1]; exact hc
  cases hfin
  have e5 : h2.elements = h4.elements := Heap.modifyBlock_elements h5eq
  obtain ⟨c3, hc3, rfl⟩ := Heap.modifyElement_ok_iff.mp h4eq
  rw [e5]
  split at h3eq
  · simp only [bind_ok_iff, Heap.element_ok_iff] at h3eq
    obtain ⟨⟨p, rest⟩, -, h6, h6eq, h7, h7eq, e8, he8, h9eq⟩ := h3eq
    have e6 : h6.elements = h1.elements := Heap.modifyBlock_elements h6eq
    obtain ⟨c7, hc7, rfl⟩ := Heap.modifyElement_ok_iff.mp h7eq
    rw [e6, hc1] at hc7
    cases hc7
    have e3 : h3.elements = (h1.elements.set n
        (some { c with m_pos := p })) := by
      rw [Heap.construct_elements h9eq, e6]
    rw [e3, getElem?_set_alive _ hc1] at hc3
    simp only [if_true] at hc3
    cases hc3
    refine ⟨(pm1.m_free_blocks.peek), p, ?_⟩
    simp only [e3, e1, List.set_set]
  · simp only [bind_ok_iff] at h3eq
    obtain ⟨h6, h6eq, h7, h7eq, h8eq⟩ := h3eq
    have e6 : h6.elements = h1.elements := Heap.construct_elements h6eq
    obtain ⟨c7, hc7, rfl⟩ := Heap.modifyElement_ok_iff.mp h7eq
    rw [e6, hc1] at hc7
    cases hc7
    have e3 : h3.elements = (h1.elements.set n
        (some { c with m_pos := blk.m_head })) := by
      rw [Heap.modifyBlock_elements h8eq, e6]
    rw [e3, getElem?_set_alive _ hc1] at hc3
    simp only [if_true] at hc3
    cases hc3
    refine ⟨(pm1.m_free_blocks.peek), blk.m_head, ?_⟩
    simp only [e3, e1, List.set_set]

/-- Effect of `VirtualMemory::push` on the nodes. -/
theorem vpush_effect {T : Type} {h h2 : Heap T} {st en : Option Nat} {o n l : Nat}
    {vm2 : BucketStorage.VirtualMemory} {cn co cl : BucketStorage.Element}
    (hn : h.elements[n]? = some (some cn))
    (ho : h.elements[o]? = some (some co))
    (hno : n ≠ o)
    (hen : en = some l)
    (hl : h.elements[l]? = some (some cl))
    (hln : l ≠ n)
    (hlo : st ≠ some o → l ≠ o)
    (hok : BucketStorage.VirtualMemory.push ⟨st, en, some o⟩ h (some n) = .ok (vm2, h2)) :
    vm2 = ⟨if st = some o then some n else st, some n, some o⟩ ∧
    h2.blocks = h.blocks ∧ h2.elements.length = h.elements.length ∧
    (∀ b, h2.elements[b]? =
      if b = n then some (some { cn with m_next := some o,
                                         m_prev := if st = some o then cn.m_prev else some l })
      else if b = o then some (some { co with m_prev := some n, m_time := cn.m_time + 1 })
      else if b = l ∧ st ≠ some o then some (some { cl with m_next := some n })
      else h.elements[b]?) := by
  subst hen
  simp only [BucketStorage.VirtualMemory.push, bind_ok_iff] at hok
  obtain ⟨⟨vm1, h1⟩, h1eq, hrest⟩ := hok
  by_cases hst : st = some o
  · simp only [hst, if_true, pure_ok_iff] at h1eq
    cases h1eq
    simp only [bind_ok_iff, pure_ok_iff, Heap.element_ok_iff] at hrest
    obtain ⟨h3, h3eq, h4, h4eq, last, hlast, h5, h5eq, hfin⟩ := hrest
    cases hfin
    obtain ⟨c3, hc3, rfl⟩ := Heap.modifyElement_ok_iff.mp h3eq
    rw [ho] at hc3
    cases hc3
    obtain ⟨c4, hc4, rfl⟩ := Heap.modifyElement_ok_iff.mp h4eq
    simp only [getElem?_set_alive _ ho, hno, if_false] at hc4
    rw [hn] at hc4
    cases hc4
    have hn3 : (h.elements.set o (some { co with m_prev := some n }))[n]? = some (some cn) := by
      simp only [getElem?_set_alive _ ho, hno, if_false]; exact hn
    simp only [getElem?_set_alive _ hn3, if_true] at hlast
    cases hlast
    obtain ⟨c5, hc5, rfl⟩ := Heap.modifyElement_ok_iff.mp h5eq
    have hon : ¬ o = n := fun hh => hno hh.symm
    simp only [getElem?_set_alive _ hn3, hon, if_false, getElem?_set_alive _ ho, if_true] at hc5
    cases hc5
    have ho4 : ((h.elements.set o (some { co with m_prev := some n })).set n
        (some { cn with m_next := some o }))[o]? =
        some (some { co with m_prev := some n }) := by
      simp only [getElem?_set_alive _ hn3, hon, if_false, getElem?_set_alive _ ho, if_true]
    refine ⟨by simp [hst], rfl, by simp, ?_⟩
    intro b
    simp only [getElem?_set_alive _ ho4, getElem?_set_alive _ hn3, getElem?_set_alive _ ho]
    by_cases hbn : b = n
    · subst hbn
      simp [hno, hst]
    · by_cases hbo : b = o
      · subst hbo
        simp [hbn]
      · simp [hbn, hbo, hst]
  · simp only [hst, if_false, bind_ok_iff, pure_ok_iff] at h1eq
    obtain ⟨h6, h6eq, h7, h7eq, hpair⟩ := h1eq
    cases hpair
    simp only [bind_ok_iff, pure_ok_iff, Heap.element_ok_iff] at hrest
    obtain ⟨h3, h3eq, h4, h4eq, last, hlast, h5, h5eq, hfin⟩ := hrest
    cases hfin
    have hlo2 : l ≠ o := hlo hst
    have hnl : ¬ n = l := fun hh => hln hh.symm
    have hon : ¬ o = n := fun hh => hno hh.symm
    have hol : ¬ o = l := fun hh => hlo2 hh.symm
    obtain ⟨c6, hc6, rfl⟩ := Heap.modifyElement_ok_iff.mp h6eq
    rw [hl] at hc6
    cases hc6
    obtain ⟨c7, hc7, rfl⟩ := Heap.modifyElement_ok_iff.mp h7eq
    simp only [getElem?_set_alive _ hl, hnl, if_false] at hc7
    rw [hn] at hc7
    cases hc7
    have hn6 : (h.elements.set l (some { cl with m_next := some n }))[n]? = some (some cn) := by
      simp only [getElem?_set_alive _ hl, hnl, if_false]; exact hn
    obtain ⟨c3, hc3, rfl⟩ := Heap.modifyElement_ok_iff.mp h3eq
    simp only [getElem?_set_alive _ hn6, hon, if_false, getElem?_set_alive _ hl, hol] at hc3
    rw [ho] at hc3
    cases hc3
    have ho7 : ((h.elements.set l (some { cl with m_next := some n })).set n
        (some { cn with m_prev := some l }))[o]? = some (some co) := by
      simp only [getElem?_set_alive _ hn6, hon, if_false, getElem?_set_alive _ hl, hol]
      exact ho
    obtain ⟨c4, hc4, rfl⟩ := Heap.modifyElement_ok_iff.mp h4eq
    simp only [getElem?_set_alive _ ho7, hno, if_false, getElem?_set_alive _ hn6,
      if_true] at hc4
    cases hc4
    have hn3 : (((h.elements.set l (some { cl with m_next := some n })).set n
        (some { cn with m_prev := some l })).set o (some { co with m_prev := some n }))[n]? =
        some (some { cn with m_prev := some l }) := by
      simp only [getElem?_set_alive _ ho7, hno, if_false, getElem?_set_alive _ hn6, if_true]
    simp only [getElem?_set_alive _ hn3, if_true] at hlast
    cases hlast
    obtain ⟨c5, hc5, rfl⟩ := Heap.modifyElement_ok_iff.mp h5eq
    simp only [getElem?_set_alive _ hn3, hon, if_false, getElem?_set_alive _ ho7,
      if_true] at hc5
    cases hc5
    have ho4 : ((((h.elements.set l (some { cl with m_next := some n })).set n
        (some { cn with m_prev := some l })).set o (some { co with m_prev := some n })).set n
        (some { cn with m_prev := some l, m_next := some o }))[o]? =
        some (some { co with m_prev := some n }) := by
      simp only [getElem?_set_alive _ hn3, hon, if_false, getElem?_set_alive _ ho7, if_true]
    refine ⟨by simp [hst], rfl, by simp, ?_⟩
    intro b
    simp only [getElem?_set_alive _ ho4, getElem?_set_alive _ hn3, getElem?_set_alive _ ho7,
      getElem?_set_alive _ hn6, getElem?_set_alive _ hl]
    by_cases hbn : b = n
    · subst hbn
      simp [hno, hst]
    · by_cases hbo : b = o
      · subst hbo
        simp [hbn]
      · by_cases hbl : b = l
        · subst hbl
          simp [hbn, hbo, hst]
        · simp [hbn, hbo, hbl]

theorem getElem?_append_single_ne {α : Type} (l : List α) (v : α) {b : Nat}
    (hb : b ≠ l.length) : (l ++ [v])[b]? = l[b]? := by
  by_cases hlt : b < l.length
  · exact List.getElem?_append_left hlt
  · rw [List.getElem?_eq_none (by simp; omega), List.getElem?_eq_none (by omega)]

theorem getElem?_append_single_eq {α : Type} (l : List α) (v : α) :
    (l ++ [v])[l.length]? = some v := by
  simp

/-- Effect of `insert` on the order list: a new node at the next free address,
linked in before the sentinel. -/
theorem insert_effect {T : Type} {bs bs2 : BucketStorage} {h h2 : Heap T} {x : T}
    {st en : Option Nat} {o : Nat} {co : BucketStorage.Element}
    {it : BucketStorage.BaseIterator}
    (hvm : bs.m_virtual_memory = some ⟨st, en, some o⟩)
    (ho : h.elements[o]? = some (some co))
    (hlo : st ≠ some o → en ≠ some o)
    (hok : bs.insert h x = .ok (bs2, h2, it)) :
    ∃ l cl B P, en = some l ∧ h.elements[l]? = some (some cl) ∧
      it = ⟨some h.elements.length⟩ ∧
      bs2.m_virtual_memory = some ⟨if st = some o then some h.elements.length else st,
        some h.elements.length, some o⟩ ∧
      bs2.m_bucket_size = bs.m_bucket_size + 1 ∧
      bs2.m_bucket_capacity = bs.m_bucket_capacity ∧
      h2.elements.length = h.elements.length + 1 ∧
      (∀ b, h2.elements[b]? =
        if b = h.elements.length then
          some (some ⟨B, P, some o, if st = some o then none else some l, cl.m_time + 1⟩)
        else if b = o then
          some (some { co with m_prev := some h.elements.length, m_time := cl.m_time + 2 })
        else if b = l ∧ st ≠ some o then
          some (some { cl with m_next := some h.elements.length })
        else h.elements[b]?) := by
  simp only [BucketStorage.insert, BucketStorage.insert_impl, hvm, derefPtr, bind_ok_iff,
    pure_ok_iff] at hok
  obtain ⟨vm, hvmeq, last, hlast, pm, -, ⟨pm1, h1⟩, h1eq, ⟨vm2, h3⟩, h3eq, hfin⟩ := hok
  cases hvmeq
  cases hfin
  cases hen : en with
  | none =>
    simp only [hen] at hlast
    cases hlast
  | some l =>
    simp only [hen, Heap.element_ok_iff] at hlast
    simp only [Heap.newElement] at h1eq h3eq
    have hlt_l : l < h.elements.length := lt_length_of_getElem? hlast
    have hlt_o : o < h.elements.length := lt_length_of_getElem? ho
    have hln : l ≠ h.elements.length := by omega
    have hon : o ≠ h.elements.length := by omega
    have hc0 : (h.elements ++ [some (BucketStorage.Element.new (last.m_time + 1))])[
        h.elements.length]? = some (some (BucketStorage.Element.new (last.m_time + 1))) := by
      simp
    obtain ⟨B, P, he1⟩ := push_elements hc0 h1eq
    have hn1 : h1.elements[h.elements.length]? =
        some (some { BucketStorage.Element.new (last.m_time + 1) with
          m_block_link := B, m_pos := P }) := by
      rw [he1, getElem?_set_alive _ hc0]; simp
    have ho1 : h1.elements[o]? = some (some co) := by
      rw [he1, getElem?_set_alive _ hc0]
      simp only [hon, if_false]
      rw [getElem?_append_single_ne _ _ hon]; exact ho
    have hl1 : h1.elements[l]? = some (some last) := by
      rw [he1, getElem?_set_alive _ hc0]
      simp only [hln, if_false]
      rw [getElem?_append_single_ne _ _ hln]; exact hlast
    have hlo2 : st ≠ some o → l ≠ o := by
      intro hst hh
      exact hlo hst (by rw [hen, hh])
    obtain ⟨hvm2, -, hlen, hp⟩ :=
      vpush_effect hn1 ho1 (Ne.symm hon) hen hl1 hln hlo2 h3eq
    refine ⟨l, last, B, P, rfl, hlast, rfl, by rw [hvm2], rfl, rfl, ?_, ?_⟩
    · rw [hlen, he1]; simp
    · intro b
      rw [hp b]
      by_cases hbn : b = h.elements.length
      · simp [hbn, BucketStorage.Element.new]
      · by_cases hbo : b = o
        · simp [hbn, hbo, hon, BucketStorage.Element.new]
        · by_cases hbl : b = l ∧ st ≠ some o
          · obtain ⟨hbl1, hst⟩ := hbl
            subst hbl1
            simp [hbn, hbo, hst]
          · simp only [hbn, hbo, hbl, if_false]
            rw [he1, getElem?_set_alive _ hc0]
            simp only [hbn, if_false]
            exact getElem?_append_single_ne _ _ hbn

/-! ## The order list stays well formed: `insert` -/

theorem nodes_get (as : List Nat) (o : Nat) (j : Nat) :
    (as ++ [o])[j]? = if j < as.length then as[j]? else if j = as.length then some o else none := by
  by_cases h1 : j < as.length
  · simp only [h1, if_true]; exact List.getElem?_append_left h1
  · by_cases h2 : j = as.length
    · subst h2; simp
    · simp only [h1, h2, if_false]
      exact List.getElem?_eq_none (by simp; omega)

theorem Linked_inj {T : Type} {h : Heap T} {ns : List Nat} (hl : h.Linked ns) {i j a : Nat}
    (hi : ns[i]? = some a) (hj : ns[j]? = some a) : i = j := by
  obtain ⟨e, he, -, -⟩ := hl.1 i a hi
  rcases Nat.lt_trichotomy i j with hlt | heq | hgt
  · exact absurd (hl.2 i j a a e e hlt hi hj he he) (Nat.lt_irrefl _)
  · exact heq
  · exact absurd (hl.2 j i a a e e hgt hj hi he he) (Nat.lt_irrefl _)

theorem Linked_lt_length {T : Type} {h : Heap T} {ns : List Nat} (hl : h.Linked ns) {j a : Nat}
    (hj : ns[j]? = some a) : a < h.elements.length := by
  obtain ⟨e, he, -, -⟩ := hl.1 j a hj
  exact lt_length_of_getElem? he

theorem snoc_get_lt (as : List Nat) (n o : Nat) {k : Nat} (hk : k < as.length) :
    (as ++ [n] ++ [o])[k]? = (as ++ [o])[k]? := by
  rw [nodes_get, nodes_get, List.length_append, List.length_singleton]
  have h1 : k < as.length + 1 := by omega
  simp only [h1, hk, if_true]
  exact (List.getElem?_append_left hk).symm

theorem snoc_get_len (as : List Nat) (n o : Nat) :
    (as ++ [n] ++ [o])[as.length]? = some n := by
  rw [nodes_get, List.length_append, List.length_singleton]
  have h1 : as.length < as.length + 1 := by omega
  simp only [h1, if_true]
  exact getElem?_append_single_eq as n

theorem snoc_get_succ (as : List Nat) (n o : Nat) :
    (as ++ [n] ++ [o])[as.length + 1]? = some o := by
  rw [nodes_get, List.length_append, List.length_singleton]
  simp

theorem snoc_get_gt (as : List Nat) (n o : Nat) {k : Nat} (hk : as.length + 1 < k) :
    (as ++ [n] ++ [o])[k]? = none := by
  apply List.getElem?_eq_none
  simp only [List.length_append, List.length_singleton]
  omega

theorem nodes_get_lt (as : List Nat) (o : Nat) {k : Nat} (hk : k < as.length) :
    (as ++ [o])[k]? = as[k]? := List.getElem?_append_left hk

theorem nodes_get_len (as : List Nat) (o : Nat) : (as ++ [o])[as.length]? = some o :=
  getElem?_append_single_eq as o

theorem nodes_get_gt (as : List Nat) (o : Nat) {k : Nat} (hk : as.length < k) :
    (as ++ [o])[k]? = none := by
  apply List.getElem?_eq_none
  simp only [List.length_append, List.length_singleton]
  omega

/-- One `insert` keeps the order list well formed: the new node gets the next
free address and is the last element; no other node is touched apart from the
former last element and the sentinel. -/
theorem insert_inv {T : Type} {bs bs2 : BucketStorage} {h h2 : Heap T} {x : T}
    {as : List Nat} {o : Nat} {it : BucketStorage.BaseIterator}
    (hinv : BucketStorage.ListInv (bs, h) as o)
    (hok : bs.insert h x = .ok (bs2, h2, it)) :
    BucketStorage.ListInv (bs2, h2) (as ++ [h.elements.length]) o ∧
    it = ⟨some h.elements.length⟩ ∧
    bs2.m_bucket_capacity = bs.m_bucket_capacity ∧
    h2.elements.length = h.elements.length + 1 ∧
    (∀ b, b ∉ as → b ≠ o → b ≠ h.elements.length → h2.elements[b]? = h.elements[b]?) := by
  obtain ⟨en, hvm, hsize, hend, hlinked, ⟨co, ho, hoblk⟩⟩ := hinv
  simp only at hvm hsize hend hlinked ho
  have hso : (as ++ [o])[as.length]? = some o := by simp
  -- the start is the sentinel exactly when there is no element
  have hst : (as ++ [o])[0]? = some o ↔ as = [] := by
    constructor
    · intro h0
      have := Linked_inj hlinked h0 hso
      exact List.length_eq_zero.mp this.symm
    · intro h0; subst h0; rfl
  have hlo : (as ++ [o])[0]? ≠ some o → en ≠ some o := by
    intro hne
    have hne2 : as ≠ [] := fun hh => hne (hst.mpr hh)
    have hpos : 0 < as.length := List.length_pos.mpr hne2
    rcases hend with hend | ⟨a, ha, hdead⟩
    · intro hh
      rw [hh] at hend
      have := Linked_inj hlinked hend.symm hso
      omega
    · intro hh
      rw [hh] at ha
      cases ha
      rw [ho] at hdead
      cases hdead
  obtain ⟨l, cl, B, P, hen, hl, hit, hvm2, hsize2, hcap2, hlen2, hp⟩ :=
    insert_effect hvm ho hlo hok
  -- `m_end` was not dangling
  have hend2 : (as ++ [o])[as.length - 1]? = some l := by
    rcases hend with hend | ⟨a, ha, hdead⟩
    · rw [← hend, hen]
    · rw [hen] at ha
      cases ha
      rw [hl] at hdead
      cases hdead
  have hn_lt : ∀ (j a : Nat), (as ++ [o])[j]? = some a → a ≠ h.elements.length := by
    intro j a hj
    have := Linked_lt_length hlinked hj
    omega
  refine ⟨⟨some h.elements.length, ?_, ?_, ?_, ?_, ?_⟩, hit, hcap2, hlen2, ?_⟩
  · -- the fields of the list
    simp only
    rw [hvm2]
    by_cases hemp : as = []
    · subst hemp; simp
    · have hne : ¬ (as ++ [o])[0]? = some o := fun hh => hemp (hst.mp hh)
      have hpos : 0 < as.length := List.length_pos.mpr hemp
      simp only [hne, if_false]
      rw [snoc_get_lt as _ o hpos]
  · simp only [hsize2, hsize, List.length_append, List.length_singleton]
  · left
    simp only [List.length_append, List.length_singleton, Nat.add_sub_cancel]
    exact (snoc_get_len as _ o).symm
  · -- the links
    have hkey : ∀ (k a : Nat), k < as.length → (as ++ [o])[k]? = some a →
        ∃ e, h.elements[a]? = some (some e) ∧ e.m_time ≤ cl.m_time ∧
          h2.elements[a]? = some (some
            { e with m_next := if k + 1 = as.length then some h.elements.length else e.m_next }) := by
      intro k a hk hka
      obtain ⟨e, he, hnext, hprev⟩ := hlinked.1 k a hka
      have han : a ≠ h.elements.length := hn_lt _ _ hka
      have hao : a ≠ o := by
        intro hh
        rw [hh] at hka
        have := Linked_inj hlinked hka hso
        omega
      have hne : ¬ (as ++ [o])[0]? = some o := by
        intro hh
        have := hst.mp hh
        rw [this] at hk
        exact Nat.not_lt_zero _ hk
      by_cases hkl : k + 1 = as.length
      · have hal : a = l := by
          have h1 : k = as.length - 1 := by omega
          rw [h1, hend2] at hka
          exact (Option.some.inj hka).symm
        subst hal
        rw [hl] at he
        cases he
        refine ⟨cl, hl, Nat.le_refl _, ?_⟩
        rw [hp a, if_neg han, if_neg hao, if_pos ⟨rfl, hne⟩]
        simp only [hkl, if_true]
      · have hal : a ≠ l := by
          intro hh
          rw [hh] at hka
          have := Linked_inj hlinked hka hend2
          omega
        refine ⟨e, he, ?_, ?_⟩
        · have hlt : k < as.length - 1 := by omega
          exact Nat.le_of_lt (hlinked.2 k (as.length - 1) a l e cl hlt hka hend2 he hl)
        · rw [hp a, if_neg han, if_neg hao, if_neg (fun hh => hal hh.1), he]
          simp only [hkl, if_false]
    have hnew : h2.elements[h.elements.length]? = some (some
        ⟨B, P, some o, if (as ++ [o])[0]? = some o then none else some l, cl.m_time + 1⟩) := by
      rw [hp]; simp
    have hsen : h2.elements[o]? = some (some
        { co with m_prev := some h.elements.length, m_time := cl.m_time + 2 }) := by
      rw [hp]
      have := hn_lt _ _ hso
      simp [this]
    have hco : co.m_next = none ∧ co.m_prev = (if as.length = 0 then none
        else (as ++ [o])[as.length - 1]?) := by
      obtain ⟨e, he, hnext, hprev⟩ := hlinked.1 as.length o hso
      rw [ho] at he
      cases he
      rw [nodes_get_gt as o (Nat.lt_succ_self _)] at hnext
      exact ⟨hnext, hprev⟩
    constructor
    · intro j a hj
      rcases Nat.lt_trichotomy j as.length with hlt | heq | hgt
      · rw [snoc_get_lt as _ o hlt] at hj
        obtain ⟨e, he, -, he2⟩ := hkey j a hlt hj
        obtain ⟨e0, he0, hnext, hprev⟩ := hlinked.1 j a hj
        rw [he] at he0
        cases he0
        refine ⟨_, he2, ?_, ?_⟩
        · by_cases hkl : j + 1 = as.length
          · simp only [hkl, if_true]
            exact (snoc_get_len as _ o).symm
          · simp only [hkl, if_false]
            rw [hnext, snoc_get_lt as _ o (by omega)]
        · simp only
          rw [hprev]
          by_cases hj0 : j = 0
          · simp [hj0]
          · simp only [hj0, if_false]
            rw [snoc_get_lt as _ o (by omega)]
      · subst heq
        rw [snoc_get_len] at hj
        cases hj
        refine ⟨_, hnew, ?_, ?_⟩
        · simp only
          exact (snoc_get_succ as _ o).symm
        · simp only
          by_cases hemp : as = []
          · subst hemp; simp
          · have hne : ¬ (as ++ [o])[0]? = some o := fun hh => hemp (hst.mp hh)
            have hpos : 0 < as.length := List.length_pos.mpr hemp
            have hpos2 : ¬ as.length = 0 := by omega
            simp only [hne, hpos2, if_false]
            rw [snoc_get_lt as _ o (by omega), hend2]
      · by_cases hj1 : j = as.length + 1
        · subst hj1
          rw [snoc_get_succ] at hj
          cases hj
          refine ⟨_, hsen, ?_, ?_⟩
          · simp only
            rw [hco.1, snoc_get_gt as _ o (by omega)]
          · simp only [Nat.add_sub_cancel, Nat.succ_ne_zero, if_false]
            exact (snoc_get_len as _ o).symm
        · rw [snoc_get_gt as _ o (by omega)] at hj
          cases hj
    · -- the timestamps
      have htime : ∀ (k a : Nat) (e2 : BucketStorage.Element),
          (as ++ [h.elements.length] ++ [o])[k]? = some a →
          h2.elements[a]? = some (some e2) →
          (k < as.length → ∃ e, (as ++ [o])[k]? = some a ∧ h.elements[a]? = some (some e) ∧
            e2.m_time = e.m_time ∧ e.m_time ≤ cl.m_time) ∧
          (k = as.length → e2.m_time = cl.m_time + 1) ∧
          (as.length < k → e2.m_time = cl.m_time + 2) := by
        intro k a e2 hk hc
        refine ⟨?_, ?_, ?_⟩
        · intro hlt
          rw [snoc_get_lt as _ o hlt] at hk
          obtain ⟨e, he, hle, he2⟩ := hkey k a hlt hk
          rw [he2] at hc
          cases hc
          exact ⟨e, hk, he, rfl, hle⟩
        · intro heq
          subst heq
          rw [snoc_get_len] at hk
          cases hk
          rw [hnew] at hc
          cases hc
          rfl
        · intro hgt
          by_cases hj1 : k = as.length + 1
          · subst hj1
            rw [snoc_get_succ] at hk
            cases hk
            rw [hsen] at hc
            cases hc
            rfl
          · rw [snoc_get_gt as _ o (by omega)] at hk
            cases hk
      intro i j a b ea eb hij hi hj hea heb
      obtain ⟨hi1, hi2, hi3⟩ := htime i a ea hi hea
      obtain ⟨hj1, hj2, hj3⟩ := htime j b eb hj heb
      rcases Nat.lt_trichotomy j as.length with hlt | heq | hgt
      · obtain ⟨e, hia, hce, hte, -⟩ := hi1 (by omega)
        obtain ⟨e3, hjb, hce3, hte3, -⟩ := hj1 hlt
        rw [hte, hte3]
        exact hlinked.2 i j a b e e3 hij hia hjb hce hce3
      · obtain ⟨e, hia, hce, hte, hle⟩ := hi1 (by omega)
        rw [hj2 heq, hte]
        omega
      · rw [hj3 hgt]
        rcases Nat.lt_trichotomy i as.length with hlt2 | heq2 | hgt2
        · obtain ⟨e, hia, hce, hte, hle⟩ := hi1 hlt2
          rw [hte]; omega
        · rw [hi2 heq2]; omega
        · exfalso
          have h1 : j = as.length + 1 := by
            by_contra hne
            rw [snoc_get_gt as _ o (by omega)] at hj
            cases hj
          rw [snoc_get_gt as _ o (by omega)] at hi
          cases hi
  · refine ⟨{ co with m_prev := some h.elements.length, m_time := cl.m_time + 2 },
      (hp o).trans ?_, hoblk⟩
    have := hn_lt _ _ hso
    simp [this]
  · intro b hb hbo hbn
    rw [hp b]
    simp only [hbn, hbo, if_false]
    by_cases hbl : b = l ∧ (as ++ [o])[0]? ≠ some o
    · exfalso
      obtain ⟨rfl, hne⟩ := hbl
      have hne2 : as ≠ [] := fun hh => hne (hst.mpr hh)
      have hpos : 0 < as.length := List.length_pos.mpr hne2
      rw [nodes_get] at hend2
      simp only [show as.length - 1 < as.length by omega, if_true] at hend2
      exact hb (List.getElem?_mem hend2)
    · simp only [hbl, if_false]

/-! ## The order list stays well formed: `erase` -/

theorem relink_time (e : BucketStorage.Element) (b : Nat) (c : BucketStorage.Element) :
    (e.relink b c).m_time = c.m_time := rfl

theorem relink_block (e : BucketStorage.Element) (b : Nat) (c : BucketStorage.Element) :
    (e.relink b c).m_block_link = c.m_block_link := rfl

theorem relink_other (e : BucketStorage.Element) (b : Nat) (c : BucketStorage.Element)
    (hp : e.m_prev ≠ some b) (hn : e.m_next ≠ some b) : e.relink b c = c := by
  simp [BucketStorage.Element.relink, hp, hn]

/-- One `erase` of the element at index `k` keeps the order list well formed:
the node is destroyed and leaves the list, the returned iterator is the next
node, and no node outside the list is touched. -/
theorem erase_inv {T : Type} {bs bs2 : BucketStorage} {h h2 : Heap T}
    {as : List Nat} {o k a : Nat} {it : BucketStorage.BaseIterator}
    (hinv : BucketStorage.ListInv (bs, h) as o)
    (hka : as[k]? = some a)
    (hok : bs.erase h ⟨some a⟩ = .ok (bs2, h2, it)) :
    BucketStorage.ListInv (bs2, h2) (as.eraseIdx k) o ∧
    it = ⟨(as ++ [o])[k + 1]?⟩ ∧
    bs2.m_bucket_capacity = bs.m_bucket_capacity ∧
    h2.elements.length = h.elements.length ∧
    h2.elements[a]? = some none ∧
    (∀ b, b ∉ as → b ≠ o → h2.elements[b]? = h.elements[b]?) := by
  obtain ⟨en, hvm, hsize, hend, hlinked, ⟨co, ho, hoblk⟩⟩ := hinv
  simp only at hvm hsize hend hlinked ho
  have hk : k < as.length := lt_length_of_getElem? hka
  have hso : (as ++ [o])[as.length]? = some o := nodes_get_len as o
  have hna : (as ++ [o])[k]? = some a := by rw [nodes_get_lt as o hk]; exact hka
  obtain ⟨e, he, henext, heprev⟩ := hlinked.1 k a hna
  -- the successor exists
  obtain ⟨nx, hnx⟩ : ∃ nx, (as ++ [o])[k + 1]? = some nx := by
    by_cases hk1 : k + 1 < as.length
    · rw [nodes_get_lt as o hk1]
      exact ⟨as[k + 1], List.getElem?_eq_getElem hk1⟩
    · have : k + 1 = as.length := by omega
      rw [this]; exact ⟨o, hso⟩
  have hprevk : ∀ q, e.m_prev = some q → k ≠ 0 ∧ (as ++ [o])[k - 1]? = some q := by
    intro q hq
    rw [heprev] at hq
    by_cases hk0 : k = 0
    · simp [hk0] at hq
    · simp only [hk0, if_false] at hq
      exact ⟨hk0, hq⟩
  have hprev : ∀ q, e.m_prev = some q → q ≠ a := by
    intro q hq hqa
    obtain ⟨hk0, hq2⟩ := hprevk q hq
    rw [hqa] at hq2
    have := Linked_inj hlinked hq2 hna
    omega
  have hnext : ∀ q, e.m_next = some q → q ≠ a ∧ e.m_prev ≠ some q := by
    intro q hq
    rw [henext] at hq
    constructor
    · intro hqa
      rw [hqa] at hq
      have := Linked_inj hlinked hq hna
      omega
    · intro hpq
      obtain ⟨hk0, hq2⟩ := hprevk q hpq
      have := Linked_inj hlinked hq2 hq
      omega
  obtain ⟨hit, hsize2, hcap2, hvm2, hlen2, hp⟩ := erase_effect hvm he hprev hnext hok
  have hao : a ≠ o := by
    intro hh
    rw [hh] at hna
    have := Linked_inj hlinked hna hso
    omega
  -- a node of the new list, seen in the old one
  have hold : ∀ (j b : Nat), ((as ++ [o]).eraseIdx k)[j]? = some b →
      (as ++ [o])[if j < k then j else j + 1]? = some b ∧ b ≠ a := by
    intro j b hj
    rw [List.getElem?_eraseIdx] at hj
    by_cases hjk : j < k
    · simp only [hjk, if_true] at hj ⊢
      refine ⟨hj, ?_⟩
      intro hba
      rw [hba] at hj
      have := Linked_inj hlinked hj hna
      omega
    · simp only [hjk, if_false] at hj ⊢
      refine ⟨hj, ?_⟩
      intro hba
      rw [hba] at hj
      have := Linked_inj hlinked hj hna
      omega
  have hcell : ∀ (j b : Nat), ((as ++ [o]).eraseIdx k)[j]? = some b →
      ∃ c, h.elements[b]? = some (some c) ∧ h2.elements[b]? = some (some (e.relink b c)) := by
    intro j b hj
    obtain ⟨hj2, hba⟩ := hold j b hj
    obtain ⟨c, hc, -, -⟩ := hlinked.1 _ b hj2
    refine ⟨c, hc, ?_⟩
    rw [hp b, if_neg hba, hc]
    rfl
  refine ⟨?_, ?_, hcap2, hlen2, ?_, ?_⟩
  · unfold BucketStorage.ListInv
    rw [← List.eraseIdx_append_of_lt_length hk [o], List.length_eraseIdx_of_lt hk]
    refine ⟨en, ?_, ?_, ?_, ⟨?_, ?_⟩, ?_⟩
    · -- the fields of the list
      simp only
      rw [hvm2]
      have hne : e.m_next ≠ none := by rw [henext, hnx]; simp
      simp only [hne, if_false]
      congr 2
      rw [List.getElem?_eraseIdx]
      by_cases hk0 : k = 0
      · subst hk0
        have : e.m_prev = none := by rw [heprev]; simp
        simp only [this, if_true, Nat.lt_irrefl, if_false]
        exact henext
      · have hpos : 0 < k := Nat.pos_of_ne_zero hk0
        have hpne : e.m_prev ≠ none := by
          rw [heprev]
          simp only [hk0, if_false]
          rw [nodes_get_lt as o (by omega)]
          have hlt : k - 1 < as.length := by omega
          rw [List.getElem?_eq_getElem hlt]
          simp
        simp only [hpne, if_false, hpos, if_true]
    · simp only [hsize2, hsize]
      obtain ⟨m, hm⟩ : ∃ m, as.length = m + 1 := ⟨as.length - 1, by omega⟩
      rw [hm, decr64_succ]
      rfl
    · -- `m_end`
      simp only
      rcases hend with hend | ⟨d, hd, hdead⟩
      · by_cases hlast : k = as.length - 1
        · right
          refine ⟨a, ?_, ?_⟩
          · rw [hend, ← hlast]; exact hna
          · rw [hp a]; simp
        · left
          rw [hend, List.getElem?_eraseIdx]
          have : ¬ as.length - 1 - 1 < k := by omega
          simp only [this, if_false]
          congr 1
          omega
      · right
        refine ⟨d, hd, ?_⟩
        rw [hp d]
        by_cases hda : d = a
        · simp [hda]
        · simp only [hda, if_false, hdead]
          rfl
    · -- the links
      intro j b hj
      obtain ⟨hj2, hba⟩ := hold j b hj
      obtain ⟨c, hc, hc2⟩ := hcell j b hj
      obtain ⟨c0, hc0, hcnext, hcprev⟩ := hlinked.1 _ b hj2
      rw [hc] at hc0
      cases hc0
      refine ⟨_, hc2, ?_, ?_⟩
      · -- next
        simp only [BucketStorage.Element.relink]
        rw [List.getElem?_eraseIdx]
        by_cases hjk : j < k
        · simp only [hjk, if_true] at hj2 hcnext
          by_cases hj1 : j + 1 = k
          · have hpb : e.m_prev = some b := by
              rw [heprev]
              have hk0 : k ≠ 0 := by omega
              simp only [hk0, if_false]
              rw [← hj2]
              congr 1
              omega
            have : ¬ j + 1 < k := by omega
            simp only [hpb, if_true, this, if_false]
            rw [henext, hj1]
          · have hpb : ¬ e.m_prev = some b := by
              intro hpb
              obtain ⟨hk0, hq2⟩ := hprevk b hpb
              have := Linked_inj hlinked hq2 hj2
              omega
            have : j + 1 < k := by omega
            simp only [hpb, if_false, this, if_true]
            exact hcnext
        · simp only [hjk, if_false] at hj2 hcnext
          have hpb : ¬ e.m_prev = some b := by
            intro hpb
            obtain ⟨hk0, hq2⟩ := hprevk b hpb
            have := Linked_inj hlinked hq2 hj2
            omega
          have : ¬ j + 1 < k := by omega
          simp only [hpb, if_false, this]
          exact hcnext
      · -- prev
        simp only [BucketStorage.Element.relink]
        by_cases hjk : j < k
        · simp only [hjk, if_true] at hj2 hcprev
          have hnb : ¬ e.m_next = some b := by
            intro hnb
            rw [henext] at hnb
            have := Linked_inj hlinked hnb hj2
            omega
          simp only [hnb, if_false]
          rw [hcprev]
          by_cases hj0 : j = 0
          · simp only [hj0, if_true]
          · simp only [hj0, if_false]
            rw [List.getElem?_eraseIdx]
            have : j - 1 < k := by omega
            simp only [this, if_true]
        · simp only [hjk, if_false] at hj2 hcprev
          by_cases hjk2 : j = k
          · have hnb : e.m_next = some b := by
              rw [henext, ← hj2, hjk2]
            simp only [hnb, if_true]
            rw [heprev, hjk2]
            by_cases hk0 : k = 0
            · simp only [hk0, if_true]
            · simp only [hk0, if_false]
              rw [List.getElem?_eraseIdx]
              have : k - 1 < k := by omega
              simp only [this, if_true]
          · have hnb : ¬ e.m_next = some b := by
              intro hnb
              rw [henext] at hnb
              have := Linked_inj hlinked hnb hj2
              omega
            have hj0 : ¬ j = 0 := by omega
            have hj10 : ¬ j + 1 = 0 := by omega
            simp only [hnb, if_false, hj0]
            rw [hcprev]
            simp only [hj10, if_false]
            rw [List.getElem?_eraseIdx]
            have : ¬ j - 1 < k := by omega
            simp only [this, if_false]
            congr 1
            omega
    · -- the timestamps
      intro i j b1 b2 e1 e2 hij hi hj he1 he2
      obtain ⟨hi2, -⟩ := hold i b1 hi
      obtain ⟨hj2, -⟩ := hold j b2 hj
      obtain ⟨c1, hc1, hc12⟩ := hcell i b1 hi
      obtain ⟨c2, hc2, hc22⟩ := hcell j b2 hj
      rw [hc12] at he1
      rw [hc22] at he2
      cases he1
      cases he2
      rw [relink_time, relink_time]
      refine hlinked.2 _ _ b1 b2 c1 c2 ?_ hi2 hj2 hc1 hc2
      split <;> split <;> omega
    · -- the sentinel
      refine ⟨e.relink o co, ?_, ?_⟩
      · simp only
        rw [hp o, if_neg (Ne.symm hao), ho]
        rfl
      · rw [relink_block]; exact hoblk
  · rw [hit, henext]
  · rw [hp a]; simp
  · intro b hb hbo
    have hba : b ≠ a := fun hh => hb (hh ▸ List.getElem?_mem hka)
    rw [hp b, if_neg hba]
    have hpb : e.m_prev ≠ some b := by
      intro hpb
      obtain ⟨hk0, hq2⟩ := hprevk b hpb
      rw [nodes_get_lt as o (by omega)] at hq2
      exact hb (List.getElem?_mem hq2)
    have hnb : e.m_next ≠ some b := by
      intro hnb
      rw [henext] at hnb
      by_cases hk1 : k + 1 < as.length
      · rw [nodes_get_lt as o hk1] at hnb
        exact hb (List.getElem?_mem hnb)
      · have : k + 1 = as.length := by omega
        rw [this, hso] at hnb
        exact hbo (Option.some.inj hnb).symm
    cases hh : h.elements[b]? with
    | none => rfl
    | some oc =>
      cases oc with
      | none => rfl
      | some c => simp [relink_other e b c hpb hnb]

/-! ## Moving an iterator along a well-formed list -/

/-- On a linked list `++it` moves one index up; the index after the last node
is the null iterator. -/
theorem incr_linked {T : Type} {h : Heap T} {ns : List Nat} (hl : h.Linked ns) {i a : Nat}
    (hi : ns[i]? = some a) :
    BucketStorage.BaseIterator.incr ⟨some a⟩ h = .ok ⟨ns[i + 1]?⟩ := by
  obtain ⟨e, he, hnext, -⟩ := hl.1 i a hi
  simp [BucketStorage.BaseIterator.incr, Heap.element_ok_iff.mpr he, hnext, bind, Except.bind,
    pure, Except.pure]

theorem decr_linked {T : Type} {h : Heap T} {ns : List Nat} (hl : h.Linked ns) {i a : Nat}
    (hi : ns[i + 1]? = some a) :
    BucketStorage.BaseIterator.decr ⟨some a⟩ h = .ok ⟨ns[i]?⟩ := by
  obtain ⟨e, he, -, hprev⟩ := hl.1 (i + 1) a hi
  simp [BucketStorage.BaseIterator.decr, Heap.element_ok_iff.mpr he, hprev, bind, Except.bind,
    pure, Except.pure]

theorem advance_linked {T : Type} {h : Heap T} {ns : List Nat} (hl : h.Linked ns) :
    ∀ (n i : Nat), i + n ≤ ns.length →
      BucketStorage.BaseIterator.advance h n ⟨ns[i]?⟩ = .ok ⟨ns[i + n]?⟩ := by
  intro n
  induction n with
  | zero => intro i _; rfl
  | succ n ih =>
    intro i hin
    have hi : i < ns.length := by omega
    have hget : ns[i]? = some ns[i] := List.getElem?_eq_getElem hi
    rw [hget]
    simp only [BucketStorage.BaseIterator.advance, incr_linked hl hget, bind, Except.bind]
    rw [ih (i + 1) (by omega)]
    congr 3
    omega

theorem retreat_linked {T : Type} {h : Heap T} {ns : List Nat} (hl : h.Linked ns) :
    ∀ (n i : Nat), n ≤ i → i < ns.length →
      BucketStorage.BaseIterator.retreat h n ⟨ns[i]?⟩ = .ok ⟨ns[i - n]?⟩ := by
  intro n
  induction n with
  | zero => intro i _ _; rfl
  | succ n ih =>
    intro i hni hi
    obtain ⟨m, rfl⟩ : ∃ m, i = m + 1 := ⟨i - 1, by omega⟩
    have hget : ns[m + 1]? = some ns[m + 1] := List.getElem?_eq_getElem hi
    rw [hget]
    simp only [BucketStorage.BaseIterator.retreat, decr_linked hl hget, bind, Except.bind]
    rw [ih m (by omega) (by omega)]
    congr 3
    omega

/-- An `advance` that returns stayed inside the list (the null iterator after
the last node included). -/
theorem advance_ok_linked {T : Type} {h : Heap T} {ns : List Nat} (hl : h.Linked ns) :
    ∀ (n i : Nat) (it : BucketStorage.BaseIterator), i ≤ ns.length →
      BucketStorage.BaseIterator.advance h n ⟨ns[i]?⟩ = .ok it →
      i + n ≤ ns.length ∧ it = ⟨ns[i + n]?⟩ := by
  intro n
  induction n with
  | zero =>
    intro i it hi hok
    cases hok
    exact ⟨hi, rfl⟩
  | succ n ih =>
    intro i it hi hok
    by_cases hlt : i < ns.length
    · have hget : ns[i]? = some ns[i] := List.getElem?_eq_getElem hlt
      rw [hget] at hok
      simp only [BucketStorage.BaseIterator.advance, incr_linked hl hget, bind,
        Except.bind] at hok
      obtain ⟨h1, h2⟩ := ih (i + 1) it (by omega) hok
      refine ⟨by omega, ?_⟩
      rw [h2]
      congr 2
      omega
    · rw [List.getElem?_eq_none (by omega)] at hok
      simp [BucketStorage.BaseIterator.advance, BucketStorage.BaseIterator.incr,
        Heap.element, bind, Except.bind] at hok

/-- Code path `if (el == nullptr) return end();` of `erase`. -/
theorem erase_null {T : Type} {bs bs2 : BucketStorage} {h h2 : Heap T}
    {it : BucketStorage.BaseIterator} (hok : bs.erase h ⟨none⟩ = .ok (bs2, h2, it)) :
    bs2 = bs ∧ h2 = h := by
  simp only [BucketStorage.erase, bind_ok_iff, pure_ok_iff] at hok
  obtain ⟨e, -, hfin⟩ := hok
  cases hfin
  exact ⟨rfl, rfl⟩

/-- The invariant only reads the nodes of the list and the cell that `m_end`
names. -/
theorem ListInv_frame {T : Type} {bs : BucketStorage} {h h2 : Heap T} {as : List Nat} {o : Nat}
    (hinv : BucketStorage.ListInv (bs, h) as o)
    (hnodes : ∀ b : Nat, b ∈ as ∨ b = o → h2.elements[b]? = h.elements[b]?)
    (hdead : ∀ d : Nat, h.elements[d]? = some none → h2.elements[d]? = some none) :
    BucketStorage.ListInv (bs, h2) as o := by
  obtain ⟨en, hvm, hsize, hend, hlinked, ⟨co, ho, hoblk⟩⟩ := hinv
  simp only at hvm hsize hend hlinked ho
  have hmem : ∀ (j b : Nat), (as ++ [o])[j]? = some b → b ∈ as ∨ b = o := by
    intro j b hj
    have := List.getElem?_mem hj
    simpa using this
  refine ⟨en, hvm, hsize, ?_, ⟨?_, ?_⟩, ⟨co, ?_, hoblk⟩⟩
  · rcases hend with hend | ⟨d, hd, hdd⟩
    · exact Or.inl hend
    · exact Or.inr ⟨d, hd, hdead d hdd⟩
  · intro j a hj
    obtain ⟨e, he, hn, hp⟩ := hlinked.1 j a hj
    exact ⟨e, by simp only; rw [hnodes a (hmem j a hj)]; exact he, hn, hp⟩
  · intro i j a b ea eb hij hi hj hea heb
    simp only at hea heb
    rw [hnodes a (hmem i a hi)] at hea
    rw [hnodes b (hmem j b hj)] at heb
    exact hlinked.2 i j a b ea eb hij hi hj hea heb
  · simp only
    rw [hnodes o (Or.inr rfl)]; exact ho

/-! ## The order list stays well formed: `clear` -/

theorem begin_inv {T : Type} {bs : BucketStorage} {h : Heap T} {as : List Nat} {o : Nat}
    (hinv : BucketStorage.ListInv (bs, h) as o) : bs.begin = .ok ⟨(as ++ [o])[0]?⟩ := by
  obtain ⟨en, hvm, -⟩ := hinv
  simp only at hvm
  simp [BucketStorage.begin, hvm, derefPtr, bind, Except.bind, pure, Except.pure]

theorem end_inv {T : Type} {bs : BucketStorage} {h : Heap T} {as : List Nat} {o : Nat}
    (hinv : BucketStorage.ListInv (bs, h) as o) : bs.end = .ok ⟨some o⟩ := by
  obtain ⟨en, hvm, -⟩ := hinv
  simp only at hvm
  simp [BucketStorage.end, hvm, derefPtr, bind, Except.bind, pure, Except.pure]

theorem size_inv {T : Type} {bs : BucketStorage} {h : Heap T} {as : List Nat} {o : Nat}
    (hinv : BucketStorage.ListInv (bs, h) as o) : bs.m_bucket_size = as.length := by
  obtain ⟨en, -, hsize, -⟩ := hinv
  exact hsize

/-- The loop `while (!empty()) erase(begin());` empties the list and touches
no node outside it. -/
theorem eraseAll_inv {T : Type} {o : Nat} :
    ∀ (fuel : Nat) (bs bs2 : BucketStorage) (h h2 : Heap T) (as : List Nat),
      BucketStorage.ListInv (bs, h) as o →
      BucketStorage.eraseAll fuel bs h = .ok (bs2, h2) →
      BucketStorage.ListInv (bs2, h2) [] o ∧
      bs2.m_bucket_capacity = bs.m_bucket_capacity ∧
      h2.elements.length = h.elements.length ∧
      (∀ b : Nat, b ∉ as → b ≠ o → h2.elements[b]? = h.elements[b]?) := by
  intro fuel
  induction fuel with
  | zero =>
    intro bs bs2 h h2 as hinv hok
    have hsize := size_inv hinv
    by_cases hemp : bs.m_bucket_size = 0
    · simp only [BucketStorage.eraseAll, BucketStorage.empty, hemp, decide_True, if_true,
        pure_ok_iff] at hok
      cases hok
      have : as = [] := List.length_eq_zero.mp (by omega)
      subst this
      exact ⟨hinv, rfl, rfl, fun _ _ _ => rfl⟩
    · simp [BucketStorage.eraseAll, BucketStorage.empty, hemp] at hok
  | succ fuel ih =>
    intro bs bs2 h h2 as hinv hok
    have hsize := size_inv hinv
    by_cases hemp : bs.m_bucket_size = 0
    · simp only [BucketStorage.eraseAll, BucketStorage.empty, hemp, decide_True, if_true,
        pure_ok_iff] at hok
      cases hok
      have : as = [] := List.length_eq_zero.mp (by omega)
      subst this
      exact ⟨hinv, rfl, rfl, fun _ _ _ => rfl⟩
    · have hpos : 0 < as.length := by omega
      have hget : as[0]? = some as[0] := List.getElem?_eq_getElem hpos
      have hb : bs.begin = .ok ⟨some as[0]⟩ := by
        rw [begin_inv hinv, nodes_get_lt as o hpos, hget]
      simp only [BucketStorage.eraseAll, BucketStorage.empty, hemp, decide_False, hb,
        bind_ok_iff] at hok
      simp only [Bool.false_eq_true, if_false, bind_ok_iff] at hok
      obtain ⟨b0, hb0, ⟨bs1, h1, it⟩, herase, hrest⟩ := hok
      cases hb0
      obtain ⟨hinv1, -, hcap1, hlen1, -, hframe1⟩ := erase_inv hinv hget herase
      obtain ⟨hinv2, hcap2, hlen2, hframe2⟩ := ih bs1 bs2 h1 h2 _ hinv1 hrest
      refine ⟨hinv2, hcap2.trans hcap1, hlen2.trans hlen1, ?_⟩
      intro b hb hbo
      have hb1 : b ∉ as.eraseIdx 0 := fun hh => hb (List.mem_of_mem_eraseIdx hh)
      rw [hframe2 b hb1 hbo, hframe1 b hb hbo]

/-- Code of `clear()` keeps the order list well formed: it is empty afterwards,
with `m_end` back on the sentinel. -/
theorem clear_inv {T : Type} {bs bs2 : BucketStorage} {h h2 : Heap T} {as : List Nat} {o : Nat}
    (hinv : BucketStorage.ListInv (bs, h) as o)
    (hok : bs.clear h = .ok (bs2, h2)) :
    BucketStorage.ListInv (bs2, h2) [] o := by
  simp only [BucketStorage.clear, bind_ok_iff, pure_ok_iff] at hok
  obtain ⟨⟨bs1, h1⟩, hall, vm, hvm, pm, -, hfin⟩ := hok
  cases hfin
  obtain ⟨hinv1, -, -, -⟩ := eraseAll_inv _ _ _ _ _ _ hinv hall
  obtain ⟨en, hvm1, hsize1, hend1, hlinked1, hsen1⟩ := hinv1
  simp only at hvm1 hsize1 hend1 hlinked1 hsen1
  rw [hvm1] at hvm
  simp only [derefPtr] at hvm
  cases hvm
  refine ⟨some o, ?_, rfl, Or.inl rfl, hlinked1, hsen1⟩
  rfl

/-! ## The order list stays well formed: `shrink_to_fit` -/

theorem swap_eq (a b : BucketStorage) : a.swap b = (b, a) := rfl

/-- The constructor `BucketStorage(cap)` makes a well-formed empty list whose
sentinel is the next free address, and touches no other node. -/
theorem init_inv {T : Type} (h : Heap T) (cap : Nat) :
    BucketStorage.ListInv (BucketStorage.init h cap) [] h.elements.length ∧
    (BucketStorage.init h cap).2.elements = h.elements ++ [some (BucketStorage.Element.new 0)] ∧
    (BucketStorage.init h cap).1.m_bucket_capacity = cap := by
  refine ⟨⟨some h.elements.length, rfl, rfl, Or.inl rfl, ⟨?_, ?_⟩,
    ⟨BucketStorage.Element.new 0, ?_, rfl⟩⟩, rfl, rfl⟩
  · intro j a hj
    have hcell : (BucketStorage.init h cap).2.elements[h.elements.length]? =
        some (some (BucketStorage.Element.new 0)) :=
      getElem?_append_single_eq h.elements _
    cases j with
    | zero =>
      simp only [List.nil_append, List.getElem?_cons_zero] at hj
      cases hj
      exact ⟨_, hcell, rfl, rfl⟩
    | succ j => simp at hj
  · intro i j a b ea eb hij hi hj _ _
    cases j with
    | zero => omega
    | succ j => simp at hj
  · exact getElem?_append_single_eq h.elements _

theorem ListInv_alive {T : Type} {bs : BucketStorage} {h : Heap T} {as : List Nat} {o : Nat}
    (hinv : BucketStorage.ListInv (bs, h) as o) {b : Nat} (hb : b ∈ as ∨ b = o) :
    ∃ e, h.elements[b]? = some (some e) := by
  obtain ⟨en, -, -, -, hlinked, -⟩ := hinv
  have hb2 : b ∈ as ++ [o] := by simpa using hb
  obtain ⟨j, hj⟩ := List.getElem?_of_mem hb2
  obtain ⟨e, he, -, -⟩ := hlinked.1 j b hj
  exact ⟨e, he⟩

/-- The loop of `shrink_to_fit` keeps both lists well formed: it inserts into
the temporary, whose nodes are all at addresses from `n0` on, and does not
touch the source, whose nodes are all below `n0`. -/
theorem moveInto_inv {T : Type} {bs : BucketStorage} {as : List Nat} {o n0 : Nat}
    (hold : ∀ b : Nat, b ∈ as ∨ b = o → b < n0) :
    ∀ (fuel : Nat) (temp temp2 : BucketStorage) (h h2 : Heap T) (i : BucketStorage.BaseIterator)
      (as1 : List Nat),
      BucketStorage.ListInv (bs, h) as o →
      BucketStorage.ListInv (temp, h) as1 n0 →
      (∀ b : Nat, b ∈ as1 → n0 ≤ b) →
      BucketStorage.moveInto bs fuel temp h i = .ok (temp2, h2) →
      ∃ as2, BucketStorage.ListInv (bs, h2) as o ∧ BucketStorage.ListInv (temp2, h2) as2 n0 ∧
        (∀ b : Nat, b ∈ as2 → n0 ≤ b) := by
  intro fuel
  induction fuel with
  | zero =>
    intro temp temp2 h h2 i as1 _ _ _ hok
    simp [BucketStorage.moveInto] at hok
  | succ fuel ih =>
    intro temp temp2 h h2 i as1 hinv hinv1 hnew hok
    simp only [BucketStorage.moveInto, bind_ok_iff] at hok
    obtain ⟨e, -, c, -, hrest⟩ := hok
    cases c with
    | false =>
      simp only [Bool.false_eq_true, if_false, pure_ok_iff] at hrest
      cases hrest
      exact ⟨as1, hinv, hinv1, hnew⟩
    | true =>
      simp only [if_true, bind_ok_iff] at hrest
      obtain ⟨v, -, ⟨temp1, h1, it1⟩, hins, nxt, -, hrec⟩ := hrest
      obtain ⟨hinv2, -, -, hlen, hframe⟩ := insert_inv hinv1 hins
      obtain ⟨c0, hc0⟩ := ListInv_alive hinv1 (Or.inr rfl)
      have hn0 : n0 < h.elements.length := lt_length_of_getElem? hc0
      have hinv3 : BucketStorage.ListInv (bs, h1) as o := by
        refine ListInv_frame hinv ?_ ?_
        · intro b hb
          have hlt := hold b hb
          refine hframe b ?_ (by omega) (by omega)
          intro hmem
          have := hnew b hmem
          omega
        · intro d hd
          have hlt : d < h.elements.length := lt_length_of_getElem? hd
          rw [hframe d ?_ ?_ (by omega)]
          · exact hd
          · intro hmem
            obtain ⟨e1, he1⟩ := ListInv_alive hinv1 (Or.inl hmem)
            rw [hd] at he1
            cases he1
          · intro hdn
            rw [hdn, hc0] at hd
            cases hd
      refine ih temp1 temp2 h1 h2 nxt _ hinv3 hinv2 ?_ hrec
      intro b hb
      rcases List.mem_append.mp hb with hb1 | hb1
      · exact hnew b hb1
      · have : b = h.elements.length := by simpa using hb1
        omega

/-- The destructor of a container with a well-formed list does not touch the
nodes of another list that shares none with it. -/
theorem destroy_frame {T : Type} {old temp : BucketStorage} {h h2 : Heap T}
    {as as1 : List Nat} {o o1 : Nat}
    (hinv : BucketStorage.ListInv (old, h) as o)
    (hinv1 : BucketStorage.ListInv (temp, h) as1 o1)
    (hdisj : ∀ b : Nat, b ∈ as1 ∨ b = o1 → b ∉ as ∧ b ≠ o)
    (hok : old.destroy h = .ok h2) :
    BucketStorage.ListInv (temp, h2) as1 o1 := by
  simp only [BucketStorage.destroy, bind_ok_iff] at hok
  obtain ⟨⟨old1, h1⟩, hall, hrest⟩ := hok
  obtain ⟨hinvA, -, -, hframe⟩ := eraseAll_inv _ _ _ _ _ _ hinv hall
  have hinvB : BucketStorage.ListInv (temp, h1) as1 o1 := by
    refine ListInv_frame hinv1 ?_ ?_
    · intro b hb
      obtain ⟨h1, h2⟩ := hdisj b hb
      exact hframe b h1 h2
    · intro d hd
      rw [hframe d ?_ ?_]
      · exact hd
      · intro hmem
        obtain ⟨e1, he1⟩ := ListInv_alive hinv (Or.inl hmem)
        rw [hd] at he1
        cases he1
      · intro hdo
        obtain ⟨e1, he1⟩ := ListInv_alive hinv (Or.inr rfl)
        rw [hdo, he1] at hd
        cases hd
  obtain ⟨en, hvm, -, -, hlinked, -⟩ := hinvA
  simp only at hvm hlinked
  simp only [hvm] at hrest
  obtain ⟨co, hco, hnext, hprev⟩ := hlinked.1 0 o rfl
  simp only [List.nil_append, if_true] at hnext hprev
  have hnext2 : co.m_next = none := hnext
  have hlen : 0 < h1.elements.length := by
    have := lt_length_of_getElem? hco
    omega
  obtain ⟨m, hm⟩ : ∃ m, h1.elements.length = m + 1 := ⟨h1.elements.length - 1, by omega⟩
  rw [hm] at hrest
  simp only [List.nil_append, List.getElem?_cons_zero,
    BucketStorage.VirtualMemory.deleteChain, bind_ok_iff,
    Heap.element_ok_iff] at hrest
  obtain ⟨e, he, h3, hdel, hchain⟩ := hrest
  rw [hco] at he
  cases he
  rw [hnext2] at hchain
  have h32 : h2 = h3 := by
    cases m with
    | zero =>
      simp only [BucketStorage.VirtualMemory.deleteChain, if_true, pure_ok_iff] at hchain
      exact hchain.symm
    | succ m =>
      simp only [BucketStorage.VirtualMemory.deleteChain, pure_ok_iff] at hchain
      exact hchain.symm
  subst h32
  obtain ⟨-, -, hp⟩ := deleteElement_effect hco
    (by intro q hq; rw [hprev] at hq; cases hq)
    (by intro q hq; rw [hnext2] at hq; cases hq) hdel
  have hsame : ∀ b : Nat, b ≠ o → h2.elements[b]? = h1.elements[b]? := by
    intro b hb
    rw [hp b, if_neg hb]
    cases hh : h1.elements[b]? with
    | none => rfl
    | some oc =>
      cases oc with
      | none => rfl
      | some c =>
        simp [relink_other co b c (by rw [hprev]; simp) (by rw [hnext2]; simp)]
  refine ListInv_frame hinvB ?_ ?_
  · intro b hb
    exact hsame b (hdisj b hb).2
  · intro d hd
    by_cases hdo : d = o
    · rw [hdo, hp o]; simp
    · rw [hsame d hdo]; exact hd

/-- Code of `shrink_to_fit()` leaves a well-formed list (that of the temporary
it filled). -/
theorem shrink_inv {T : Type} {bs bs2 : BucketStorage} {h h2 : Heap T} {as : List Nat} {o : Nat}
    (hinv : BucketStorage.ListInv (bs, h) as o)
    (hok : bs.shrink_to_fit h = .ok (bs2, h2)) :
    ∃ as2 o2, BucketStorage.ListInv (bs2, h2) as2 o2 := by
  simp only [BucketStorage.shrink_to_fit, swap_eq, bind_ok_iff, pure_ok_iff] at hok
  obtain ⟨i, -, ⟨temp1, h1⟩, hmove, h3, hdestroy, hfin⟩ := hok
  cases hfin
  obtain ⟨hinv0, hel0, -⟩ := init_inv h bs.m_bucket_capacity
  have hold : ∀ b : Nat, b ∈ as ∨ b = o → b < h.elements.length := by
    intro b hb
    obtain ⟨e, he⟩ := ListInv_alive hinv hb
    exact lt_length_of_getElem? he
  have hinvS : BucketStorage.ListInv (bs, (BucketStorage.init h bs.m_bucket_capacity).2) as o := by
    refine ListInv_frame hinv ?_ ?_
    · intro b hb
      rw [hel0]
      exact getElem?_append_single_ne _ _ (Nat.ne_of_lt (hold b hb))
    · intro d hd
      rw [hel0, getElem?_append_single_ne _ _ (Nat.ne_of_lt (lt_length_of_getElem? hd))]
      exact hd
  obtain ⟨as2, hinvA, hinvB, hnew⟩ :=
    moveInto_inv hold _ _ _ _ _ _ [] hinvS hinv0 (by intro b hb; cases hb) hmove
  refine ⟨as2, h.elements.length, destroy_frame hinvA hinvB ?_ hdestroy⟩
  intro b hb
  have hge : h.elements.length ≤ b := by
    rcases hb with hb | hb
    · exact hnew b hb
    · omega
  constructor
  · intro hmem
    have := hold b (Or.inl hmem)
    omega
  · intro hbo
    have := hold b (Or.inr hbo)
    omega

/-! ## Every reachable state has a well-formed order list -/

theorem get_to_distance_nat {T : Type} (bs : BucketStorage) (h : Heap T)
    (it : BucketStorage.BaseIterator) (k : Nat) :
    bs.get_to_distance h it (k : Int) = BucketStorage.BaseIterator.advance h k it := by
  simp only [BucketStorage.get_to_distance, Int.toNat_ofNat, Int.toNat_neg_nat]
  cases BucketStorage.BaseIterator.advance h k it <;> rfl

/-- Every driver call keeps the order list well formed. -/
theorem call_inv {T : Type} {s s2 : BucketStorage × Heap T} {as : List Nat} {o : Nat}
    (c : BucketStorage.Call T)
    (hinv : BucketStorage.ListInv s as o)
    (hok : BucketStorage.call s c = .ok s2) :
    ∃ as2 o2, BucketStorage.ListInv s2 as2 o2 := by
  obtain ⟨bs, h⟩ := s
  obtain ⟨bs2, h2⟩ := s2
  have hlinked : h.Linked (as ++ [o]) := by
    obtain ⟨en, -, -, -, hl, -⟩ := hinv
    exact hl
  obtain ⟨co, hco, hblk⟩ : ∃ e, h.elements[o]? = some (some e) ∧ e.m_block_link = none := by
    obtain ⟨en, -, -, -, -, hs⟩ := hinv
    exact hs
  cases c with
  | insert x =>
    simp only [BucketStorage.call, bind_ok_iff, pure_ok_iff] at hok
    obtain ⟨⟨bs1, h1, it⟩, hins, hfin⟩ := hok
    cases hfin
    exact ⟨_, o, (insert_inv hinv hins).1⟩
  | eraseAt k =>
    simp only [BucketStorage.call, begin_inv hinv, get_to_distance_nat, bind_ok_iff,
      pure_ok_iff] at hok
    obtain ⟨b, hb, it, hadv, ⟨bs1, h1, it1⟩, herase, hfin⟩ := hok
    cases hb
    cases hfin
    obtain ⟨hle, hit⟩ := advance_ok_linked hlinked k 0 it (Nat.zero_le _) hadv
    simp only [Nat.zero_add, List.length_append, List.length_singleton] at hle hit
    subst hit
    rcases Nat.lt_trichotomy k as.length with hlt | heq | hgt
    · have hget : as[k]? = some as[k] := List.getElem?_eq_getElem hlt
      rw [nodes_get_lt as o hlt, hget] at herase
      exact ⟨_, o, (erase_inv hinv hget herase).1⟩
    · rw [heq, nodes_get_len, erase_no_block bs hco hblk] at herase
      cases herase
    · rw [nodes_get_gt as o hgt] at herase
      obtain ⟨h1, h2⟩ := erase_null herase
      subst h1; subst h2
      exact ⟨as, o, hinv⟩
  | eraseEnd =>
    simp only [BucketStorage.call, end_inv hinv, bind_ok_iff, pure_ok_iff] at hok
    obtain ⟨e, he, ⟨bs1, h1, it1⟩, herase, hfin⟩ := hok
    cases he
    rw [erase_no_block bs hco hblk] at herase
    cases herase
  | clear =>
    exact ⟨[], o, clear_inv hinv hok⟩
  | shrink_to_fit =>
    exact shrink_inv hinv hok

theorem runFrom_inv {T : Type} :
    ∀ (calls : List (BucketStorage.Call T)) (s s2 : BucketStorage × Heap T) (as : List Nat)
      (o : Nat), BucketStorage.ListInv s as o → BucketStorage.runFrom s calls = .ok s2 →
      ∃ as2 o2, BucketStorage.ListInv s2 as2 o2 := by
  intro calls
  induction calls with
  | nil =>
    intro s s2 as o hinv hok
    simp only [BucketStorage.runFrom, pure_ok_iff] at hok
    subst hok
    exact ⟨as, o, hinv⟩
  | cons c cs ih =>
    intro s s2 as o hinv hok
    simp only [BucketStorage.runFrom, bind_ok_iff] at hok
    obtain ⟨s1, hcall, hrest⟩ := hok
    obtain ⟨as1, o1, hinv1⟩ := call_inv c hinv hcall
    exact ih s1 s2 as1 o1 hinv1 hrest

/-- Every state that a driver program reaches on a fresh container has a
well-formed order list. -/
theorem run_inv {T : Type} {cap : Nat} {calls : List (BucketStorage.Call T)}
    {s : BucketStorage × Heap T} (hok : BucketStorage.run cap calls = .ok s) :
    ∃ as o, BucketStorage.ListInv s as o :=
  runFrom_inv calls _ s [] _ (init_inv Heap.empty cap).1 hok

/-! ## C14: `get_to_distance` -/

theorem iterAt_inv {T : Type} {s : BucketStorage × Heap T} {as : List Nat} {o : Nat}
    (hinv : BucketStorage.ListInv s as o) {i : Nat} (hi : i ≤ as.length) :
    BucketStorage.iterAt s i = .ok ⟨(as ++ [o])[i]?⟩ := by
  obtain ⟨bs, h⟩ := s
  have hlinked : h.Linked (as ++ [o]) := by
    obtain ⟨en, -, -, -, hl, -⟩ := hinv
    exact hl
  have hadv := advance_linked hlinked i 0
    (by simp only [List.length_append, List.length_singleton]; omega)
  rw [Nat.zero_add] at hadv
  simp only [BucketStorage.iterAt, begin_inv hinv, bind, Except.bind]
  exact hadv

theorem get_to_distance_linked {T : Type} (bs : BucketStorage) {h : Heap T} {ns : List Nat}
    (hl : h.Linked ns) {i : Nat} (d : Int) (hi : i < ns.length) (h0 : 0 ≤ (i : Int) + d)
    (h1 : (i : Int) + d < ns.length) :
    bs.get_to_distance h ⟨ns[i]?⟩ d = .ok ⟨ns[((i : Int) + d).toNat]?⟩ := by
  cases d with
  | ofNat m =>
    have hm : (i : Int) + Int.ofNat m = ((i + m : Nat) : Int) := by simp
    have hlt : i + m < ns.length := by
      rw [hm] at h1
      exact Int.ofNat_lt.mp h1
    rw [hm, Int.toNat_ofNat]
    simp only [BucketStorage.get_to_distance, Int.ofNat_eq_coe, Int.toNat_ofNat,
      Int.toNat_neg_nat, advance_linked hl m i (by omega), bind, Except.bind]
    rfl
  | negSucc m =>
    have hle : m + 1 ≤ i := by
      have : (i : Int) + Int.negSucc m = (i : Int) - ((m + 1 : Nat) : Int) := by
        rw [Int.negSucc_eq]; push_cast; ring
      rw [this] at h0
      omega
    have hm : ((i : Int) + Int.negSucc m).toNat = i - (m + 1) := by
      rw [Int.negSucc_eq]
      omega
    rw [hm]
    have hadv : BucketStorage.BaseIterator.advance h (Int.negSucc m).toNat ⟨ns[i]?⟩ =
        .ok ⟨ns[i]?⟩ := rfl
    have hneg : (-Int.negSucc m).toNat = m + 1 := by
      rw [Int.neg_negSucc]
      exact Int.toNat_ofNat (m + 1)
    simp only [BucketStorage.get_to_distance, hadv, hneg, bind, Except.bind]
    exact retreat_linked hl (m + 1) i hle hi

/-- C14. In every state `s` that a driver program (inserts, erases, `clear()`,
`shrink_to_fit()`) reaches on a fresh container, for every index `i ≤ size()`
(index `size()` being `end()`) and every signed `n` with `0 ≤ i + n ≤ size()`:
the iterators `it` at index `i` and `it2` at index `i + n` exist,
`get_to_distance(it, n)` returns `it2`, `get_to_distance(it, 0)` returns `it`,
and `get_to_distance(it2, -n)` returns `it`. -/
theorem C14_get_to_distance_moves_by_index {T : Type} (cap : Nat)
    (calls : List (BucketStorage.Call T)) (s : BucketStorage × Heap T)
    (hr : BucketStorage.run cap calls = .ok s) (i : Nat) (n : Int)
    (hi : i ≤ s.1.size) (h0 : 0 ≤ (i : Int) + n) (h1 : (i : Int) + n ≤ s.1.size) :
    ∃ it it2 : BucketStorage.BaseIterator,
      BucketStorage.iterAt s i = .ok it ∧
      BucketStorage.iterAt s ((i : Int) + n).toNat = .ok it2 ∧
      s.1.get_to_distance s.2 it n = .ok it2 ∧
      s.1.get_to_distance s.2 it 0 = .ok it ∧
      s.1.get_to_distance s.2 it2 (-n) = .ok it := by
  obtain ⟨as, o, hinv⟩ := run_inv hr
  have hsize : s.1.size = as.length := size_inv hinv
  rw [hsize] at hi h1
  have hlinked : s.2.Linked (as ++ [o]) := by
    obtain ⟨en, -, -, -, hl, -⟩ := hinv
    exact hl
  have hlen : (as ++ [o]).length = as.length + 1 := by simp
  have hj : ((i : Int) + n).toNat ≤ as.length := by omega
  refine ⟨⟨(as ++ [o])[i]?⟩, ⟨(as ++ [o])[((i : Int) + n).toNat]?⟩, iterAt_inv hinv hi,
    iterAt_inv hinv hj, ?_, ?_, ?_⟩
  · exact get_to_distance_linked s.1 hlinked n (by omega) h0 (by rw [hlen]; omega)
  · have := get_to_distance_linked s.1 hlinked (i := i) 0 (by omega) (by omega)
      (by rw [hlen]; omega)
    simpa using this
  · have := get_to_distance_linked s.1 hlinked (i := ((i : Int) + n).toNat) (-n) (by omega)
      (by omega) (by rw [hlen]; omega)
    rw [this]
    congr 3
    omega

theorem C14_get_to_distance_moves_by_index_witness :
    ∃ s : BucketStorage × Heap Nat,
      BucketStorage.run 2 [.insert 10, .insert 20, .insert 30, .eraseAt 1, .insert 40] = .ok s ∧
      3 ≤ s.1.size ∧ 0 ≤ ((3 : Nat) : Int) + (-2) ∧ ((3 : Nat) : Int) + (-2) ≤ s.1.size ∧
      ∃ it it2 : BucketStorage.BaseIterator,
        BucketStorage.iterAt s 3 = .ok it ∧
        BucketStorage.iterAt s (((3 : Nat) : Int) + (-2)).toNat = .ok it2 ∧
        s.1.get_to_distance s.2 it (-2) = .ok it2 ∧
        s.1.get_to_distance s.2 it 0 = .ok it ∧
        s.1.get_to_distance s.2 it2 (-(-2)) = .ok it := by
  cases hrun : BucketStorage.run 2
    ([.insert 10, .insert 20, .insert 30, .eraseAt 1, .insert 40] :
      List (BucketStorage.Call Nat)) with
  | error f =>
    have hok : (BucketStorage.run 2 ([.insert 10, .insert 20, .insert 30, .eraseAt 1,
      .insert 40] : List (BucketStorage.Call Nat))).toBool = true := by decide
    rw [hrun] at hok
    cases hok
  | ok s =>
    have hsize : s.1.size = 3 := by
      have hs : (BucketStorage.run 2 ([.insert 10, .insert 20, .insert 30, .eraseAt 1,
        .insert 40] : List (BucketStorage.Call Nat))).map (fun s => s.1.size) = .ok 3 := by
        decide
      rw [hrun] at hs
      exact Except.ok.inj hs
    have hi : 3 ≤ s.1.size := by omega
    have h0 : 0 ≤ ((3 : Nat) : Int) + (-2) := by decide
    have h1 : ((3 : Nat) : Int) + (-2) ≤ s.1.size := by rw [hsize]; decide
    exact ⟨s, rfl, hi, h0, h1,
      C14_get_to_distance_moves_by_index 2 _ s hrun 3 (-2) hi h0 h1⟩

/-! ## C17, C18: iteration and iterator order -/

/-- The node at an index of a well-formed list, as the iterator operations see it. -/
theorem node_inv {T : Type} {s : BucketStorage × Heap T} {as : List Nat} {o : Nat}
    (hinv : BucketStorage.ListInv s as o) {k : Nat} (hk : k ≤ as.length) :
    ∃ a e, (as ++ [o])[k]? = some a ∧ BucketStorage.iterAt s k = .ok ⟨some a⟩ ∧
      s.2.elements[a]? = some (some e) ∧ s.2.element (some a) = .ok e := by
  have hlinked : s.2.Linked (as ++ [o]) := by
    obtain ⟨en, -, -, -, hl, -⟩ := hinv
    exact hl
  have hlt : k < (as ++ [o]).length := by
    simp only [List.length_append, List.length_singleton]; omega
  have hget : (as ++ [o])[k]? = some (as ++ [o])[k] := List.getElem?_eq_getElem hlt
  obtain ⟨e, he, -, -⟩ := hlinked.1 k _ hget
  refine ⟨_, e, hget, ?_, he, Heap.element_ok_iff.mpr he⟩
  rw [iterAt_inv hinv hk, hget]

/-- C17. In every state `s` that a driver program (inserts, erases, `clear()`,
`shrink_to_fit()`) reaches on a fresh container: `begin()` advanced `size()`
times is `end()`; for every `k < size()` the iterator reached after `k` steps
names a node that is alive, is not `end()` and compares `!=` to `end()`, so the
loop from `begin()` to `end()` visits exactly `size()` nodes and the sentinel
is not among them; and `begin() == end()` returns `empty()`, which is true
exactly when the two iterators are the same node. -/
theorem C17_iteration_visits_size_nodes {T : Type} (cap : Nat)
    (calls : List (BucketStorage.Call T)) (s : BucketStorage × Heap T)
    (hr : BucketStorage.run cap calls = .ok s) :
    ∃ b e : BucketStorage.BaseIterator,
      s.1.begin = .ok b ∧ s.1.end = .ok e ∧
      BucketStorage.iterAt s s.1.size = .ok e ∧
      e.ne e s.2 = .ok false ∧
      (∀ k, k < s.1.size → ∃ (it : BucketStorage.BaseIterator) (c : BucketStorage.Element),
        BucketStorage.iterAt s k = .ok it ∧ s.2.element it.m_current = .ok c ∧ it ≠ e ∧
        it.ne e s.2 = .ok true) ∧
      b.eq e s.2 = .ok s.1.empty ∧
      (s.1.empty = true ↔ b = e) := by
  obtain ⟨as, o, hinv⟩ := run_inv hr
  have hsize : s.1.size = as.length := size_inv hinv
  have hlinked : s.2.Linked (as ++ [o]) := by
    obtain ⟨en, -, -, -, hl, -⟩ := hinv
    exact hl
  obtain ⟨o2, eo, ho2, hito, hco, heo⟩ := node_inv hinv (Nat.le_refl as.length)
  rw [nodes_get_len] at ho2
  cases ho2
  have hlive : ∀ k, k < as.length → ∃ (a : Nat) (c : BucketStorage.Element),
      (as ++ [o])[k]? = some a ∧
      BucketStorage.iterAt s k = .ok ⟨some a⟩ ∧ s.2.element (some a) = .ok c ∧ a ≠ o ∧
      c.m_time < eo.m_time := by
    intro k hk
    obtain ⟨a, c, hka, hit, hc, hec⟩ := node_inv hinv (Nat.le_of_lt hk)
    refine ⟨a, c, hka, hit, hec, ?_,
      hlinked.2 k as.length a o c eo hk hka (nodes_get_len as o) hc hco⟩
    intro hao
    rw [hao] at hka
    have := Linked_inj hlinked hka (nodes_get_len as o)
    omega
  refine ⟨⟨(as ++ [o])[0]?⟩, ⟨some o⟩, begin_inv hinv, end_inv hinv, ?_, ?_, ?_, ?_, ?_⟩
  · rw [hsize]; exact hito
  · simp [BucketStorage.BaseIterator.ne, heo, bind, Except.bind, pure, Except.pure]
  · intro k hk
    rw [hsize] at hk
    obtain ⟨a, c, -, hit, hec, hao, hlt⟩ := hlive k hk
    refine ⟨⟨some a⟩, c, hit, hec, ?_, ?_⟩
    · intro hh
      cases hh
      exact hao rfl
    · have hne : c.m_time ≠ eo.m_time := Nat.ne_of_lt hlt
      simp [BucketStorage.BaseIterator.ne, heo, hec, hne, bind, Except.bind, pure, Except.pure]
  · by_cases hemp : as.length = 0
    · have hnil : as = [] := List.length_eq_zero.mp hemp
      subst hnil
      have hsz : s.1.m_bucket_size = 0 := hsize
      simp [BucketStorage.BaseIterator.eq, BucketStorage.empty, heo, hsz, bind, Except.bind,
        pure, Except.pure]
    · obtain ⟨a, c, h0, hit, hec, hao, hlt⟩ := hlive 0 (by omega)
      have hsz : ¬ s.1.m_bucket_size = 0 := by
        have : s.1.m_bucket_size = as.length := hsize
        omega
      have hne : c.m_time ≠ eo.m_time := Nat.ne_of_lt hlt
      rw [h0]
      simp [BucketStorage.BaseIterator.eq, BucketStorage.empty, heo, hec, hsz, hne, bind,
        Except.bind, pure, Except.pure]
  · by_cases hemp : as.length = 0
    · have hnil : as = [] := List.length_eq_zero.mp hemp
      subst hnil
      have hsz : s.1.m_bucket_size = 0 := hsize
      simp [BucketStorage.empty, hsz]
    · obtain ⟨a, c, h0, hit, hec, hao, hlt⟩ := hlive 0 (by omega)
      have hsz : ¬ s.1.m_bucket_size = 0 := by
        have : s.1.m_bucket_size = as.length := hsize
        omega
      rw [h0]
      simp [BucketStorage.empty, hsz, hao]

theorem C17_iteration_visits_size_nodes_witness :
    ∃ s : BucketStorage × Heap Nat,
      BucketStorage.run 2 [.insert 10, .insert 20, .insert 30, .eraseAt 0, .clear, .insert 40,
        .insert 50, .eraseAt 1] = .ok s ∧
      ∃ b e : BucketStorage.BaseIterator,
        s.1.begin = .ok b ∧ s.1.end = .ok e ∧
        BucketStorage.iterAt s s.1.size = .ok e ∧
        e.ne e s.2 = .ok false ∧
        (∀ k, k < s.1.size → ∃ (it : BucketStorage.BaseIterator) (c : BucketStorage.Element),
          BucketStorage.iterAt s k = .ok it ∧ s.2.element it.m_current = .ok c ∧ it ≠ e ∧
          it.ne e s.2 = .ok true) ∧
        b.eq e s.2 = .ok s.1.empty ∧
        (s.1.empty = true ↔ b = e) := by
  cases hrun : BucketStorage.run 2
    ([.insert 10, .insert 20, .insert 30, .eraseAt 0, .clear, .insert 40, .insert 50,
      .eraseAt 1] : List (BucketStorage.Call Nat)) with
  | error f =>
    have hok : (BucketStorage.run 2 ([.insert 10, .insert 20, .insert 30, .eraseAt 0, .clear,
      .insert 40, .insert 50, .eraseAt 1] : List (BucketStorage.Call Nat))).toBool = true := by
      decide
    rw [hrun] at hok
    cases hok
  | ok s => exact ⟨s, rfl, C17_iteration_visits_size_nodes 2 _ s hrun⟩

/-- C18. In every state `s` that a driver program (inserts, erases, `clear()`,
`shrink_to_fit()`) reaches on a fresh container, for all indices
`p, q ≤ size()` (index `size()` being `end()`, the sentinel): the iterators at
`p` and `q` exist and name live nodes, the timestamp at `p` is less than the one
at `q` exactly when `p < q` (so timestamps ascend strictly along the list and
every element's is below the sentinel's), `operator<` returns `p < q`,
`operator==` returns `p = q` and `operator!=` returns `p ≠ q`. -/
theorem C18_iterator_order_is_index_order {T : Type} (cap : Nat)
    (calls : List (BucketStorage.Call T)) (s : BucketStorage × Heap T)
    (hr : BucketStorage.run cap calls = .ok s) (p q : Nat)
    (hp : p ≤ s.1.size) (hq : q ≤ s.1.size) :
    ∃ (a b : BucketStorage.BaseIterator) (ea eb : BucketStorage.Element),
      BucketStorage.iterAt s p = .ok a ∧ BucketStorage.iterAt s q = .ok b ∧
      s.2.element a.m_current = .ok ea ∧ s.2.element b.m_current = .ok eb ∧
      (ea.m_time < eb.m_time ↔ p < q) ∧
      a.lt b s.2 = .ok (decide (p < q)) ∧
      a.eq b s.2 = .ok (decide (p = q)) ∧
      a.ne b s.2 = .ok (decide (p ≠ q)) := by
  obtain ⟨as, o, hinv⟩ := run_inv hr
  have hsize : s.1.size = as.length := size_inv hinv
  rw [hsize] at hp hq
  have hlinked : s.2.Linked (as ++ [o]) := by
    obtain ⟨en, -, -, -, hl, -⟩ := hinv
    exact hl
  obtain ⟨a, ea, hpa, hita, hca, hea⟩ := node_inv hinv hp
  obtain ⟨b, eb, hqb, hitb, hcb, heb⟩ := node_inv hinv hq
  have htime : ea.m_time < eb.m_time ↔ p < q := by
    constructor
    · intro hlt
      by_contra hnlt
      rcases Nat.lt_or_ge q p with hqp | hqp
      · have := hlinked.2 q p b a eb ea hqp hqb hpa hcb hca
        omega
      · have hpq : p = q := by omega
        subst hpq
        rw [hpa] at hqb
        cases hqb
        rw [hca] at hcb
        cases hcb
        omega
    · intro hlt
      exact hlinked.2 p q a b ea eb hlt hpa hqb hca hcb
  have heq : ea.m_time = eb.m_time ↔ p = q := by
    constructor
    · intro he
      rcases Nat.lt_trichotomy p q with hlt | hpq | hgt
      · have := hlinked.2 p q a b ea eb hlt hpa hqb hca hcb
        omega
      · exact hpq
      · have := hlinked.2 q p b a eb ea hgt hqb hpa hcb hca
        omega
    · intro hpq
      subst hpq
      rw [hpa] at hqb
      cases hqb
      rw [hca] at hcb
      cases hcb
      rfl
  refine ⟨⟨some a⟩, ⟨some b⟩, ea, eb, hita, hitb, hea, heb, htime, ?_, ?_, ?_⟩
  · simp only [BucketStorage.BaseIterator.lt, hea, heb, bind, Except.bind, pure, Except.pure]
    congr 1
    exact decide_eq_decide.mpr htime
  · simp only [BucketStorage.BaseIterator.eq, hea, heb, bind, Except.bind, pure, Except.pure]
    congr 1
    exact decide_eq_decide.mpr heq
  · simp only [BucketStorage.BaseIterator.ne, hea, heb, bind, Except.bind, pure, Except.pure]
    congr 1
    exact decide_eq_decide.mpr (not_congr heq)

theorem C18_iterator_order_is_index_order_witness :
    ∃ s : BucketStorage × Heap Nat,
      BucketStorage.run 2 [.insert 10, .insert 20, .insert 30, .eraseAt 0, .insert 40,
        .shrink_to_fit, .insert 50] = .ok s ∧
      1 ≤ s.1.size ∧ 4 ≤ s.1.size ∧
      ∃ (a b : BucketStorage.BaseIterator) (ea eb : BucketStorage.Element),
        BucketStorage.iterAt s 1 = .ok a ∧ BucketStorage.iterAt s 4 = .ok b ∧
        s.2.element a.m_current = .ok ea ∧ s.2.element b.m_current = .ok eb ∧
        (ea.m_time < eb.m_time ↔ 1 < 4) ∧
        a.lt b s.2 = .ok (decide (1 < 4)) ∧
        a.eq b s.2 = .ok (decide (1 = 4)) ∧
        a.ne b s.2 = .ok (decide (1 ≠ 4)) := by
  cases hrun : BucketStorage.run 2
    ([.insert 10, .insert 20, .insert 30, .eraseAt 0, .insert 40, .shrink_to_fit,
      .insert 50] : List (BucketStorage.Call Nat)) with
  | error f =>
    have hok : (BucketStorage.run 2 ([.insert 10, .insert 20, .insert 30, .eraseAt 0,
      .insert 40, .shrink_to_fit, .insert 50] : List (BucketStorage.Call Nat))).toBool =
        true := by
      decide
    rw [hrun] at hok
    cases hok
  | ok s =>
    have hsize : s.1.size = 4 := by
      have hs : (BucketStorage.run 2 ([.insert 10, .insert 20, .insert 30, .eraseAt 0,
        .insert 40, .shrink_to_fit, .insert 50] : List (BucketStorage.Call Nat))).map
          (fun s => s.1.size) = .ok 4 := by
        decide
      rw [hrun] at hs
      exact Except.ok.inj hs
    have hp : 1 ≤ s.1.size := by omega
    have hq : 4 ≤ s.1.size := by omega
    exact ⟨s, rfl, hp, hq, C18_iterator_order_is_index_order 2 _ s hrun 1 4 hp hq⟩

/-! ## Block cells of the heap, and heaps that grow -/

theorem Heap.block_ok_iff {T : Type} {h : Heap T} {a : Nat} {b : BucketStorage.Block T} :
    h.block (some a) = .ok b ↔ h.blocks[a]? = some (some b) := by
  simp only [Heap.block]
  split
  · next b2 hb => simp [hb]
  · next hne =>
    constructor
    · intro hh; cases hh
    · intro hh; exact absurd hh (hne b)

theorem Heap.block_ok {T : Type} {h : Heap T} {p : Option Nat} {b : BucketStorage.Block T}
    (hok : h.block p = .ok b) : ∃ a, p = some a ∧ h.blocks[a]? = some (some b) := by
  cases p with
  | none => cases hok
  | some a => exact ⟨a, rfl, Heap.block_ok_iff.mp hok⟩

theorem Heap.modifyBlock_ok {T : Type} {h h2 : Heap T} {p : Option Nat}
    {f : BucketStorage.Block T → BucketStorage.Block T}
    (hok : h.modifyBlock p f = .ok h2) :
    ∃ a b, p = some a ∧ h.blocks[a]? = some (some b) ∧
      h2 = { h with blocks := h.blocks.set a (some (f b)) } := by
  unfold Heap.modifyBlock at hok
  split at hok
  · cases hok
  · next a =>
    split at hok
    · next b hb =>
      cases hok
      exact ⟨a, b, rfl, hb, rfl⟩
    · cases hok

theorem Heap.deleteBlock_ok {T : Type} {h h2 : Heap T} {p : Option Nat}
    (hok : h.deleteBlock p = .ok h2) :
    (p = none ∧ h2 = h) ∨
    ∃ a b, p = some a ∧ h.blocks[a]? = some (some b) ∧
      h2 = { h with blocks := h.blocks.set a none } := by
  unfold Heap.deleteBlock at hok
  split at hok
  · cases hok; exact Or.inl ⟨rfl, rfl⟩
  · next a =>
    simp only [bind_ok_iff, pure_ok_iff] at hok
    obtain ⟨b, hb, rfl⟩ := hok
    exact Or.inr ⟨a, b, rfl, Heap.block_ok_iff.mp hb, rfl⟩

theorem Grows_refl {T : Type} (h : Heap T) (C : Nat) : h.Grows h C :=
  ⟨rfl, Nat.le_refl _, fun _ b2 hb => ⟨b2, Or.inl hb, rfl⟩⟩

theorem Grows_trans {T : Type} {h1 h2 h3 : Heap T} {C : Nat}
    (h12 : h1.Grows h2 C) (h23 : h2.Grows h3 C) : h1.Grows h3 C := by
  obtain ⟨e12, l12, b12⟩ := h12
  obtain ⟨e23, l23, b23⟩ := h23
  refine ⟨e23.trans e12, Nat.le_trans l12 l23, ?_⟩
  intro u b3 hb3
  obtain ⟨b2, hb2, hu2⟩ := b23 u b3 hb3
  rcases hb2 with hb2 | ⟨hlen, rfl⟩
  · obtain ⟨b1, hb1, hu1⟩ := b12 u b2 hb2
    exact ⟨b1, hb1, hu2.trans hu1⟩
  · exact ⟨_, Or.inr ⟨Nat.le_trans l12 hlen, rfl⟩, hu2⟩

/-- A write to the chain links of a block keeps the slot bookkeeping. -/
theorem Grows_modifyBlock {T : Type} {h h2 : Heap T} {p : Option Nat} (C : Nat)
    {f : BucketStorage.Block T → BucketStorage.Block T}
    (hf : ∀ b, (f b).unlinked = b.unlinked)
    (hok : h.modifyBlock p f = .ok h2) : h.Grows h2 C := by
  obtain ⟨a, b, rfl, hb, rfl⟩ := Heap.modifyBlock_ok hok
  refine ⟨rfl, by simp, ?_⟩
  intro u b2 hb2
  simp only [getElem?_set_alive _ hb] at hb2
  by_cases hua : u = a
  · subst hua
    simp only [if_true] at hb2
    cases hb2
    exact ⟨b, Or.inl hb, hf b⟩
  · simp only [hua, if_false] at hb2
    exact ⟨b2, Or.inl hb2, rfl⟩

theorem Grows_deleteBlock {T : Type} {h h2 : Heap T} {p : Option Nat} (C : Nat)
    (hok : h.deleteBlock p = .ok h2) : h.Grows h2 C := by
  rcases Heap.deleteBlock_ok hok with ⟨-, rfl⟩ | ⟨a, b, rfl, hb, rfl⟩
  · exact Grows_refl _ C
  · refine ⟨rfl, by simp, ?_⟩
    intro u b2 hb2
    simp only [getElem?_set_alive _ hb] at hb2
    by_cases hua : u = a
    · subst hua
      simp at hb2
    · simp only [hua, if_false] at hb2
      exact ⟨b2, Or.inl hb2, rfl⟩

theorem Grows_newBlock {T : Type} (h : Heap T) (C : Nat) :
    h.Grows (h.newBlock (BucketStorage.Block.new C)).1 C := by
  refine ⟨rfl, by simp [Heap.newBlock], ?_⟩
  intro u b2 hb2
  simp only [Heap.newBlock] at hb2
  by_cases hu : u = h.blocks.length
  · subst hu
    rw [getElem?_append_single_eq] at hb2
    cases hb2
    exact ⟨_, Or.inr ⟨Nat.le_refl _, rfl⟩, rfl⟩
  · rw [getElem?_append_single_ne _ _ hu] at hb2
    exact ⟨b2, Or.inl hb2, rfl⟩

theorem Grows_length_eq {T : Type} {h h2 : Heap T} {C : Nat} (hg : h.Grows h2 C)
    (hlen : h2.blocks.length = h.blocks.length) {u : Nat} {b2 : BucketStorage.Block T}
    (hb2 : h2.blocks[u]? = some (some b2)) :
    ∃ b0, h.blocks[u]? = some (some b0) ∧ b2.unlinked = b0.unlinked := by
  obtain ⟨b0, hb0, hu⟩ := hg.2.2 u b2 hb2
  rcases hb0 with hb0 | ⟨hle, -⟩
  · exact ⟨b0, hb0, hu⟩
  · have := lt_length_of_getElem? hb2
    omega

/-! ## What `ensure_capacity` does to the blocks -/

theorem unlinked_set_next {T : Type} (b : BucketStorage.Block T) (x : Option Nat) :
    ({ b with m_next := x } : BucketStorage.Block T).unlinked = b.unlinked := rfl

theorem unlinked_set_prev {T : Type} (b : BucketStorage.Block T) (x : Option Nat) :
    ({ b with m_prev := x } : BucketStorage.Block T).unlinked = b.unlinked := rfl

theorem peek_eq_some {s : details.Stack (Option Nat)} {a : Nat} (hp : s.peek = some a) :
    ∃ rest, s.nodes = some a :: rest := by
  unfold details.Stack.peek at hp
  split at hp
  · cases hp
  · next x rest hn =>
    subst hp
    exact ⟨rest, hn⟩

theorem pop_ok {α : Type} {s s2 : details.Stack α} {x : α} (hp : s.pop = .ok (x, s2)) :
    s.nodes = x :: s2.nodes := by
  unfold details.Stack.pop at hp
  split at hp
  · cases hp
  · next y rest hn =>
    cases hp
    exact hn

theorem modifyBlock_lookup {T : Type} {h h2 : Heap T} {p : Option Nat}
    {f : BucketStorage.Block T → BucketStorage.Block T}
    (hok : h.modifyBlock p f = .ok h2) :
    ∃ a b, p = some a ∧ h.blocks[a]? = some (some b) ∧ h2.elements = h.elements ∧
      h2.blocks.length = h.blocks.length ∧
      ∀ u, h2.blocks[u]? = if u = a then some (some (f b)) else h.blocks[u]? := by
  obtain ⟨a, b, rfl, hb, rfl⟩ := Heap.modifyBlock_ok hok
  exact ⟨a, b, rfl, hb, rfl, by simp, fun u => getElem?_set_alive _ hb u⟩

theorem newBlock_lookup {T : Type} (h : Heap T) (b : BucketStorage.Block T) :
    (h.newBlock b).2 = h.blocks.length ∧
    (h.newBlock b).1.elements = h.elements ∧
    (h.newBlock b).1.blocks.length = h.blocks.length + 1 ∧
    ∀ u, (h.newBlock b).1.blocks[u]? =
      if u = h.blocks.length then some (some b) else h.blocks[u]? := by
  refine ⟨rfl, rfl, by simp [Heap.newBlock], ?_⟩
  intro u
  simp only [Heap.newBlock]
  by_cases hu : u = h.blocks.length
  · subst hu
    simp
  · simp only [hu, if_false]
    exact getElem?_append_single_ne _ _ hu

/-- Effect of `ensure_capacity` on the blocks and on the free-block stack: the
slot bookkeeping of the old blocks stays, new blocks are empty, the block on
top of the stack afterwards is allocated and is new or not full, and an entry
leaves the stack only if its block is full. -/
theorem ensure_capacity_effect {T : Type} {pm pm2 : BucketStorage.PhysicalMemory}
    {h h2 : Heap T} (hok : pm.ensure_capacity h = .ok (pm2, h2)) :
    pm2.m_bucket_capacity = pm.m_bucket_capacity ∧
    h.Grows h2 pm.m_bucket_capacity ∧
    (∃ t b, pm2.m_free_blocks.peek = some t ∧ h2.blocks[t]? = some (some b) ∧
      (b.m_size ≠ pm.m_bucket_capacity ∨
        b.unlinked = (BucketStorage.Block.new pm.m_bucket_capacity : BucketStorage.Block T).unlinked)) ∧
    (∀ x, x ∈ pm.m_free_blocks.nodes → x ∈ pm2.m_free_blocks.nodes ∨
      ∃ u bu, x = some u ∧ h2.blocks[u]? = some (some bu) ∧
        bu.m_size = pm.m_bucket_capacity) ∧
    (∀ u, h.blocks.length ≤ u → u < h2.blocks.length →
      some u ∈ pm2.m_free_blocks.nodes ∨
      ∃ bu, h2.blocks[u]? = some (some bu) ∧ bu.m_size = pm.m_bucket_capacity) := by
  simp only [BucketStorage.PhysicalMemory.ensure_capacity, bind_ok_iff] at hok
  obtain ⟨⟨pm1, h1, act⟩, h1eq, b, hb, hrest⟩ := hok
  -- the first `if`
  have s1 : pm1.m_bucket_capacity = pm.m_bucket_capacity ∧ h.Grows h1 pm.m_bucket_capacity ∧
      pm1.m_free_blocks.peek = act ∧
      (∀ x, x ∈ pm.m_free_blocks.nodes → x ∈ pm1.m_free_blocks.nodes) ∧
      (∀ u, h.blocks.length ≤ u → u < h1.blocks.length →
        some u ∈ pm1.m_free_blocks.nodes) := by
    split at h1eq
    · -- no block on the stack
      have hg0 := Grows_newBlock h pm.m_bucket_capacity
      split at h1eq
      · next last hlast =>
        simp only [bind_ok_iff, pure_ok_iff] at h1eq
        obtain ⟨h3, h3eq, h4, h4eq, hfin⟩ := h1eq
        cases hfin
        have hg1 := Grows_modifyBlock pm.m_bucket_capacity
          (fun b => unlinked_set_next b _) h3eq
        have hg2 := Grows_modifyBlock pm.m_bucket_capacity
          (fun b => unlinked_set_prev b _) h4eq
        have hlen : h1.blocks.length = h.blocks.length + 1 := by
          obtain ⟨_, _, _, _, rfl⟩ := Heap.modifyBlock_ok h4eq
          obtain ⟨_, _, _, _, rfl⟩ := Heap.modifyBlock_ok h3eq
          simp [Heap.newBlock]
        refine ⟨rfl, Grows_trans (Grows_trans hg0 hg1) hg2, rfl, ?_, ?_⟩
        · intro x hx
          exact List.mem_cons_of_mem _ hx
        · intro u hu1 hu2
          have : u = h.blocks.length := by omega
          subst this
          exact List.mem_cons_self _ _
      · simp only [pure_ok_iff] at h1eq
        cases h1eq
        refine ⟨rfl, hg0, rfl, ?_, ?_⟩
        · intro x hx
          exact List.mem_cons_of_mem _ hx
        · intro u hu1 hu2
          have : u = h.blocks.length := by
            simp only [Heap.newBlock, List.length_append, List.length_singleton] at hu2
            omega
          subst this
          exact List.mem_cons_self _ _
    · next a ha =>
      simp only [pure_ok_iff] at h1eq
      cases h1eq
      refine ⟨rfl, Grows_refl _ _, ha, fun x hx => hx, ?_⟩
      intro u hu1 hu2
      omega
  obtain ⟨hcap1, hg1, hpeek1, hmem1, hnew1⟩ := s1
  obtain ⟨t0, rfl, hbt0⟩ := Heap.block_ok hb
  obtain ⟨rest0, hnodes1⟩ := peek_eq_some hpeek1
  rw [hcap1] at hrest
  split at hrest
  · -- the block on top is full
    next hfull =>
    simp only [bind_ok_iff, pure_ok_iff] at hrest
    obtain ⟨⟨x, stack⟩, hpop, h3, h3eq, h4, h4eq, hfin⟩ := hrest
    cases hfin
    have hpop2 := pop_ok hpop
    simp only at hpop2
    rw [hnodes1] at hpop2
    have hstack : stack.nodes = rest0 := (List.cons.inj hpop2).2.symm
    have hg2 := Grows_newBlock h1 pm.m_bucket_capacity
    have hg3 := Grows_modifyBlock pm.m_bucket_capacity
      (fun b => unlinked_set_prev b (some t0)) h3eq
    have hg4 := Grows_modifyBlock pm.m_bucket_capacity
      (fun b => unlinked_set_next b (some h1.blocks.length)) h4eq
    obtain ⟨hn2, -, hnlen, hnget⟩ :=
      newBlock_lookup h1 (BucketStorage.Block.new pm.m_bucket_capacity)
    obtain ⟨a3, b3, ha3, hb3, -, hlen3, hget3⟩ := modifyBlock_lookup h3eq
    rw [hn2] at ha3
    cases ha3
    rw [hnget] at hb3
    simp only [if_true] at hb3
    cases hb3
    obtain ⟨a4, b4, ha4, hb4, -, hlen4, hget4⟩ := modifyBlock_lookup h4eq
    cases ha4
    have ht0lt : t0 < h1.blocks.length := lt_length_of_getElem? hbt0
    have hne : t0 ≠ h1.blocks.length := by omega
    have hne2 : ¬ h1.blocks.length = t0 := fun hh => hne hh.symm
    rw [hget3, hnget] at hb4
    simp only [hne, if_false] at hb4
    rw [hbt0] at hb4
    cases hb4
    have htop : h2.blocks[h1.blocks.length]? = some (some
        { (BucketStorage.Block.new pm.m_bucket_capacity : BucketStorage.Block T) with
          m_prev := some t0 }) := by
      rw [hget4, hget3]
      simp [hne2]
    have hold : h2.blocks[t0]? = some (some { b with m_next := some h1.blocks.length }) := by
      rw [hget4]
      simp [hn2]
    refine ⟨rfl, Grows_trans hg1 (Grows_trans (Grows_trans hg2 hg3) hg4), ?_, ?_, ?_⟩
    · exact ⟨h1.blocks.length, _, rfl, htop, Or.inr rfl⟩
    · intro x hx
      have hx1 := hmem1 x hx
      rw [hnodes1] at hx1
      rcases List.mem_cons.mp hx1 with hx2 | hx2
      · right
        exact ⟨t0, _, hx2, hold, hfull⟩
      · left
        simp only [details.Stack.push, hstack]
        exact List.mem_cons_of_mem _ hx2
    · intro u hu1 hu2
      rw [hlen4, hlen3, hnlen] at hu2
      by_cases hu3 : u < h1.blocks.length
      · have hx1 := hnew1 u hu1 hu3
        rw [hnodes1] at hx1
        rcases List.mem_cons.mp hx1 with hx2 | hx2
        · right
          cases hx2
          exact ⟨_, hold, hfull⟩
        · left
          simp only [details.Stack.push, hstack]
          exact List.mem_cons_of_mem _ hx2
      · left
        have : u = h1.blocks.length := by omega
        subst this
        simp only [details.Stack.push]
        exact List.mem_cons_self _ _
  · next hnotfull =>
    simp only [pure_ok_iff] at hrest
    cases hrest
    refine ⟨hcap1, hg1, ⟨t0, b, hpeek1, hbt0, Or.inl hnotfull⟩, ?_, ?_⟩
    · intro x hx
      exact Or.inl (hmem1 x hx)
    · intro u hu1 hu2
      exact Or.inl (hnew1 u hu1 hu2)

/-! ## What `PhysicalMemory::push` does to the blocks -/

theorem construct_lookup {T : Type} {h h2 : Heap T} {p : Option Nat} {pos : Nat} {x : T}
    (hok : h.construct p pos x = .ok h2) :
    ∃ a b, p = some a ∧ h.blocks[a]? = some (some b) ∧ pos < b.m_arr.length ∧
      h2.elements = h.elements ∧ h2.blocks.length = h.blocks.length ∧
      ∀ u, h2.blocks[u]? =
        if u = a then some (some { b with m_arr := b.m_arr.set pos (some x) })
        else h.blocks[u]? := by
  simp only [Heap.construct, bind_ok_iff] at hok
  obtain ⟨b, hb, hrest⟩ := hok
  obtain ⟨a, rfl, hba⟩ := Heap.block_ok hb
  split at hrest
  · next hlt =>
    obtain ⟨a2, b2, ha2, hb2, hel, hlen, hget⟩ := modifyBlock_lookup hrest
    cases ha2
    rw [hba] at hb2
    cases hb2
    exact ⟨a, b, rfl, hba, hlt, hel, hlen, hget⟩
  · cases hrest

theorem modifyElement_blocks {T : Type} {h h2 : Heap T} {p : Option Nat}
    {f : BucketStorage.Element → BucketStorage.Element}
    (hok : h.modifyElement p f = .ok h2) : h2.blocks = h.blocks := by
  cases p with
  | none => cases hok
  | some a =>
    obtain ⟨e, -, rfl⟩ := Heap.modifyElement_ok_iff.mp hok
    rfl

/-- Effect of `PhysicalMemory::push`: after `ensure_capacity` the value goes
into the block `t` on top of the free-block stack, at the position `p` that is
the top of its free positions or, when there is none, its `m_head`. -/
theorem push_effect {T : Type} {pm pm2 : BucketStorage.PhysicalMemory} {h h2 : Heap T}
    {x : T} {n : Nat} {c : BucketStorage.Element}
    (hc : h.elements[n]? = some (some c))
    (hok : pm.push h x (some n) = .ok (pm2, h2)) :
    ∃ (h1 : Heap T) (t p : Nat) (b b2 : BucketStorage.Block T),
      pm.ensure_capacity h = .ok (pm2, h1) ∧
      pm2.m_free_blocks.peek = some t ∧ h1.blocks[t]? = some (some b) ∧
      p < b.m_arr.length ∧
      h2.blocks.length = h1.blocks.length ∧
      (∀ u, h2.blocks[u]? = if u = t then some (some b2) else h1.blocks[u]?) ∧
      b2.m_capacity = b.m_capacity ∧ b2.m_arr.length = b.m_arr.length ∧
      b2.m_size = b.m_size + 1 ∧
      ((b.m_free_pos.nodes = p :: b2.m_free_pos.nodes ∧ b2.m_head = b.m_head) ∨
        (b.m_free_pos.nodes = [] ∧ b2.m_free_pos.nodes = [] ∧ p = b.m_head ∧
          b2.m_head = b.m_head + 1)) ∧
      h2.elements = h.elements.set n (some { c with m_block_link := some t, m_pos := p }) := by
  simp only [BucketStorage.PhysicalMemory.push, bind_ok_iff, pure_ok_iff] at hok
  obtain ⟨⟨pm1, h1⟩, h1eq, blk, hblk, h3, h3eq, h4, h4eq, h5, h5eq, hfin⟩ := hok
  cases hfin
  have e1 : h1.elements = h.elements := ensure_capacity_elements h1eq
  have hc1 : h1.elements[n]? = some (some c) := by rw [e1]; exact hc
  obtain ⟨t, htop, hbt⟩ := Heap.block_ok hblk
  simp only at htop
  rw [htop] at h3eq h4eq h5eq
  obtain ⟨c4, hc4, rfl⟩ := Heap.modifyElement_ok_iff.mp h4eq
  obtain ⟨a5, b5, ha5, hb5, hel5, hlen5, hget5⟩ := modifyBlock_lookup h5eq
  cases ha5
  simp only at hb5 hel5 hlen5 hget5
  split at h3eq
  · -- a free position is reused
    simp only [bind_ok_iff, Heap.element_ok_iff] at h3eq
    obtain ⟨⟨p, rest⟩, hpop, h6, h6eq, h7, h7eq, e8, he8, h9eq⟩ := h3eq
    have hnodes := pop_ok hpop
    simp only at hnodes
    obtain ⟨a6, b6, ha6, hb6, hel6, hlen6, hget6⟩ := modifyBlock_lookup h6eq
    cases ha6
    rw [hbt] at hb6
    cases hb6
    obtain ⟨c7, hc7, rfl⟩ := Heap.modifyElement_ok_iff.mp h7eq
    rw [hel6, hc1] at hc7
    cases hc7
    simp only at he8
    rw [hel6, getElem?_set_alive _ hc1] at he8
    simp only [if_true] at he8
    cases he8
    obtain ⟨a9, b9, ha9, hb9, hlt9, hel9, hlen9, hget9⟩ := construct_lookup h9eq
    cases ha9
    simp only at hb9 hel9 hlen9 hget9
    rw [hget6] at hb9
    simp only [if_true] at hb9
    cases hb9
    rw [hel9, hel6, getElem?_set_alive _ hc1] at hc4
    simp only [if_true] at hc4
    cases hc4
    rw [hget9] at hb5
    simp only [if_true] at hb5
    cases hb5
    refine ⟨h1, t, p, blk,
      { blk with m_free_pos := rest, m_arr := blk.m_arr.set p (some x),
                 m_size := blk.m_size + 1 },
      h1eq, htop, hbt, hlt9, ?_, ?_, rfl, ?_, rfl, Or.inl ⟨hnodes, rfl⟩, ?_⟩
    · rw [hlen5]
      show h3.blocks.length = h1.blocks.length
      rw [hlen9]
      show h6.blocks.length = h1.blocks.length
      exact hlen6
    · intro u
      rw [hget5]
      by_cases hu : u = t
      · simp [hu]
      · simp only [hu, if_false]
        show h3.blocks[u]? = h1.blocks[u]?
        rw [hget9]
        simp only [hu, if_false]
        show h6.blocks[u]? = h1.blocks[u]?
        rw [hget6]
        simp only [hu, if_false]
    · simp
    · rw [hel5]
      show (h3.elements.set n _) = _
      rw [hel9]
      show ((h6.elements.set n _).set n _) = _
      rw [hel6, e1, List.set_set]
  · -- the next never-used position
    simp only [bind_ok_iff] at h3eq
    obtain ⟨h6, h6eq, h7, h7eq, h8eq⟩ := h3eq
    obtain ⟨a6, b6, ha6, hb6, hlt6, hel6, hlen6, hget6⟩ := construct_lookup h6eq
    cases ha6
    rw [hbt] at hb6
    cases hb6
    obtain ⟨c7, hc7, rfl⟩ := Heap.modifyElement_ok_iff.mp h7eq
    rw [hel6, hc1] at hc7
    cases hc7
    obtain ⟨a8, b8, ha8, hb8, hel8, hlen8, hget8⟩ := modifyBlock_lookup h8eq
    cases ha8
    simp only at hb8 hel8 hlen8 hget8
    rw [hget6] at hb8
    simp only [if_true] at hb8
    cases hb8
    rw [hel8, hel6, getElem?_set_alive _ hc1] at hc4
    simp only [if_true] at hc4
    cases hc4
    rw [hget8] at hb5
    simp only [if_true] at hb5
    cases hb5
    have hempty : blk.m_free_pos.nodes = [] := by
      next hne =>
      simp only [details.Stack.empty, Bool.not_eq_true', Bool.not_eq_false,
        List.isEmpty_iff] at hne
      exact hne
    refine ⟨h1, t, blk.m_head, blk,
      { blk with m_arr := blk.m_arr.set blk.m_head (some x), m_head := blk.m_head + 1,
                 m_size := blk.m_size + 1 },
      h1eq, htop, hbt, hlt6, ?_, ?_, rfl, ?_, rfl, Or.inr ⟨hempty, hempty, rfl, rfl⟩, ?_⟩
    · rw [hlen5]
      show h3.blocks.length = h1.blocks.length
      rw [hlen8]
      show h6.blocks.length = h1.blocks.length
      exact hlen6
    · intro u
      rw [hget5]
      by_cases hu : u = t
      · simp [hu]
      · simp only [hu, if_false]
        show h3.blocks[u]? = h1.blocks[u]?
        rw [hget8]
        simp only [hu, if_false]
        show h6.blocks[u]? = h1.blocks[u]?
        rw [hget6]
        simp only [hu, if_false]
    · simp
    · rw [hel5]
      show (h3.elements.set n _) = _
      rw [hel8]
      show ((h6.elements.set n _).set n _) = _
      rw [hel6, e1, List.set_set]

/-! ## What `PhysicalMemory::empty` and `insert` do to the blocks -/

/-- Effect of `PhysicalMemory::empty` on the blocks: blocks are deallocated and
chain links are written, nothing else. -/
theorem empty_effect {T : Type} {pm pm2 : BucketStorage.PhysicalMemory} {h h2 : Heap T}
    {p : Option Nat} (C : Nat) (hok : pm.empty h p = .ok (pm2, h2)) :
    pm2.m_free_blocks = pm.m_free_blocks ∧ pm2.m_bucket_capacity = pm.m_bucket_capacity ∧
    h.Grows h2 C ∧ h2.blocks.length = h.blocks.length := by
  simp only [BucketStorage.PhysicalMemory.empty, bind_ok_iff] at hok
  obtain ⟨b, _, hb⟩ := hok
  split at hb
  · split at hb
    · simp only [bind_ok_iff, pure_ok_iff] at hb
      obtain ⟨h3, h3eq, h4, h4eq, hfin⟩ := hb
      cases hfin
      have hg3 : h.Grows h3 C ∧ h3.blocks.length = h.blocks.length := by
        split at h3eq
        · obtain ⟨_, _, _, _, _, hlen, _⟩ := modifyBlock_lookup h3eq
          exact ⟨Grows_modifyBlock C (fun b => unlinked_set_prev b _) h3eq, hlen⟩
        · cases h3eq
          exact ⟨Grows_refl _ _, rfl⟩
      have hlen4 : h2.blocks.length = h3.blocks.length := by
        rcases Heap.deleteBlock_ok h4eq with ⟨-, rfl⟩ | ⟨a, b, -, -, rfl⟩
        · rfl
        · simp
      exact ⟨rfl, rfl, Grows_trans hg3.1 (Grows_deleteBlock C h4eq), hlen4.trans hg3.2⟩
    · simp only [bind_ok_iff, pure_ok_iff] at hb
      obtain ⟨pb, _, h3, h3eq, h4, h4eq, hfin⟩ := hb
      cases hfin
      have hlen3 : h3.blocks.length = h.blocks.length := by
        rcases Heap.deleteBlock_ok h3eq with ⟨-, rfl⟩ | ⟨a, b, -, -, rfl⟩
        · rfl
        · simp
      obtain ⟨_, _, _, _, _, hlen4, _⟩ := modifyBlock_lookup h4eq
      exact ⟨rfl, rfl,
        Grows_trans (Grows_deleteBlock C h3eq)
          (Grows_modifyBlock C (fun b => unlinked_set_next b _) h4eq),
        hlen4.trans hlen3⟩
  · cases hb
    exact ⟨rfl, rfl, Grows_refl _ _, rfl⟩

theorem destruct_lookup {T : Type} {h h2 : Heap T} {p : Option Nat} {pos : Nat}
    (hok : h.destruct p pos = .ok h2) :
    ∃ a b, p = some a ∧ h.blocks[a]? = some (some b) ∧
      h2.elements = h.elements ∧ h2.blocks.length = h.blocks.length ∧
      ∀ u, h2.blocks[u]? =
        if u = a then some (some { b with m_arr := b.m_arr.set pos none })
        else h.blocks[u]? := by
  simp only [Heap.destruct, bind_ok_iff] at hok
  obtain ⟨b, hb, hrest⟩ := hok
  obtain ⟨a, rfl, hba⟩ := Heap.block_ok hb
  split at hrest
  · cases hrest
  · cases hrest
  · obtain ⟨a2, b2, ha2, hb2, hel, hlen, hget⟩ := modifyBlock_lookup hrest
    cases ha2
    rw [hba] at hb2
    cases hb2
    exact ⟨a, b, rfl, hba, hel, hlen, hget⟩

/-- A write to the links or the timestamp of a node keeps all nodes alive and
keeps their block and position. -/
theorem modifyElement_slots {T : Type} {h h2 : Heap T} {p : Option Nat}
    {f : BucketStorage.Element → BucketStorage.Element}
    (hok : h.modifyElement p f = .ok h2)
    (hf : ∀ e, (f e).m_block_link = e.m_block_link ∧ (f e).m_pos = e.m_pos) :
    h2.blocks = h.blocks ∧
    (∀ (a : Nat) (e2 : BucketStorage.Element), h2.elements[a]? = some (some e2) →
      ∃ e, h.elements[a]? = some (some e) ∧ e2.m_block_link = e.m_block_link ∧
        e2.m_pos = e.m_pos) ∧
    (∀ (a : Nat) (e : BucketStorage.Element), h.elements[a]? = some (some e) →
      ∃ e2, h2.elements[a]? = some (some e2) ∧ e2.m_block_link = e.m_block_link ∧
        e2.m_pos = e.m_pos) := by
  cases p with
  | none => cases hok
  | some q =>
    obtain ⟨c, hc, rfl⟩ := Heap.modifyElement_ok_iff.mp hok
    refine ⟨rfl, ?_, ?_⟩
    · intro a e2 he2
      simp only [getElem?_set_alive _ hc] at he2
      by_cases ha : a = q
      · subst ha
        simp only [if_true] at he2
        cases he2
        exact ⟨c, hc, (hf c).1, (hf c).2⟩
      · simp only [ha, if_false] at he2
        exact ⟨e2, he2, rfl, rfl⟩
    · intro a e he
      simp only [getElem?_set_alive _ hc]
      by_cases ha : a = q
      · subst ha
        rw [hc] at he
        cases he
        exact ⟨f c, by simp, (hf c).1, (hf c).2⟩
      · simp only [ha, if_false]
        exact ⟨e, he, rfl, rfl⟩

theorem slots_trans {T : Type} {h1 h2 h3 : Heap T}
    (h12 : (∀ (a : Nat) (e2 : BucketStorage.Element), h2.elements[a]? = some (some e2) →
      ∃ e, h1.elements[a]? = some (some e) ∧ e2.m_block_link = e.m_block_link ∧
        e2.m_pos = e.m_pos) ∧
    (∀ (a : Nat) (e : BucketStorage.Element), h1.elements[a]? = some (some e) →
      ∃ e2, h2.elements[a]? = some (some e2) ∧ e2.m_block_link = e.m_block_link ∧
        e2.m_pos = e.m_pos))
    (h23 : (∀ (a : Nat) (e2 : BucketStorage.Element), h3.elements[a]? = some (some e2) →
      ∃ e, h2.elements[a]? = some (some e) ∧ e2.m_block_link = e.m_block_link ∧
        e2.m_pos = e.m_pos) ∧
    (∀ (a : Nat) (e : BucketStorage.Element), h2.elements[a]? = some (some e) →
      ∃ e2, h3.elements[a]? = some (some e2) ∧ e2.m_block_link = e.m_block_link ∧
        e2.m_pos = e.m_pos)) :
    (∀ (a : Nat) (e2 : BucketStorage.Element), h3.elements[a]? = some (some e2) →
      ∃ e, h1.elements[a]? = some (some e) ∧ e2.m_block_link = e.m_block_link ∧
        e2.m_pos = e.m_pos) ∧
    (∀ (a : Nat) (e : BucketStorage.Element), h1.elements[a]? = some (some e) →
      ∃ e2, h3.elements[a]? = some (some e2) ∧ e2.m_block_link = e.m_block_link ∧
        e2.m_pos = e.m_pos) := by
  constructor
  · intro a e3 he3
    obtain ⟨e2, he2, hl2, hp2⟩ := h23.1 a e3 he3
    obtain ⟨e1, he1, hl1, hp1⟩ := h12.1 a e2 he2
    exact ⟨e1, he1, hl2.trans hl1, hp2.trans hp1⟩
  · intro a e1 he1
    obtain ⟨e2, he2, hl2, hp2⟩ := h12.2 a e1 he1
    obtain ⟨e3, he3, hl3, hp3⟩ := h23.2 a e2 he2
    exact ⟨e3, he3, hl3.trans hl2, hp3.trans hp2⟩

/-- Code of `VirtualMemory::push` touches no block and no position or block
link of a node. -/
theorem vpush_slots {T : Type} {vm vm2 : BucketStorage.VirtualMemory} {h h2 : Heap T}
    {el : Option Nat} (hok : vm.push h el = .ok (vm2, h2)) :
    h2.blocks = h.blocks ∧
    (∀ (a : Nat) (e2 : BucketStorage.Element), h2.elements[a]? = some (some e2) →
      ∃ e, h.elements[a]? = some (some e) ∧ e2.m_block_link = e.m_block_link ∧
        e2.m_pos = e.m_pos) ∧
    (∀ (a : Nat) (e : BucketStorage.Element), h.elements[a]? = some (some e) →
      ∃ e2, h2.elements[a]? = some (some e2) ∧ e2.m_block_link = e.m_block_link ∧
        e2.m_pos = e.m_pos) := by
  simp only [BucketStorage.VirtualMemory.push, bind_ok_iff, pure_ok_iff] at hok
  obtain ⟨⟨vm1, h1⟩, h1eq, h3, h3eq, h4, h4eq, last, -, h5, h5eq, hfin⟩ := hok
  cases hfin
  have s1 : h1.blocks = h.blocks ∧
      (∀ (a : Nat) (e2 : BucketStorage.Element), h1.elements[a]? = some (some e2) →
        ∃ e, h.elements[a]? = some (some e) ∧ e2.m_block_link = e.m_block_link ∧
          e2.m_pos = e.m_pos) ∧
      (∀ (a : Nat) (e : BucketStorage.Element), h.elements[a]? = some (some e) →
        ∃ e2, h1.elements[a]? = some (some e2) ∧ e2.m_block_link = e.m_block_link ∧
          e2.m_pos = e.m_pos) := by
    split at h1eq
    · simp only [pure_ok_iff] at h1eq
      cases h1eq
      exact ⟨rfl, fun a e2 he2 => ⟨e2, he2, rfl, rfl⟩, fun a e he => ⟨e, he, rfl, rfl⟩⟩
    · simp only [bind_ok_iff, pure_ok_iff] at h1eq
      obtain ⟨h6, h6eq, h7, h7eq, hpair⟩ := h1eq
      cases hpair
      obtain ⟨hb6, hs6⟩ := modifyElement_slots h6eq (fun e => ⟨rfl, rfl⟩)
      obtain ⟨hb7, hs7⟩ := modifyElement_slots h7eq (fun e => ⟨rfl, rfl⟩)
      exact ⟨hb7.trans hb6, slots_trans hs6 hs7⟩
  obtain ⟨hb1, hs1⟩ := s1
  obtain ⟨hb3, hs3⟩ := modifyElement_slots h3eq (fun e => ⟨rfl, rfl⟩)
  obtain ⟨hb4, hs4⟩ := modifyElement_slots h4eq (fun e => ⟨rfl, rfl⟩)
  obtain ⟨hb5, hs5⟩ := modifyElement_slots h5eq (fun e => ⟨rfl, rfl⟩)
  exact ⟨hb5.trans (hb4.trans (hb3.trans hb1)),
    slots_trans (slots_trans (slots_trans hs1 hs3) hs4) hs5⟩

/-- Effect of `insert` on the blocks: `ensure_capacity` runs on the heap with
the new node, then one slot `p` of the block `t` on top of the free-block stack
is taken, and the new node names `t` and `p`. -/
theorem insert_blocks {T : Type} {bs bs2 : BucketStorage} {h h2 : Heap T} {x : T}
    {pm : BucketStorage.PhysicalMemory} {it : BucketStorage.BaseIterator}
    (hpm : bs.m_physical_memory = some pm)
    (hok : bs.insert h x = .ok (bs2, h2, it)) :
    ∃ (e0 : BucketStorage.Element) (h1 : Heap T) (t p : Nat) (b b2 : BucketStorage.Block T)
      (pm2 : BucketStorage.PhysicalMemory) (e2 : BucketStorage.Element),
      e0.m_block_link = none ∧
      pm.ensure_capacity { h with elements := h.elements ++ [some e0] } = .ok (pm2, h1) ∧
      bs2.m_physical_memory = some pm2 ∧
      pm2.m_free_blocks.peek = some t ∧ h1.blocks[t]? = some (some b) ∧
      p < b.m_arr.length ∧
      h2.blocks.length = h1.blocks.length ∧
      (∀ u, h2.blocks[u]? = if u = t then some (some b2) else h1.blocks[u]?) ∧
      b2.m_capacity = b.m_capacity ∧ b2.m_arr.length = b.m_arr.length ∧
      b2.m_size = b.m_size + 1 ∧
      ((b.m_free_pos.nodes = p :: b2.m_free_pos.nodes ∧ b2.m_head = b.m_head) ∨
        (b.m_free_pos.nodes = [] ∧ b2.m_free_pos.nodes = [] ∧ p = b.m_head ∧
          b2.m_head = b.m_head + 1)) ∧
      h2.elements[h.elements.length]? = some (some e2) ∧
      e2.m_block_link = some t ∧ e2.m_pos = p ∧
      (∀ (a : Nat) (c2 : BucketStorage.Element), a ≠ h.elements.length →
        h2.elements[a]? = some (some c2) →
        ∃ c, h.elements[a]? = some (some c) ∧ c2.m_block_link = c.m_block_link ∧
          c2.m_pos = c.m_pos) ∧
      (∀ (a : Nat) (c : BucketStorage.Element), h.elements[a]? = some (some c) →
        ∃ c2, h2.elements[a]? = some (some c2) ∧ c2.m_block_link = c.m_block_link ∧
          c2.m_pos = c.m_pos) := by
  simp only [BucketStorage.insert, BucketStorage.insert_impl, hpm, derefPtr, bind_ok_iff,
    pure_ok_iff] at hok
  obtain ⟨vm, -, last, -, pm0, hpm0, ⟨pm1, h1⟩, h1eq, ⟨vm2, h3⟩, h3eq, hfin⟩ := hok
  cases hpm0
  cases hfin
  simp only [Heap.newElement] at h1eq h3eq
  have hc0 : (h.elements ++ [some (BucketStorage.Element.new (last.m_time + 1))])[
      h.elements.length]? = some (some (BucketStorage.Element.new (last.m_time + 1))) := by
    simp
  obtain ⟨h4, t, p, b, b2, hec, hpeek, hbt, hlt, hlen, hget, hcap, harr, hsize, hfree, hel⟩ :=
    push_effect hc0 h1eq
  obtain ⟨hb3, hs3⟩ := vpush_slots h3eq
  have hn1 : h1.elements[h.elements.length]? = some (some
      { BucketStorage.Element.new (last.m_time + 1) with
        m_block_link := some t, m_pos := p }) := by
    rw [hel, getElem?_set_alive _ hc0]; simp
  obtain ⟨e2, he2, hl2, hp2⟩ := hs3.2 _ _ hn1
  refine ⟨BucketStorage.Element.new (last.m_time + 1), h4, t, p, b, b2, pm1, e2, rfl, hec, rfl,
    hpeek, hbt, hlt, ?_, ?_, hcap, harr, hsize, hfree, he2, hl2, hp2, ?_, ?_⟩
  · show h3.blocks.length = h4.blocks.length
    rw [hb3]; exact hlen
  · intro u
    show h3.blocks[u]? = _
    rw [hb3]; exact hget u
  · intro a c2 han hc2
    obtain ⟨c, hc, hl, hp⟩ := hs3.1 a c2 hc2
    rw [hel, getElem?_set_alive _ hc0] at hc
    simp only [han, if_false] at hc
    rw [getElem?_append_single_ne _ _ han] at hc
    exact ⟨c, hc, hl, hp⟩
  · intro a c hc
    have han : a ≠ h.elements.length := Nat.ne_of_lt (lt_length_of_getElem? hc)
    have hc1 : h1.elements[a]? = some (some c) := by
      rw [hel, getElem?_set_alive _ hc0]
      simp only [han, if_false]
      rw [getElem?_append_single_ne _ _ han]
      exact hc
    exact hs3.2 a c hc1

/-! ## What `erase` does to the blocks -/

theorem unlinked_fields {T : Type} {b b2 : BucketStorage.Block T}
    (hu : b2.unlinked = b.unlinked) :
    b2.m_capacity = b.m_capacity ∧ b2.m_arr = b.m_arr ∧ b2.m_head = b.m_head ∧
    b2.m_free_pos = b.m_free_pos ∧ b2.m_size = b.m_size :=
  ⟨congrArg (fun x => x.m_capacity) hu, congrArg (fun x => x.m_arr) hu,
    congrArg (fun x => x.m_head) hu, congrArg (fun x => x.m_free_pos) hu,
    congrArg (fun x => x.m_size) hu⟩

/-- Effect of `erase` on the blocks and on the free-block stack: the position
of the node goes onto the free positions of its block `t` and the size of `t`
goes down by one; `t` is pushed onto the free-block stack if it was full; the
other blocks keep their slot bookkeeping; blocks may be deallocated. -/
theorem erase_blocks {T : Type} {bs bs2 : BucketStorage} {h h2 : Heap T} {a : Nat}
    {e : BucketStorage.Element} {pm : BucketStorage.PhysicalMemory}
    {it : BucketStorage.BaseIterator}
    (hpm : bs.m_physical_memory = some pm)
    (hcell : h.elements[a]? = some (some e))
    (hprev : ∀ q, e.m_prev = some q → q ≠ a)
    (hnext : ∀ q, e.m_next = some q → q ≠ a ∧ e.m_prev ≠ some q)
    (hok : bs.erase h ⟨some a⟩ = .ok (bs2, h2, it)) :
    ∃ (t : Nat) (b : BucketStorage.Block T) (pm2 : BucketStorage.PhysicalMemory),
      e.m_block_link = some t ∧ h.blocks[t]? = some (some b) ∧
      bs2.m_physical_memory = some pm2 ∧
      pm2.m_bucket_capacity = pm.m_bucket_capacity ∧
      pm2.m_free_blocks.nodes =
        (if b.m_size = b.m_capacity then some t :: pm.m_free_blocks.nodes
         else pm.m_free_blocks.nodes) ∧
      h2.blocks.length = h.blocks.length ∧
      ∀ (u : Nat) (b2 : BucketStorage.Block T), h2.blocks[u]? = some (some b2) →
        ∃ b0, h.blocks[u]? = some (some b0) ∧ b2.m_capacity = b0.m_capacity ∧
          b2.m_arr.length = b0.m_arr.length ∧ b2.m_head = b0.m_head ∧
          (if u = t then b2.m_free_pos.nodes = e.m_pos :: b0.m_free_pos.nodes ∧
              b2.m_size = decr64 b0.m_size
           else b2.m_free_pos = b0.m_free_pos ∧ b2.m_size = b0.m_size) := by
  simp only [BucketStorage.erase, bind_ok_iff, pure_ok_iff, Heap.element_ok_iff] at hok
  obtain ⟨e1, he1, blk, hblk, pmo, hpmo, h4, h4eq, h5, h5eq, e6, he6, ⟨vmo7, h7⟩, h7eq, e8, he8,
    ⟨vmo9, h9⟩, h9eq, e10, he10, h11, h11eq, pm12, hpm12, ⟨pm13, h13⟩, h13eq, h14, h14eq,
    hfin⟩ := hok
  rw [hcell] at he1
  cases he1
  obtain ⟨t, hlink, hbt⟩ := Heap.block_ok hblk
  have el5 : h5.elements = h.elements := by
    rw [Heap.modifyBlock_elements h5eq, Heap.modifyBlock_elements h4eq]
  rw [el5, hcell] at he6
  cases he6
  have h7eq2 : (match e.m_prev with
      | none => pure h5
      | some q => h5.modifyElement (some q) (fun x => { x with m_next := e.m_next })) =
        .ok h7 := by
    cases hp : e.m_prev with
    | none =>
      rw [hp] at h7eq
      simp only [bind_ok_iff, pure_ok_iff] at h7eq
      obtain ⟨vm2, -, hh⟩ := h7eq
      cases hh
      rfl
    | some q =>
      rw [hp] at h7eq
      simp only [bind_ok_iff, pure_ok_iff] at h7eq
      obtain ⟨h7b, hh, hpair⟩ := h7eq
      cases hpair
      exact hh
  have hcell5 : h5.elements[a]? = some (some e) := by rw [el5]; exact hcell
  have he8e : e = e8 := by
    cases hp : e.m_prev with
    | none =>
      rw [hp] at h7eq2
      cases h7eq2
      rw [hcell5] at he8
      cases he8; rfl
    | some q =>
      rw [hp] at h7eq2
      obtain ⟨c, hc, rfl⟩ := Heap.modifyElement_ok_iff.mp h7eq2
      have hqa : ¬ a = q := fun hh => hprev q hp hh.symm
      simp only [getElem?_set_alive _ hc, hqa, if_false] at he8
      rw [hcell5] at he8
      cases he8; rfl
  subst he8e
  have h9eq2 : (match e.m_next with
      | none => pure h7
      | some q => h7.modifyElement (some q) (fun x => { x with m_prev := e.m_prev })) =
        .ok h9 := by
    cases hn : e.m_next with
    | none =>
      rw [hn] at h9eq
      simp only [bind_ok_iff, pure_ok_iff] at h9eq
      obtain ⟨vm2, -, hh⟩ := h9eq
      cases hh
      rfl
    | some q =>
      rw [hn] at h9eq
      simp only [bind_ok_iff, pure_ok_iff] at h9eq
      obtain ⟨h9b, hh, hpair⟩ := h9eq
      cases hpair
      exact hh
  obtain ⟨hb9, -, hp9, -, -⟩ := unlink_effect hcell5 hprev hnext h7eq2 h9eq2
  have ha9 : h9.elements[a]? = some (some e) := by rw [hp9 a]; simp
  rw [ha9] at he10
  cases he10
  have el13 : h13.elements = h9.elements := by
    rw [empty_elements h13eq, Heap.destruct_elements h11eq]
  have ha13 : h13.elements[a]? = some (some e) := by rw [el13]; exact ha9
  obtain ⟨hb14, -, -⟩ := deleteElement_effect ha13 hprev hnext h14eq
  cases hfin
  -- the blocks
  rw [hlink] at h4eq h5eq h11eq h13eq
  obtain ⟨a4, b4, ha4, hb4, -, hlen4, hget4⟩ := modifyBlock_lookup h4eq
  cases ha4
  rw [hbt] at hb4
  cases hb4
  obtain ⟨a5, b5, ha5, hb5, -, hlen5, hget5⟩ := modifyBlock_lookup h5eq
  cases ha5
  rw [hget4] at hb5
  simp only [if_true] at hb5
  cases hb5
  obtain ⟨a11, b11, ha11, hb11, -, hlen11, hget11⟩ := destruct_lookup h11eq
  cases ha11
  simp only at hb11 hlen11 hget11
  rw [hb9, hget5] at hb11
  simp only [if_true] at hb11
  cases hb11
  obtain ⟨hstack, hcap13, hg13, hlen13⟩ := empty_effect 0 h13eq
  -- the allocator
  have hpmo2 : pmo = some (if blk.m_size = blk.m_capacity then pm.push_free_block (some t)
      else pm) := by
    split at hpmo
    · next hfull =>
      simp only [hpm, derefPtr, bind_ok_iff, pure_ok_iff] at hpmo
      obtain ⟨pm0, hpm0, hh⟩ := hpmo
      cases hpm0
      rw [← hh, hlink]
      simp [hfull]
    · next hnf =>
      simp only [pure_ok_iff] at hpmo
      rw [← hpmo, hpm]
      simp [hnf]
  rw [hpmo2] at hpm12
  simp only [derefPtr] at hpm12
  cases hpm12
  refine ⟨t, blk, pm13, hlink, hbt, rfl, ?_, ?_, ?_, ?_⟩
  · rw [hcap13]
    split <;> rfl
  · rw [hstack]
    split <;> rfl
  · rw [hb14, hlen13, hlen11, hb9, hlen5, hlen4]
  · intro u b2 hb2
    have hb2b : h13.blocks[u]? = some (some b2) := by rw [← hb14]; exact hb2
    obtain ⟨b1, hb1, hu⟩ := Grows_length_eq hg13 hlen13 hb2b
    obtain ⟨hf1, hf2, hf3, hf4, hf5⟩ := unlinked_fields hu
    rw [hget11] at hb1
    by_cases hut : u = t
    · subst hut
      simp only [if_true] at hb1
      cases hb1
      refine ⟨blk, hbt, hf1, ?_, hf3, ?_⟩
      · rw [hf2]; simp
      · simp only [if_true]
        exact ⟨by rw [hf4]; rfl, hf5⟩
    · simp only [hut, if_false] at hb1
      rw [hb9, hget5] at hb1
      simp only [hut, if_false] at hb1
      rw [hget4] at hb1
      simp only [hut, if_false] at hb1
      refine ⟨b1, hb1, hf1, by rw [hf2], hf3, ?_⟩
      simp only [hut, if_false]
      exact ⟨hf4, hf5⟩

/-! ## The slot bookkeeping under frame changes -/

theorem nodup_length_lt {l : List Nat} {n p : Nat} (hnd : l.Nodup) (hlt : ∀ x, x ∈ l → x < n)
    (hp : p < n) (hpl : p ∉ l) : l.length < n := by
  have hnd2 : (p :: l).Nodup := List.nodup_cons.mpr ⟨hpl, hnd⟩
  have hsub : (p :: l) ⊆ List.range n := by
    intro x hx
    rcases List.mem_cons.mp hx with hx | hx
    · rw [hx]; exact List.mem_range.mpr hp
    · exact List.mem_range.mpr (hlt x hx)
  have := (List.subperm_of_subset hnd2 hsub).length_le
  simp only [List.length_cons, List.length_range] at this
  omega

/-- The slot bookkeeping survives link writes, deallocations and new blocks. -/
theorem BlockInv_grows {T : Type} {h h2 : Heap T} {C : Nat} (hinv : h.BlockInv C)
    (hg : h.Grows h2 C) : h2.BlockInv C := by
  obtain ⟨hB1, hB2, hB3, hB5⟩ := hinv
  obtain ⟨hel, hlen, hbk⟩ := hg
  refine ⟨?_, ?_, ?_, ?_⟩
  · intro t b2 hb2
    obtain ⟨b0, hb0, hu⟩ := hbk t b2 hb2
    obtain ⟨hf1, hf2, hf3, hf4, hf5⟩ := unlinked_fields hu
    rcases hb0 with hb0 | ⟨hle, rfl⟩
    · obtain ⟨h1, h2a, h3, h4, h5, h6, h7⟩ := hB1 t b0 hb0
      rw [hf1, hf2, hf3, hf4, hf5, hel]
      exact ⟨h1, h2a, h3, h4, h5, h6, h7⟩
    · rw [hf1, hf2, hf3, hf4, hf5]
      refine ⟨rfl, by simp [BucketStorage.Block.new], Nat.zero_le _, rfl, List.nodup_nil, ?_, ?_⟩
      · intro p hp
        simp [BucketStorage.Block.new, details.Stack.new] at hp
      · intro p hp
        simp [BucketStorage.Block.new] at hp
  · intro a t e b2 he hl hb2
    rw [hel] at he
    obtain ⟨b0, hb0, hu⟩ := hbk t b2 hb2
    obtain ⟨hf1, hf2, hf3, hf4, hf5⟩ := unlinked_fields hu
    rcases hb0 with hb0 | ⟨hle, rfl⟩
    · rw [hf3, hf4]
      exact hB2 a t e b0 he hl hb0
    · have := hB5 a t e he hl
      omega
  · intro a a2 e e2 he he2
    rw [hel] at he he2
    exact hB3 a a2 e e2 he he2
  · intro a t e he hl
    rw [hel] at he
    exact Nat.lt_of_lt_of_le (hB5 a t e he hl) hlen

/-- A new node without a block keeps the slot bookkeeping. -/
theorem BlockInv_newElement {T : Type} {h : Heap T} {C : Nat} (hinv : h.BlockInv C)
    {e0 : BucketStorage.Element} (h0 : e0.m_block_link = none) :
    ({ h with elements := h.elements ++ [some e0] } : Heap T).BlockInv C := by
  obtain ⟨hB1, hB2, hB3, hB5⟩ := hinv
  have hback : ∀ (a : Nat) (e : BucketStorage.Element),
      (h.elements ++ [some e0])[a]? = some (some e) → e.m_block_link ≠ none →
      h.elements[a]? = some (some e) := by
    intro a e he hl
    by_cases ha : a = h.elements.length
    · subst ha
      rw [getElem?_append_single_eq] at he
      cases he
      exact absurd h0 hl
    · rw [getElem?_append_single_ne _ _ ha] at he
      exact he
  refine ⟨?_, ?_, ?_, ?_⟩
  · intro t b hb
    obtain ⟨h1, h2a, h3, h4, h5, h6, h7⟩ := hB1 t b hb
    refine ⟨h1, h2a, h3, h4, h5, h6, ?_⟩
    intro p hp hpf
    obtain ⟨a, e, he, hl, hpos⟩ := h7 p hp hpf
    refine ⟨a, e, ?_, hl, hpos⟩
    simp only
    rw [getElem?_append_single_ne _ _ (Nat.ne_of_lt (lt_length_of_getElem? he))]
    exact he
  · intro a t e b he hl hb
    exact hB2 a t e b (hback a e he (by rw [hl]; simp)) hl hb
  · intro a a2 e e2 he he2 hne hl hp
    exact hB3 a a2 e e2 (hback a e he hne) (hback a2 e2 he2 (by rw [← hl]; exact hne)) hne hl hp
  · intro a t e he hl
    exact hB5 a t e (hback a e he (by rw [hl]; simp)) hl

/-! ## `insert` keeps the slot bookkeeping -/

/-- One `insert` keeps the slot bookkeeping of the blocks, keeps the bucket
capacity of the allocator, and keeps every allocated block that has a slot
available on the free-block stack. -/
theorem insert_BlockInv {T : Type} {bs bs2 : BucketStorage} {h h2 : Heap T} {x : T}
    {pm : BucketStorage.PhysicalMemory} {it : BucketStorage.BaseIterator} {C : Nat}
    (hpm : bs.m_physical_memory = some pm) (hcap : pm.m_bucket_capacity = C) (hC : 0 < C)
    (hinv : h.BlockInv C) (hok : bs.insert h x = .ok (bs2, h2, it)) :
    h2.BlockInv C ∧
    ∃ pm2, bs2.m_physical_memory = some pm2 ∧ pm2.m_bucket_capacity = C ∧
      ((∀ (u : Nat) (b : BucketStorage.Block T), h.blocks[u]? = some (some b) →
          b.m_size < C → some u ∈ pm.m_free_blocks.nodes) →
        ∀ (u : Nat) (b : BucketStorage.Block T), h2.blocks[u]? = some (some b) →
          b.m_size < C → some u ∈ pm2.m_free_blocks.nodes) := by
  obtain ⟨e0, h1, t, p, b, b2, pm2, e2, he0, hec, hpm2, hpeek, hbt, hlt, hlen, hget, hbcap, hbarr,
    hbsize, hbfree, hn2, hn2l, hn2p, hback, hfwd⟩ := insert_blocks hpm hok
  obtain ⟨hcap2, hg, ⟨t1, b1, hpeek1, hbt1, htop⟩, hstack, hnewst⟩ := ensure_capacity_effect hec
  rw [hcap] at hcap2 hg htop hstack hnewst
  rw [hpeek] at hpeek1
  cases hpeek1
  rw [hbt] at hbt1
  cases hbt1
  have hinv0 := BlockInv_newElement hinv he0
  have hinv1 := BlockInv_grows hinv0 hg
  obtain ⟨hB1, hB2, hB3, hB5⟩ := hinv1
  have hel1 : h1.elements = h.elements ++ [some e0] := hg.1
  obtain ⟨hc1, hc2, hc3, hc4, hc5, hc6, hc7⟩ := hB1 t b hbt
  -- a node of `h` seen in `h1`
  have hold1 : ∀ (a : Nat) (c : BucketStorage.Element), h.elements[a]? = some (some c) →
      h1.elements[a]? = some (some c) := by
    intro a c hc
    rw [hel1, getElem?_append_single_ne _ _ (Nat.ne_of_lt (lt_length_of_getElem? hc))]
    exact hc
  have hn1 : h1.elements[h.elements.length]? = some (some e0) := by
    rw [hel1]; exact getElem?_append_single_eq _ _
  -- the block on top is not full
  have hroom : b.m_size < C := by
    rcases htop with htop | htop
    · omega
    · have := (unlinked_fields htop).2.2.2.2
      rw [this]
      exact hC
  -- the new slot was free
  have hpfree : ∀ (a : Nat) (c : BucketStorage.Element), h1.elements[a]? = some (some c) →
      c.m_block_link = some t → c.m_pos ≠ p := by
    intro a c hc hl hpos
    obtain ⟨h1a, h1b⟩ := hB2 a t c b hc hl hbt
    rcases hbfree with ⟨hf, -⟩ | ⟨hf, -, hph, -⟩
    · apply h1b
      rw [hf, hpos]
      exact List.mem_cons_self _ _
    · omega
  have hb2head : p < b2.m_head ∧ p ∉ b2.m_free_pos.nodes ∧ b2.m_head ≤ C ∧
      b2.m_size + b2.m_free_pos.nodes.length = b2.m_head ∧ b2.m_free_pos.nodes.Nodup ∧
      (∀ q, q ∈ b2.m_free_pos.nodes → q < b2.m_head ∧ q ∈ b.m_free_pos.nodes) ∧
      (∀ q, q < b2.m_head → q ∉ b2.m_free_pos.nodes → q ≠ p →
        q < b.m_head ∧ q ∉ b.m_free_pos.nodes) ∧
      b.m_head ≤ b2.m_head := by
    rcases hbfree with ⟨hf, hh⟩ | ⟨hf, hf2, hph, hh⟩
    · rw [hf] at hc4 hc5 hc6
      have hnd := List.nodup_cons.mp hc5
      refine ⟨?_, hnd.1, ?_, ?_, hnd.2, ?_, ?_, ?_⟩
      · rw [hh]; exact hc6 p (List.mem_cons_self _ _)
      · rw [hh]; exact hc3
      · rw [hh, hbsize]
        simp only [List.length_cons] at hc4
        omega
      · intro q hq
        rw [hh, hf]
        exact ⟨hc6 q (List.mem_cons_of_mem _ hq), List.mem_cons_of_mem _ hq⟩
      · intro q hq hqf hqp
        rw [hh] at hq
        rw [hf]
        refine ⟨hq, ?_⟩
        intro hmem
        rcases List.mem_cons.mp hmem with hm | hm
        · exact hqp hm
        · exact hqf hm
      · rw [hh]
    · rw [hf] at hc4
      simp only [List.length_nil, Nat.add_zero] at hc4
      refine ⟨?_, ?_, ?_, ?_, ?_, ?_, ?_, ?_⟩
      · rw [hh, hph]; omega
      · rw [hf2]; simp
      · rw [hh]; omega
      · rw [hh, hbsize, hf2]; simp; omega
      · rw [hf2]; exact List.nodup_nil
      · intro q hq
        rw [hf2] at hq
        cases hq
      · intro q hq hqf hqp
        rw [hh] at hq
        rw [hf]
        refine ⟨by omega, by simp⟩
      · rw [hh]; omega
  obtain ⟨hp1, hp2, hp3, hp4, hp5, hp6, hp7, hp8⟩ := hb2head
  refine ⟨⟨?_, ?_, ?_, ?_⟩, pm2, hpm2, hcap2, ?_⟩
  · -- the blocks
    intro u bu hbu
    rw [hget u] at hbu
    by_cases hut : u = t
    · subst hut
      simp only [if_true] at hbu
      cases hbu
      refine ⟨hbcap.trans hc1, hbarr.trans hc2, hp3, hp4, hp5, fun q hq => (hp6 q hq).1, ?_⟩
      intro q hq hqf
      by_cases hqp : q = p
      · exact ⟨h.elements.length, e2, hn2, hn2l, by rw [hn2p, hqp]⟩
      · obtain ⟨hq1, hq2⟩ := hp7 q hq hqf hqp
        obtain ⟨a, c, hc, hl, hpos⟩ := hc7 q hq1 hq2
        have han : a ≠ h.elements.length := by
          intro hh
          rw [hh, hn1] at hc
          cases hc
          rw [he0] at hl
          cases hl
        have hc0 : h.elements[a]? = some (some c) := by
          rw [hel1, getElem?_append_single_ne _ _ han] at hc
          exact hc
        obtain ⟨c2, hc2a, hl2, hpos2⟩ := hfwd a c hc0
        exact ⟨a, c2, hc2a, hl2.trans hl, hpos2.trans hpos⟩
    · simp only [hut, if_false] at hbu
      obtain ⟨h1a, h2a, h3, h4, h5, h6, h7⟩ := hB1 u bu hbu
      refine ⟨h1a, h2a, h3, h4, h5, h6, ?_⟩
      intro q hq hqf
      obtain ⟨a, c, hc, hl, hpos⟩ := h7 q hq hqf
      have han : a ≠ h.elements.length := by
        intro hh
        rw [hh, hn1] at hc
        cases hc
        rw [he0] at hl
        cases hl
      have hc0 : h.elements[a]? = some (some c) := by
        rw [hel1, getElem?_append_single_ne _ _ han] at hc
        exact hc
      obtain ⟨c2, hc2a, hl2, hpos2⟩ := hfwd a c hc0
      exact ⟨a, c2, hc2a, hl2.trans hl, hpos2.trans hpos⟩
  · -- the nodes
    intro a u c bu hc hl hbu
    rw [hget u] at hbu
    by_cases han : a = h.elements.length
    · subst han
      rw [hn2] at hc
      cases hc
      rw [hn2l] at hl
      cases hl
      simp only [if_true] at hbu
      cases hbu
      rw [hn2p]
      exact ⟨hp1, hp2⟩
    · obtain ⟨c0, hc0, hl0, hpos0⟩ := hback a c han hc
      have hc1' := hold1 a c0 hc0
      rw [hl0] at hl
      by_cases hut : u = t
      · subst hut
        simp only [if_true] at hbu
        cases hbu
        obtain ⟨h1a, h1b⟩ := hB2 a u c0 b hc1' hl hbt
        rw [hpos0]
        refine ⟨Nat.lt_of_lt_of_le h1a hp8, ?_⟩
        intro hmem
        exact h1b (hp6 _ hmem).2
      · simp only [hut, if_false] at hbu
        rw [hpos0]
        exact hB2 a u c0 bu hc1' hl hbu
  · -- no two nodes in one slot
    intro a a2 c c2 hc hc2 hne hl hpos
    by_cases han : a = h.elements.length
    · by_cases han2 : a2 = h.elements.length
      · rw [han, han2]
      · exfalso
        subst han
        rw [hn2] at hc
        cases hc
        obtain ⟨c0, hc0, hl0, hpos0⟩ := hback a2 c2 han2 hc2
        refine hpfree a2 c0 (hold1 a2 c0 hc0) ?_ ?_
        · rw [← hl0, ← hl, hn2l]
        · rw [← hpos0, ← hpos, hn2p]
    · by_cases han2 : a2 = h.elements.length
      · exfalso
        subst han2
        rw [hn2] at hc2
        cases hc2
        obtain ⟨c0, hc0, hl0, hpos0⟩ := hback a c han hc
        refine hpfree a c0 (hold1 a c0 hc0) ?_ ?_
        · rw [← hl0, hl, hn2l]
        · rw [← hpos0, hpos, hn2p]
      · obtain ⟨c0, hc0, hl0, hpos0⟩ := hback a c han hc
        obtain ⟨c02, hc02, hl02, hpos02⟩ := hback a2 c2 han2 hc2
        refine hB3 a a2 c0 c02 (hold1 a c0 hc0) (hold1 a2 c02 hc02) ?_ ?_ ?_
        · rw [← hl0]; exact hne
        · rw [← hl0, ← hl02]; exact hl
        · rw [← hpos0, ← hpos02]; exact hpos
  · -- every named block was allocated
    intro a u c hc hl
    rw [hlen]
    by_cases han : a = h.elements.length
    · subst han
      rw [hn2] at hc
      cases hc
      rw [hn2l] at hl
      cases hl
      exact lt_length_of_getElem? hbt
    · obtain ⟨c0, hc0, hl0, hpos0⟩ := hback a c han hc
      rw [hl0] at hl
      exact hB5 a u c0 (hold1 a c0 hc0) hl
  · -- the free-block stack
    intro hfree u bu hbu hsz
    rw [hget u] at hbu
    by_cases hut : u = t
    · subst hut
      obtain ⟨rest, hnodes⟩ := peek_eq_some hpeek
      rw [hnodes]
      exact List.mem_cons_self _ _
    · simp only [hut, if_false] at hbu
      obtain ⟨b0, hb0, hu⟩ := hg.2.2 u bu hbu
      have hsz0 := (unlinked_fields hu).2.2.2.2
      rcases hb0 with hb0 | ⟨hle, -⟩
      · have hmem := hfree u b0 hb0 (by rw [← hsz0]; exact hsz)
        rcases hstack _ hmem with hin | ⟨u2, bu2, hu2, hbu2, hfull⟩
        · exact hin
        · cases hu2
          rw [hbu] at hbu2
          cases hbu2
          omega
      · rcases hnewst u hle (lt_length_of_getElem? hbu) with hin | ⟨bu2, hbu2, hfull⟩
        · exact hin
        · rw [hbu] at hbu2
          cases hbu2
          omega

/-! ## `erase` keeps the slot bookkeeping -/

/-- The node at index `k` of a well-formed list and its neighbours. -/
theorem node_links {T : Type} {bs : BucketStorage} {h : Heap T} {as : List Nat} {o k a : Nat}
    (hinv : BucketStorage.ListInv (bs, h) as o) (hka : as[k]? = some a) :
    ∃ (e : BucketStorage.Element) (vm : BucketStorage.VirtualMemory),
      bs.m_virtual_memory = some vm ∧ h.elements[a]? = some (some e) ∧
      (∀ q, e.m_prev = some q → q ≠ a) ∧
      (∀ q, e.m_next = some q → q ≠ a ∧ e.m_prev ≠ some q) := by
  obtain ⟨en, hvm, hsize, hend, hlinked, ⟨co, ho, hoblk⟩⟩ := hinv
  simp only at hvm hsize hend hlinked ho
  have hk : k < as.length := lt_length_of_getElem? hka
  have hna : (as ++ [o])[k]? = some a := by rw [nodes_get_lt as o hk]; exact hka
  obtain ⟨e, he, henext, heprev⟩ := hlinked.1 k a hna
  have hprevk : ∀ q, e.m_prev = some q → k ≠ 0 ∧ (as ++ [o])[k - 1]? = some q := by
    intro q hq
    rw [heprev] at hq
    by_cases hk0 : k = 0
    · simp [hk0] at hq
    · simp only [hk0, if_false] at hq
      exact ⟨hk0, hq⟩
  refine ⟨e, _, hvm, he, ?_, ?_⟩
  · intro q hq hqa
    obtain ⟨hk0, hq2⟩ := hprevk q hq
    rw [hqa] at hq2
    have := Linked_inj hlinked hq2 hna
    omega
  · intro q hq
    rw [henext] at hq
    constructor
    · intro hqa
      rw [hqa] at hq
      have := Linked_inj hlinked hq hna
      omega
    · intro hpq
      obtain ⟨hk0, hq2⟩ := hprevk q hpq
      have := Linked_inj hlinked hq2 hq
      omega

/-- One `erase` keeps the slot bookkeeping of the blocks, keeps the bucket
capacity of the allocator, and keeps every allocated block that has a slot
available on the free-block stack. -/
theorem erase_BlockInv {T : Type} {bs bs2 : BucketStorage} {h h2 : Heap T}
    {as : List Nat} {o k a : Nat} {it : BucketStorage.BaseIterator}
    {pm : BucketStorage.PhysicalMemory} {C : Nat}
    (hlist : BucketStorage.ListInv (bs, h) as o) (hka : as[k]? = some a)
    (hpm : bs.m_physical_memory = some pm) (hcap : pm.m_bucket_capacity = C)
    (hinv : h.BlockInv C) (hok : bs.erase h ⟨some a⟩ = .ok (bs2, h2, it)) :
    h2.BlockInv C ∧
    ∃ pm2, bs2.m_physical_memory = some pm2 ∧ pm2.m_bucket_capacity = C ∧
      ((∀ (u : Nat) (b : BucketStorage.Block T), h.blocks[u]? = some (some b) →
          b.m_size < C → some u ∈ pm.m_free_blocks.nodes) →
        ∀ (u : Nat) (b : BucketStorage.Block T), h2.blocks[u]? = some (some b) →
          b.m_size < C → some u ∈ pm2.m_free_blocks.nodes) := by
  obtain ⟨e, vm, hvm, hcell, hprev, hnext⟩ := node_links hlist hka
  obtain ⟨-, -, -, -, -, hp⟩ := erase_effect hvm hcell hprev hnext hok
  obtain ⟨t, b, pm2, hlink, hbt, hpm2, hcap2, hnodes, hlen, hbk⟩ :=
    erase_blocks hpm hcell hprev hnext hok
  obtain ⟨hB1, hB2, hB3, hB5⟩ := hinv
  obtain ⟨hc1, hc2, hc3, hc4, hc5, hc6, hc7⟩ := hB1 t b hbt
  obtain ⟨hpos1, hpos2⟩ := hB2 a t e b hcell hlink hbt
  have hszpos : b.m_size = (b.m_size - 1) + 1 := by
    have := nodup_length_lt hc5 hc6 hpos1 hpos2
    omega
  -- the nodes after the erase
  have hback : ∀ (c : Nat) (e2 : BucketStorage.Element), h2.elements[c]? = some (some e2) →
      c ≠ a ∧ ∃ e0, h.elements[c]? = some (some e0) ∧ e2.m_block_link = e0.m_block_link ∧
        e2.m_pos = e0.m_pos := by
    intro c e2 he2
    rw [hp c] at he2
    by_cases hca : c = a
    · simp [hca] at he2
    · simp only [hca, if_false] at he2
      cases hh : h.elements[c]? with
      | none => rw [hh] at he2; cases he2
      | some oc =>
        cases oc with
        | none => rw [hh] at he2; cases he2
        | some e0 =>
          rw [hh] at he2
          simp only [Option.map_some'] at he2
          cases he2
          exact ⟨hca, e0, rfl, rfl, rfl⟩
  have hfwd : ∀ (c : Nat) (e0 : BucketStorage.Element), h.elements[c]? = some (some e0) →
      c ≠ a → ∃ e2, h2.elements[c]? = some (some e2) ∧ e2.m_block_link = e0.m_block_link ∧
        e2.m_pos = e0.m_pos := by
    intro c e0 he0 hca
    refine ⟨e.relink c e0, ?_, rfl, rfl⟩
    rw [hp c, if_neg hca, he0]
    rfl
  refine ⟨⟨?_, ?_, ?_, ?_⟩, pm2, hpm2, hcap2.trans hcap, ?_⟩
  · intro u b2 hb2
    obtain ⟨b0, hb0, hf1, hf2, hf3, hf4⟩ := hbk u b2 hb2
    obtain ⟨h1a, h2a, h3, h4, h5, h6, h7⟩ := hB1 u b0 hb0
    by_cases hut : u = t
    · subst hut
      simp only [if_true] at hf4
      obtain ⟨hfree, hsz⟩ := hf4
      rw [hbt] at hb0
      cases hb0
      refine ⟨hf1.trans h1a, hf2.trans h2a, by rw [hf3]; exact h3, ?_, ?_, ?_, ?_⟩
      · rw [hsz, hfree, hf3, hszpos, decr64_succ]
        simp only [List.length_cons]
        omega
      · rw [hfree]
        exact List.nodup_cons.mpr ⟨hpos2, h5⟩
      · intro q hq
        rw [hfree] at hq
        rw [hf3]
        rcases List.mem_cons.mp hq with hq | hq
        · rw [hq]; exact hpos1
        · exact h6 q hq
      · intro q hq hqf
        rw [hf3] at hq
        rw [hfree] at hqf
        have hqe : q ≠ e.m_pos := fun hh => hqf (hh ▸ List.mem_cons_self _ _)
        have hqf2 : q ∉ b.m_free_pos.nodes := fun hh => hqf (List.mem_cons_of_mem _ hh)
        obtain ⟨c, e0, he0, hl0, hp0⟩ := h7 q hq hqf2
        have hca : c ≠ a := by
          intro hh
          rw [hh, hcell] at he0
          cases he0
          exact hqe hp0.symm
        obtain ⟨e2, he2, hl2, hp2⟩ := hfwd c e0 he0 hca
        exact ⟨c, e2, he2, hl2.trans hl0, hp2.trans hp0⟩
    · simp only [hut, if_false] at hf4
      obtain ⟨hfree, hsz⟩ := hf4
      refine ⟨hf1.trans h1a, hf2.trans h2a, by rw [hf3]; exact h3, ?_, ?_, ?_, ?_⟩
      · rw [hsz, hfree, hf3]; exact h4
      · rw [hfree]; exact h5
      · intro q hq
        rw [hfree] at hq
        rw [hf3]
        exact h6 q hq
      · intro q hq hqf
        rw [hf3] at hq
        rw [hfree] at hqf
        obtain ⟨c, e0, he0, hl0, hp0⟩ := h7 q hq hqf
        have hca : c ≠ a := by
          intro hh
          rw [hh, hcell] at he0
          cases he0
          rw [hlink] at hl0
          exact hut (Option.some.inj hl0).symm
        obtain ⟨e2, he2, hl2, hp2⟩ := hfwd c e0 he0 hca
        exact ⟨c, e2, he2, hl2.trans hl0, hp2.trans hp0⟩
  · intro c u e2 b2 he2 hl hb2
    obtain ⟨hca, e0, he0, hl0, hp0⟩ := hback c e2 he2
    obtain ⟨b0, hb0, hf1, hf2, hf3, hf4⟩ := hbk u b2 hb2
    rw [hl0] at hl
    obtain ⟨h1a, h1b⟩ := hB2 c u e0 b0 he0 hl hb0
    rw [hp0, hf3]
    refine ⟨h1a, ?_⟩
    by_cases hut : u = t
    · subst hut
      simp only [if_true] at hf4
      rw [hf4.1]
      intro hmem
      rcases List.mem_cons.mp hmem with hm | hm
      · exact hca (hB3 c a e0 e he0 hcell (by rw [hl]; simp) (by rw [hl, hlink]) hm)
      · exact h1b hm
    · simp only [hut, if_false] at hf4
      rw [hf4.1]
      exact h1b
  · intro c c2 e2 e22 he2 he22 hne hl hpos
    obtain ⟨-, e0, he0, hl0, hp0⟩ := hback c e2 he2
    obtain ⟨-, e02, he02, hl02, hp02⟩ := hback c2 e22 he22
    refine hB3 c c2 e0 e02 he0 he02 ?_ ?_ ?_
    · rw [← hl0]; exact hne
    · rw [← hl0, ← hl02]; exact hl
    · rw [← hp0, ← hp02]; exact hpos
  · intro c u e2 he2 hl
    obtain ⟨-, e0, he0, hl0, hp0⟩ := hback c e2 he2
    rw [hlen]
    rw [hl0] at hl
    exact hB5 c u e0 he0 hl
  · intro hfree u b2 hb2 hsz
    obtain ⟨b0, hb0, hf1, hf2, hf3, hf4⟩ := hbk u b2 hb2
    have hmono : ∀ x, x ∈ pm.m_free_blocks.nodes → x ∈ pm2.m_free_blocks.nodes := by
      intro x hx
      rw [hnodes]
      split
      · exact List.mem_cons_of_mem _ hx
      · exact hx
    by_cases hut : u = t
    · subst hut
      rw [hbt] at hb0
      cases hb0
      by_cases hfull : b.m_size = b.m_capacity
      · rw [hnodes]
        simp only [hfull, if_true]
        exact List.mem_cons_self _ _
      · apply hmono
        apply hfree u b hbt
        rw [hc1] at hfull
        omega
    · simp only [hut, if_false] at hf4
      apply hmono
      apply hfree u b0 hb0
      rw [← hf4.2]
      exact hsz

/-! ## `insert`, `erase` and the erase loop keep a container good -/

/-- One `insert` keeps the container good; the nodes that are alive afterwards
are the new node and nodes that were alive before. -/
theorem insert_good {T : Type} {bs bs2 : BucketStorage} {h h2 : Heap T} {x : T}
    {as : List Nat} {o C : Nat} {it : BucketStorage.BaseIterator}
    (hgood : BucketStorage.Good (bs, h) C as o) (hC : 0 < C)
    (hok : bs.insert h x = .ok (bs2, h2, it)) :
    BucketStorage.Good (bs2, h2) C (as ++ [h.elements.length]) o ∧
    h2.elements.length = h.elements.length + 1 ∧
    (∀ b, b ∉ as → b ≠ o → b ≠ h.elements.length → h2.elements[b]? = h.elements[b]?) ∧
    (∀ (a : Nat) (c2 : BucketStorage.Element), h2.elements[a]? = some (some c2) →
      a = h.elements.length ∨ ∃ c, h.elements[a]? = some (some c)) ∧
    (BucketStorage.FreeListed (bs, h) C → BucketStorage.FreeListed (bs2, h2) C) := by
  obtain ⟨hlist, hbcap, ⟨pm, hpm, hpcap⟩, hblk⟩ := hgood
  simp only at hbcap hpm hblk
  obtain ⟨hlist2, -, hcap2, hlen2, hframe⟩ := insert_inv hlist hok
  obtain ⟨hblk2, pm2, hpm2, hpcap2, hfree⟩ := insert_BlockInv hpm hpcap hC hblk hok
  obtain ⟨_, _, _, _, _, _, _, _, _, _, _, _, _, _, _, _, _, _, _, _, _, _, _, hback, _⟩ :=
    insert_blocks hpm hok
  refine ⟨⟨hlist2, hcap2.trans hbcap, ⟨pm2, hpm2, hpcap2⟩, hblk2⟩, hlen2, hframe, ?_, ?_⟩
  · intro a c2 hc2
    by_cases han : a = h.elements.length
    · exact Or.inl han
    · obtain ⟨c, hc, -, -⟩ := hback a c2 han hc2
      exact Or.inr ⟨c, hc⟩
  · rintro ⟨pm0, hpm0, hf⟩
    simp only at hpm0 hf
    rw [hpm] at hpm0
    cases hpm0
    exact ⟨pm2, hpm2, hfree hf⟩

/-- One `erase` of the element at index `k` keeps the container good; the
nodes that are alive afterwards were alive before, and the erased node is not
among them. -/
theorem erase_good {T : Type} {bs bs2 : BucketStorage} {h h2 : Heap T}
    {as : List Nat} {o k a C : Nat} {it : BucketStorage.BaseIterator}
    (hgood : BucketStorage.Good (bs, h) C as o) (hka : as[k]? = some a)
    (hok : bs.erase h ⟨some a⟩ = .ok (bs2, h2, it)) :
    BucketStorage.Good (bs2, h2) C (as.eraseIdx k) o ∧
    h2.elements.length = h.elements.length ∧
    (∀ b, b ∉ as → b ≠ o → h2.elements[b]? = h.elements[b]?) ∧
    (∀ (c : Nat) (c2 : BucketStorage.Element), h2.elements[c]? = some (some c2) →
      c ≠ a ∧ ∃ c0, h.elements[c]? = some (some c0)) ∧
    (BucketStorage.FreeListed (bs, h) C → BucketStorage.FreeListed (bs2, h2) C) := by
  obtain ⟨hlist, hbcap, ⟨pm, hpm, hpcap⟩, hblk⟩ := hgood
  simp only at hbcap hpm hblk
  obtain ⟨hlist2, -, hcap2, hlen2, hdead, hframe⟩ := erase_inv hlist hka hok
  obtain ⟨hblk2, pm2, hpm2, hpcap2, hfree⟩ := erase_BlockInv hlist hka hpm hpcap hblk hok
  obtain ⟨e, vm, hvm, hcell, hprev, hnext⟩ := node_links hlist hka
  obtain ⟨-, -, -, -, -, hp⟩ := erase_effect hvm hcell hprev hnext hok
  refine ⟨⟨hlist2, hcap2.trans hbcap, ⟨pm2, hpm2, hpcap2⟩, hblk2⟩, hlen2, hframe, ?_, ?_⟩
  · intro c c2 hc2
    rw [hp c] at hc2
    by_cases hca : c = a
    · simp [hca] at hc2
    · simp only [hca, if_false] at hc2
      refine ⟨hca, ?_⟩
      cases hh : h.elements[c]? with
      | none => rw [hh] at hc2; cases hc2
      | some oc =>
        cases oc with
        | none => rw [hh] at hc2; cases hc2
        | some c0 => exact ⟨c0, rfl⟩
  · rintro ⟨pm0, hpm0, hf⟩
    simp only at hpm0 hf
    rw [hpm] at hpm0
    cases hpm0
    exact ⟨pm2, hpm2, hfree hf⟩

/-- The loop `while (!empty()) erase(begin());` keeps the container good and
destroys every node of the list. -/
theorem eraseAll_good {T : Type} {o C : Nat} :
    ∀ (fuel : Nat) (bs bs2 : BucketStorage) (h h2 : Heap T) (as : List Nat),
      BucketStorage.Good (bs, h) C as o →
      BucketStorage.eraseAll fuel bs h = .ok (bs2, h2) →
      BucketStorage.Good (bs2, h2) C [] o ∧
      h2.elements.length = h.elements.length ∧
      (∀ b : Nat, b ∉ as → b ≠ o → h2.elements[b]? = h.elements[b]?) ∧
      (∀ (c : Nat) (c2 : BucketStorage.Element), h2.elements[c]? = some (some c2) →
        c ∉ as ∧ ∃ c0, h.elements[c]? = some (some c0)) := by
  intro fuel
  induction fuel with
  | zero =>
    intro bs bs2 h h2 as hgood hok
    have hsize := size_inv hgood.1
    by_cases hemp : bs.m_bucket_size = 0
    · simp only [BucketStorage.eraseAll, BucketStorage.empty, hemp, decide_True, if_true,
        pure_ok_iff] at hok
      cases hok
      have : as = [] := List.length_eq_zero.mp (by omega)
      subst this
      exact ⟨hgood, rfl, fun _ _ _ => rfl, fun c c2 hc2 => ⟨by simp, c2, hc2⟩⟩
    · simp [BucketStorage.eraseAll, BucketStorage.empty, hemp] at hok
  | succ fuel ih =>
    intro bs bs2 h h2 as hgood hok
    have hsize := size_inv hgood.1
    by_cases hemp : bs.m_bucket_size = 0
    · simp only [BucketStorage.eraseAll, BucketStorage.empty, hemp, decide_True, if_true,
        pure_ok_iff] at hok
      cases hok
      have : as = [] := List.length_eq_zero.mp (by omega)
      subst this
      exact ⟨hgood, rfl, fun _ _ _ => rfl, fun c c2 hc2 => ⟨by simp, c2, hc2⟩⟩
    · have hpos : 0 < as.length := by omega
      have hget : as[0]? = some as[0] := List.getElem?_eq_getElem hpos
      have hb : bs.begin = .ok ⟨some as[0]⟩ := by
        rw [begin_inv hgood.1, nodes_get_lt as o hpos, hget]
      simp only [BucketStorage.eraseAll, BucketStorage.empty, hemp, decide_False, hb,
        bind_ok_iff] at hok
      simp only [Bool.false_eq_true, if_false, bind_ok_iff] at hok
      obtain ⟨b0, hb0, ⟨bs1, h1, it⟩, herase, hrest⟩ := hok
      cases hb0
      obtain ⟨hgood1, hlen1, hframe1, halive1, -⟩ := erase_good hgood hget herase
      obtain ⟨hgood2, hlen2, hframe2, halive2⟩ := ih bs1 bs2 h1 h2 _ hgood1 hrest
      have hlinked : h.Linked (as ++ [o]) := by
        obtain ⟨en, -, -, -, hl, -⟩ := hgood.1
        exact hl
      refine ⟨hgood2, hlen2.trans hlen1, ?_, ?_⟩
      · intro b hb hbo
        have hb1 : b ∉ as.eraseIdx 0 := fun hh => hb (List.mem_of_mem_eraseIdx hh)
        rw [hframe2 b hb1 hbo, hframe1 b hb hbo]
      · intro c c2 hc2
        obtain ⟨hc1, c1, hc1a⟩ := halive2 c c2 hc2
        obtain ⟨hca, c0, hc0⟩ := halive1 c c1 hc1a
        refine ⟨?_, c0, hc0⟩
        intro hmem
        obtain ⟨j, hj⟩ := List.getElem?_of_mem hmem
        apply hc1
        have hj0 : j ≠ 0 := by
          intro hj0
          rw [hj0, hget] at hj
          exact hca (Option.some.inj hj).symm
        have : (as.eraseIdx 0)[j - 1]? = some c := by
          rw [List.getElem?_eraseIdx]
          simp only [Nat.not_lt_zero, if_false]
          rw [show j - 1 + 1 = j by omega]
          exact hj
        exact List.getElem?_mem this

/-! ## `clear`, construction and the loop of `shrink_to_fit` keep a container good -/

/-- The slot bookkeeping only reads the blocks and, of the nodes, which are
alive and what block and position they name. -/
theorem BlockInv_of_slots {T : Type} {h h2 : Heap T} {C : Nat} (hinv : h.BlockInv C)
    (hblocks : h2.blocks = h.blocks)
    (hback : ∀ (c : Nat) (e2 : BucketStorage.Element), h2.elements[c]? = some (some e2) →
      ∃ e0, h.elements[c]? = some (some e0) ∧ e2.m_block_link = e0.m_block_link ∧
        e2.m_pos = e0.m_pos)
    (hfwd : ∀ (c : Nat) (e0 : BucketStorage.Element), h.elements[c]? = some (some e0) →
      e0.m_block_link ≠ none →
      ∃ e2, h2.elements[c]? = some (some e2) ∧ e2.m_block_link = e0.m_block_link ∧
        e2.m_pos = e0.m_pos) :
    h2.BlockInv C := by
  obtain ⟨hB1, hB2, hB3, hB5⟩ := hinv
  refine ⟨?_, ?_, ?_, ?_⟩
  · intro t b hb
    rw [hblocks] at hb
    obtain ⟨h1, h2a, h3, h4, h5, h6, h7⟩ := hB1 t b hb
    refine ⟨h1, h2a, h3, h4, h5, h6, ?_⟩
    intro p hp hpf
    obtain ⟨a, e, he, hl, hpos⟩ := h7 p hp hpf
    obtain ⟨e2, he2, hl2, hp2⟩ := hfwd a e he (by rw [hl]; simp)
    exact ⟨a, e2, he2, hl2.trans hl, hp2.trans hpos⟩
  · intro a t e2 b he2 hl hb
    rw [hblocks] at hb
    obtain ⟨e0, he0, hl0, hp0⟩ := hback a e2 he2
    rw [hl0] at hl
    rw [hp0]
    exact hB2 a t e0 b he0 hl hb
  · intro a a2 e e2 he he2 hne hl hpos
    obtain ⟨e0, he0, hl0, hp0⟩ := hback a e he
    obtain ⟨e02, he02, hl02, hp02⟩ := hback a2 e2 he2
    refine hB3 a a2 e0 e02 he0 he02 ?_ ?_ ?_
    · rw [← hl0]; exact hne
    · rw [← hl0, ← hl02]; exact hl
    · rw [← hp0, ← hp02]; exact hpos
  · intro a t e2 he2 hl
    obtain ⟨e0, he0, hl0, hp0⟩ := hback a e2 he2
    rw [hblocks]
    rw [hl0] at hl
    exact hB5 a t e0 he0 hl

/-- Code of `clear()` keeps the container good, and only the sentinel stays
alive. -/
theorem clear_good {T : Type} {bs bs2 : BucketStorage} {h h2 : Heap T} {as : List Nat}
    {o C : Nat} (hgood : BucketStorage.Good (bs, h) C as o)
    (hlisted : h.Listed (as ++ [o]))
    (hok : bs.clear h = .ok (bs2, h2)) :
    BucketStorage.Good (bs2, h2) C [] o ∧ h2.Listed ([] ++ [o]) := by
  have hlist2 := clear_inv hgood.1 hok
  simp only [BucketStorage.clear, bind_ok_iff, pure_ok_iff] at hok
  obtain ⟨⟨bs1, h1⟩, hall, vm, hvm, pm, hpm, hfin⟩ := hok
  cases hfin
  obtain ⟨hgood1, -, -, halive⟩ := eraseAll_good _ _ _ _ _ _ hgood hall
  obtain ⟨-, hbcap, ⟨pm1, hpm1, hpcap⟩, hblk⟩ := hgood1
  simp only at hbcap hpm1 hblk hpm
  rw [hpm1] at hpm
  simp only [derefPtr] at hpm
  cases hpm
  refine ⟨⟨hlist2, hbcap, ⟨_, rfl, hpcap⟩, hblk⟩, ?_⟩
  intro c c2 hc2
  obtain ⟨hnot, c0, hc0⟩ := halive c c2 hc2
  have := hlisted c c0 hc0
  rcases List.mem_append.mp this with hm | hm
  · exact absurd hm hnot
  · simpa using hm

/-- The constructor `BucketStorage(C)` on a heap whose blocks obey the slot
bookkeeping makes a good container. -/
theorem init_good {T : Type} {h : Heap T} {C : Nat} (hinv : h.BlockInv C) :
    BucketStorage.Good (BucketStorage.init h C) C [] h.elements.length := by
  obtain ⟨hlist, hel, hcap⟩ := init_inv h C
  refine ⟨hlist, hcap, ⟨_, rfl, rfl⟩, ?_⟩
  exact @BlockInv_newElement T h C hinv (BucketStorage.Element.new 0) rfl

/-- The loop of `shrink_to_fit` keeps both containers good. -/
theorem moveInto_good {T : Type} {bs : BucketStorage} {as : List Nat} {o n0 C : Nat}
    (hC : 0 < C) (hold : ∀ b : Nat, b ∈ as ∨ b = o → b < n0) :
    ∀ (fuel : Nat) (temp temp2 : BucketStorage) (h h2 : Heap T) (i : BucketStorage.BaseIterator)
      (as1 : List Nat),
      BucketStorage.Good (bs, h) C as o →
      BucketStorage.Good (temp, h) C as1 n0 →
      (∀ b : Nat, b ∈ as1 → n0 ≤ b) →
      h.Listed ((as ++ [o]) ++ (as1 ++ [n0])) →
      BucketStorage.moveInto bs fuel temp h i = .ok (temp2, h2) →
      ∃ as2, BucketStorage.Good (bs, h2) C as o ∧ BucketStorage.Good (temp2, h2) C as2 n0 ∧
        (∀ b : Nat, b ∈ as2 → n0 ≤ b) ∧ h2.Listed ((as ++ [o]) ++ (as2 ++ [n0])) := by
  intro fuel
  induction fuel with
  | zero =>
    intro temp temp2 h h2 i as1 _ _ _ _ hok
    simp [BucketStorage.moveInto] at hok
  | succ fuel ih =>
    intro temp temp2 h h2 i as1 hgood hgood1 hnew hlisted hok
    simp only [BucketStorage.moveInto, bind_ok_iff] at hok
    obtain ⟨e, -, c, -, hrest⟩ := hok
    cases c with
    | false =>
      simp only [Bool.false_eq_true, if_false, pure_ok_iff] at hrest
      cases hrest
      exact ⟨as1, hgood, hgood1, hnew, hlisted⟩
    | true =>
      simp only [if_true, bind_ok_iff] at hrest
      obtain ⟨v, -, ⟨temp1, h1, it1⟩, hins, nxt, -, hrec⟩ := hrest
      obtain ⟨hgood2, hlen, hframe, halive, -⟩ := insert_good hgood1 hC hins
      obtain ⟨c0, hc0⟩ := ListInv_alive hgood1.1 (Or.inr rfl)
      have hn0 : n0 < h.elements.length := lt_length_of_getElem? hc0
      have hlist3 : BucketStorage.ListInv (bs, h1) as o := by
        refine ListInv_frame hgood.1 ?_ ?_
        · intro b hb
          have hlt := hold b hb
          refine hframe b ?_ (by omega) (by omega)
          intro hmem
          have := hnew b hmem
          omega
        · intro d hd
          have hlt : d < h.elements.length := lt_length_of_getElem? hd
          rw [hframe d ?_ ?_ (by omega)]
          · exact hd
          · intro hmem
            obtain ⟨e1, he1⟩ := ListInv_alive hgood1.1 (Or.inl hmem)
            rw [hd] at he1
            cases he1
          · intro hdn
            rw [hdn, hc0] at hd
            cases hd
      have hgood3 : BucketStorage.Good (bs, h1) C as o :=
        ⟨hlist3, hgood.2.1, hgood.2.2.1, hgood2.2.2.2⟩
      refine ih temp1 temp2 h1 h2 nxt _ hgood3 hgood2 ?_ ?_ hrec
      · intro b hb
        rcases List.mem_append.mp hb with hb1 | hb1
        · exact hnew b hb1
        · have : b = h.elements.length := by simpa using hb1
          omega
      · intro a c2 hc2
        rcases halive a c2 hc2 with han | ⟨c, hc⟩
        · simp [han]
        · have := hlisted a c hc
          simp only [List.mem_append, List.mem_singleton] at this ⊢
          tauto

/-! ## Every state a driver program reaches is good -/

/-- The destructor of a good container leaves another container on the same
heap good, if the two share no node; afterwards only the nodes of the other
container are alive. -/
theorem destroy_good {T : Type} {old temp : BucketStorage} {h h2 : Heap T}
    {as as1 : List Nat} {o o1 C : Nat}
    (hgood : BucketStorage.Good (old, h) C as o)
    (hgood1 : BucketStorage.Good (temp, h) C as1 o1)
    (hdisj : ∀ b : Nat, b ∈ as1 ∨ b = o1 → b ∉ as ∧ b ≠ o)
    (hlisted : h.Listed ((as ++ [o]) ++ (as1 ++ [o1])))
    (hok : old.destroy h = .ok h2) :
    BucketStorage.Good (temp, h2) C as1 o1 ∧ h2.Listed (as1 ++ [o1]) := by
  have hlist2 := destroy_frame hgood.1 hgood1.1 hdisj hok
  simp only [BucketStorage.destroy, bind_ok_iff] at hok
  obtain ⟨⟨old1, h1⟩, hall, hrest⟩ := hok
  obtain ⟨hgoodA, -, -, halive⟩ := eraseAll_good _ _ _ _ _ _ hgood hall
  obtain ⟨en, hvm, -, -, hlinked, ⟨cs, hcs, hcsblk⟩⟩ := hgoodA.1
  simp only at hvm hlinked hcs
  simp only [hvm] at hrest
  obtain ⟨co, hco, hnext, hprev⟩ := hlinked.1 0 o rfl
  simp only [List.nil_append, if_true] at hnext hprev
  have hnext2 : co.m_next = none := hnext
  have hlen : 0 < h1.elements.length := by
    have := lt_length_of_getElem? hco
    omega
  obtain ⟨m, hm⟩ : ∃ m, h1.elements.length = m + 1 := ⟨h1.elements.length - 1, by omega⟩
  rw [hm] at hrest
  simp only [List.nil_append, List.getElem?_cons_zero,
    BucketStorage.VirtualMemory.deleteChain, bind_ok_iff,
    Heap.element_ok_iff] at hrest
  obtain ⟨e, he, h3, hdel, hchain⟩ := hrest
  rw [hco] at he
  cases he
  rw [hnext2] at hchain
  have h32 : h2 = h3 := by
    cases m with
    | zero =>
      simp only [BucketStorage.VirtualMemory.deleteChain, if_true, pure_ok_iff] at hchain
      exact hchain.symm
    | succ m =>
      simp only [BucketStorage.VirtualMemory.deleteChain, pure_ok_iff] at hchain
      exact hchain.symm
  subst h32
  obtain ⟨hblocks, -, hp⟩ := deleteElement_effect hco
    (by intro q hq; rw [hprev] at hq; cases hq)
    (by intro q hq; rw [hnext2] at hq; cases hq) hdel
  have hsame : ∀ b : Nat, b ≠ o → h2.elements[b]? = h1.elements[b]? := by
    intro b hb
    rw [hp b, if_neg hb]
    cases hh : h1.elements[b]? with
    | none => rfl
    | some oc =>
      cases oc with
      | none => rfl
      | some c =>
        simp [relink_other co b c (by rw [hprev]; simp) (by rw [hnext2]; simp)]
  have hdead : h2.elements[o]? = some none := by rw [hp o]; simp
  have hblk2 : h2.BlockInv C := by
    refine BlockInv_of_slots hgoodA.2.2.2 hblocks ?_ ?_
    · intro c e2 he2
      have hco2 : c ≠ o := by
        intro hh
        rw [hh, hdead] at he2
        cases he2
      rw [hsame c hco2] at he2
      exact ⟨e2, he2, rfl, rfl⟩
    · intro c e0 he0 hne
      have hco2 : c ≠ o := by
        intro hh
        rw [hh, hcs] at he0
        cases he0
        exact hne hcsblk
      exact ⟨e0, by rw [hsame c hco2]; exact he0, rfl, rfl⟩
  refine ⟨⟨hlist2, hgood1.2.1, hgood1.2.2.1, hblk2⟩, ?_⟩
  intro c c2 hc2
  have hco2 : c ≠ o := by
    intro hh
    rw [hh, hdead] at hc2
    cases hc2
  rw [hsame c hco2] at hc2
  obtain ⟨hnot, c0, hc0⟩ := halive c c2 hc2
  have := hlisted c c0 hc0
  simp only [List.mem_append, List.mem_singleton] at this ⊢
  tauto

/-- Code of `shrink_to_fit()` leaves a good container, and only its nodes are
alive afterwards. -/
theorem shrink_good {T : Type} {bs bs2 : BucketStorage} {h h2 : Heap T} {as : List Nat}
    {o C : Nat} (hC : 0 < C) (hgood : BucketStorage.Good (bs, h) C as o)
    (hlisted : h.Listed (as ++ [o]))
    (hok : bs.shrink_to_fit h = .ok (bs2, h2)) :
    ∃ as2 o2, BucketStorage.Good (bs2, h2) C as2 o2 ∧ h2.Listed (as2 ++ [o2]) := by
  simp only [BucketStorage.shrink_to_fit, swap_eq, bind_ok_iff, pure_ok_iff] at hok
  obtain ⟨i, -, ⟨temp1, h1⟩, hmove, h3, hdestroy, hfin⟩ := hok
  cases hfin
  have hbcap : bs.m_bucket_capacity = C := hgood.2.1
  rw [hbcap] at hmove
  have hgood0 := init_good hgood.2.2.2 (C := C)
  obtain ⟨-, hel0, -⟩ := init_inv h C
  have hold : ∀ b : Nat, b ∈ as ∨ b = o → b < h.elements.length := by
    intro b hb
    obtain ⟨e, he⟩ := ListInv_alive hgood.1 hb
    exact lt_length_of_getElem? he
  have hlistS : BucketStorage.ListInv (bs, (BucketStorage.init h C).2) as o := by
    refine ListInv_frame hgood.1 ?_ ?_
    · intro b hb
      rw [hel0]
      exact getElem?_append_single_ne _ _ (Nat.ne_of_lt (hold b hb))
    · intro d hd
      rw [hel0, getElem?_append_single_ne _ _ (Nat.ne_of_lt (lt_length_of_getElem? hd))]
      exact hd
  have hgoodS : BucketStorage.Good (bs, (BucketStorage.init h C).2) C as o :=
    ⟨hlistS, hgood.2.1, hgood.2.2.1, hgood0.2.2.2⟩
  have hlisted0 : (BucketStorage.init h C).2.Listed
      ((as ++ [o]) ++ ([] ++ [h.elements.length])) := by
    intro a c hc
    rw [hel0] at hc
    by_cases ha : a = h.elements.length
    · simp [ha]
    · rw [getElem?_append_single_ne _ _ ha] at hc
      have := hlisted a c hc
      simp only [List.mem_append, List.mem_singleton] at this ⊢
      tauto
  obtain ⟨as2, hgoodA, hgoodB, hnew, hlisted1⟩ :=
    moveInto_good hC hold _ _ _ _ _ _ [] hgoodS hgood0 (by intro b hb; cases hb) hlisted0 hmove
  refine ⟨as2, h.elements.length, destroy_good hgoodA hgoodB ?_ hlisted1 hdestroy⟩
  intro b hb
  have hge : h.elements.length ≤ b := by
    rcases hb with hb | hb
    · exact hnew b hb
    · omega
  constructor
  · intro hmem
    have := hold b (Or.inl hmem)
    omega
  · intro hbo
    have := hold b (Or.inr hbo)
    omega

/-- Every driver call keeps the container good and the heap without stray
nodes; `insert` and `erase` keep every allocated block that has a slot
available on the free-block stack. -/
theorem call_good {T : Type} {s s2 : BucketStorage × Heap T} {as : List Nat} {o C : Nat}
    (c : BucketStorage.Call T) (hC : 0 < C)
    (hgood : BucketStorage.Good s C as o) (hlisted : s.2.Listed (as ++ [o]))
    (hok : BucketStorage.call s c = .ok s2) :
    (∃ as2 o2, BucketStorage.Good s2 C as2 o2 ∧ s2.2.Listed (as2 ++ [o2])) ∧
    (c.isInsertOrErase = true → BucketStorage.FreeListed s C →
      BucketStorage.FreeListed s2 C) := by
  obtain ⟨bs, h⟩ := s
  obtain ⟨bs2, h2⟩ := s2
  have hinv := hgood.1
  have hlinked : h.Linked (as ++ [o]) := by
    obtain ⟨en, -, -, -, hl, -⟩ := hinv
    exact hl
  obtain ⟨co, hco, hblk⟩ : ∃ e, h.elements[o]? = some (some e) ∧ e.m_block_link = none := by
    obtain ⟨en, -, -, -, -, hs⟩ := hinv
    exact hs
  cases c with
  | insert x =>
    simp only [BucketStorage.call, bind_ok_iff, pure_ok_iff] at hok
    obtain ⟨⟨bs1, h1, it⟩, hins, hfin⟩ := hok
    cases hfin
    obtain ⟨hgood2, -, -, halive, hfree⟩ := insert_good hgood hC hins
    refine ⟨⟨_, o, hgood2, ?_⟩, fun _ => hfree⟩
    intro a c2 hc2
    rcases halive a c2 hc2 with han | ⟨c, hc⟩
    · simp [han]
    · have := hlisted a c hc
      simp only [List.mem_append, List.mem_singleton] at this ⊢
      tauto
  | eraseAt k =>
    simp only [BucketStorage.call, begin_inv hinv, get_to_distance_nat, bind_ok_iff,
      pure_ok_iff] at hok
    obtain ⟨b, hb, it, hadv, ⟨bs1, h1, it1⟩, herase, hfin⟩ := hok
    cases hb
    cases hfin
    obtain ⟨hle, hit⟩ := advance_ok_linked hlinked k 0 it (Nat.zero_le _) hadv
    simp only [Nat.zero_add, List.length_append, List.length_singleton] at hle hit
    subst hit
    rcases Nat.lt_trichotomy k as.length with hlt | heq | hgt
    · have hget : as[k]? = some as[k] := List.getElem?_eq_getElem hlt
      rw [nodes_get_lt as o hlt, hget] at herase
      obtain ⟨hgood2, -, -, halive, hfree⟩ := erase_good hgood hget herase
      refine ⟨⟨_, o, hgood2, ?_⟩, fun _ => hfree⟩
      intro a c2 hc2
      obtain ⟨hca, c0, hc0⟩ := halive a c2 hc2
      have hmem := hlisted a c0 hc0
      rcases List.mem_append.mp hmem with hm | hm
      · obtain ⟨j, hj⟩ := List.getElem?_of_mem hm
        have hjk : j ≠ k := by
          intro hjk
          rw [hjk, hget] at hj
          exact hca (Option.some.inj hj).symm
        apply List.mem_append_left
        by_cases hjlt : j < k
        · have : (as.eraseIdx k)[j]? = some a := by
            rw [List.getElem?_eraseIdx]
            simp only [hjlt, if_true]
            exact hj
          exact List.getElem?_mem this
        · have : (as.eraseIdx k)[j - 1]? = some a := by
            rw [List.getElem?_eraseIdx]
            have : ¬ j - 1 < k := by omega
            simp only [this, if_false]
            rw [show j - 1 + 1 = j by omega]
            exact hj
          exact List.getElem?_mem this
      · exact List.mem_append_right _ hm
    · rw [heq, nodes_get_len, erase_no_block bs hco hblk] at herase
      cases herase
    · rw [nodes_get_gt as o hgt] at herase
      obtain ⟨h1, h2⟩ := erase_null herase
      subst h1; subst h2
      exact ⟨⟨as, o, hgood, hlisted⟩, fun _ hf => hf⟩
  | eraseEnd =>
    simp only [BucketStorage.call, end_inv hinv, bind_ok_iff, pure_ok_iff] at hok
    obtain ⟨e, he, ⟨bs1, h1, it1⟩, herase, hfin⟩ := hok
    cases he
    rw [erase_no_block bs hco hblk] at herase
    cases herase
  | clear =>
    obtain ⟨hg, hl⟩ := clear_good hgood hlisted hok
    exact ⟨⟨[], o, hg, hl⟩, fun hh => by cases hh⟩
  | shrink_to_fit =>
    exact ⟨shrink_good hC hgood hlisted hok, fun hh => by cases hh⟩

theorem runFrom_good {T : Type} {C : Nat} (hC : 0 < C) :
    ∀ (calls : List (BucketStorage.Call T)) (s s2 : BucketStorage × Heap T) (as : List Nat)
      (o : Nat), BucketStorage.Good s C as o → s.2.Listed (as ++ [o]) →
      BucketStorage.runFrom s calls = .ok s2 →
      (∃ as2 o2, BucketStorage.Good s2 C as2 o2 ∧ s2.2.Listed (as2 ++ [o2])) ∧
      ((∀ c, c ∈ calls → c.isInsertOrErase = true) → BucketStorage.FreeListed s C →
        BucketStorage.FreeListed s2 C) := by
  intro calls
  induction calls with
  | nil =>
    intro s s2 as o hgood hlisted hok
    simp only [BucketStorage.runFrom, pure_ok_iff] at hok
    subst hok
    exact ⟨⟨as, o, hgood, hlisted⟩, fun _ hf => hf⟩
  | cons c cs ih =>
    intro s s2 as o hgood hlisted hok
    simp only [BucketStorage.runFrom, bind_ok_iff] at hok
    obtain ⟨s1, hcall, hrest⟩ := hok
    obtain ⟨⟨as1, o1, hgood1, hlisted1⟩, hfree1⟩ := call_good c hC hgood hlisted hcall
    obtain ⟨hres, hfree2⟩ := ih s1 s2 as1 o1 hgood1 hlisted1 hrest
    refine ⟨hres, ?_⟩
    intro hall hf
    exact hfree2 (fun c2 hc2 => hall c2 (List.mem_cons_of_mem _ hc2))
      (hfree1 (hall c (List.mem_cons_self _ _)) hf)

theorem BlockInv_empty {T : Type} (C : Nat) : (Heap.empty : Heap T).BlockInv C := by
  refine ⟨?_, ?_, ?_, ?_⟩
  · intro t b hb
    simp [Heap.empty] at hb
  · intro a t e b he
    simp [Heap.empty] at he
  · intro a a2 e e2 he
    simp [Heap.empty] at he
  · intro a t e he
    simp [Heap.empty] at he

/-- Every state that a driver program reaches on a fresh container of bucket
capacity `C > 0` is good and has no stray nodes; if the program only inserts
and erases, every allocated block that has a slot available is on the
free-block stack. -/
theorem run_good {T : Type} {C : Nat} (hC : 0 < C) {calls : List (BucketStorage.Call T)}
    {s : BucketStorage × Heap T} (hok : BucketStorage.run C calls = .ok s) :
    (∃ as o, BucketStorage.Good s C as o ∧ s.2.Listed (as ++ [o])) ∧
    ((∀ c, c ∈ calls → c.isInsertOrErase = true) → BucketStorage.FreeListed s C) := by
  have hgood0 : BucketStorage.Good (BucketStorage.init (Heap.empty : Heap T) C) C []
      (Heap.empty : Heap T).elements.length := init_good (BlockInv_empty C)
  have hlisted0 : (BucketStorage.init (Heap.empty : Heap T) C).2.Listed
      ([] ++ [(Heap.empty : Heap T).elements.length]) := by
    intro a c hc
    have hlt := lt_length_of_getElem? hc
    simp only [BucketStorage.init, BucketStorage.VirtualMemory.new, Heap.newElement,
      Heap.empty, List.nil_append, List.length_singleton] at hlt
    simp [Heap.empty]
    omega
  obtain ⟨hres, hfree⟩ := runFrom_good hC calls _ s [] _ hgood0 hlisted0 hok
  refine ⟨hres, fun hall => hfree hall ?_⟩
  refine ⟨_, rfl, ?_⟩
  intro t b hb
  have hlt := lt_length_of_getElem? hb
  simp [BucketStorage.init, BucketStorage.VirtualMemory.new, Heap.newElement,
    Heap.empty] at hlt

/-! ## No `insert` writes outside a block -/

theorem bind_ne_oob {α β : Type} {x : Except Fault α} {f : α → Except Fault β}
    (hx : x ≠ .error .outOfBounds)
    (hf : ∀ a, x = .ok a → f a ≠ .error .outOfBounds) :
    (x >>= f) ≠ .error .outOfBounds := by
  cases x with
  | error e => simpa [bind, Except.bind] using hx
  | ok a => simpa [bind, Except.bind] using hf a rfl

theorem pure_ne_oob {α : Type} (a : α) : (pure a : Except Fault α) ≠ .error .outOfBounds := by
  simp [pure, Except.pure]

theorem derefPtr_ne_oob {α : Type} (p : Option α) : derefPtr p ≠ .error .outOfBounds := by
  cases p <;> simp [derefPtr]

theorem element_ne_oob {T : Type} (h : Heap T) (p : Option Nat) :
    h.element p ≠ .error .outOfBounds := by
  unfold Heap.element
  split
  · simp
  · split <;> simp

theorem modifyElement_ne_oob {T : Type} (h : Heap T) (p : Option Nat)
    (f : BucketStorage.Element → BucketStorage.Element) :
    h.modifyElement p f ≠ .error .outOfBounds := by
  unfold Heap.modifyElement
  split
  · simp
  · split <;> simp

theorem block_ne_oob {T : Type} (h : Heap T) (p : Option Nat) :
    h.block p ≠ .error .outOfBounds := by
  unfold Heap.block
  split
  · simp
  · split <;> simp

theorem modifyBlock_ne_oob {T : Type} (h : Heap T) (p : Option Nat)
    (f : BucketStorage.Block T → BucketStorage.Block T) :
    h.modifyBlock p f ≠ .error .outOfBounds := by
  unfold Heap.modifyBlock
  split
  · simp
  · split <;> simp

theorem pop_ne_oob {α : Type} (s : details.Stack α) : s.pop ≠ .error .outOfBounds := by
  unfold details.Stack.pop
  split <;> simp

/-- Code of `ensure_capacity` writes to no slot. -/
theorem ensure_capacity_ne_oob {T : Type} (pm : BucketStorage.PhysicalMemory) (h : Heap T) :
    pm.ensure_capacity h ≠ .error .outOfBounds := by
  unfold BucketStorage.PhysicalMemory.ensure_capacity
  apply bind_ne_oob
  · split
    · dsimp only
      split
      · apply bind_ne_oob (modifyBlock_ne_oob _ _ _)
        intro h3 _
        apply bind_ne_oob (modifyBlock_ne_oob _ _ _)
        intro h4 _
        exact pure_ne_oob _
      · exact pure_ne_oob _
    · exact pure_ne_oob _
  · rintro ⟨pm1, h1, act⟩ _
    dsimp only
    apply bind_ne_oob (block_ne_oob _ _)
    intro b _
    split
    · apply bind_ne_oob (pop_ne_oob _)
      rintro ⟨x, stack⟩ _
      apply bind_ne_oob (modifyBlock_ne_oob _ _ _)
      intro h3 _
      apply bind_ne_oob (modifyBlock_ne_oob _ _ _)
      intro h4 _
      exact pure_ne_oob _
    · exact pure_ne_oob _

/-- Code of `VirtualMemory::push` writes to no slot. -/
theorem vpush_ne_oob {T : Type} (vm : BucketStorage.VirtualMemory) (h : Heap T)
    (el : Option Nat) : vm.push h el ≠ .error .outOfBounds := by
  unfold BucketStorage.VirtualMemory.push
  apply bind_ne_oob
  · split
    · exact pure_ne_oob _
    · apply bind_ne_oob (modifyElement_ne_oob _ _ _)
      intro h3 _
      apply bind_ne_oob (modifyElement_ne_oob _ _ _)
      intro h4 _
      exact pure_ne_oob _
  · rintro ⟨vm1, h1⟩ _
    apply bind_ne_oob (modifyElement_ne_oob _ _ _)
    intro h3 _
    apply bind_ne_oob (modifyElement_ne_oob _ _ _)
    intro h4 _
    apply bind_ne_oob (element_ne_oob _ _)
    intro last _
    apply bind_ne_oob (modifyElement_ne_oob _ _ _)
    intro h5 _
    exact pure_ne_oob _

theorem construct_ne_oob {T : Type} {h : Heap T} {t pos : Nat} {b : BucketStorage.Block T}
    (x : T) (hb : h.blocks[t]? = some (some b)) (hpos : pos < b.m_arr.length) :
    h.construct (some t) pos x ≠ .error .outOfBounds := by
  simp only [Heap.construct, Heap.block_ok_iff.mpr hb, bind, Except.bind, hpos, if_true]
  exact modifyBlock_ne_oob _ _ _

/-- In a heap whose blocks obey the slot bookkeeping for `C > 0`,
`PhysicalMemory::push` of an allocator with bucket capacity `C` writes to no
slot at an index `≥ C`. -/
theorem push_ne_oob {T : Type} {pm : BucketStorage.PhysicalMemory} {h : Heap T} {C : Nat}
    (x : T) (el : Option Nat) (hcap : pm.m_bucket_capacity = C) (hC : 0 < C)
    (hinv : h.BlockInv C) : pm.push h x el ≠ .error .outOfBounds := by
  unfold BucketStorage.PhysicalMemory.push
  apply bind_ne_oob (ensure_capacity_ne_oob _ _)
  rintro ⟨pm1, h1⟩ hec
  obtain ⟨hcap2, hg, ⟨t1, b1, hpeek1, hbt1, htop⟩, -, -⟩ := ensure_capacity_effect hec
  rw [hcap] at hg htop
  have hinv1 := BlockInv_grows hinv hg
  obtain ⟨hc1, hc2, hc3, hc4, hc5, hc6, hc7⟩ := hinv1.1 t1 b1 hbt1
  have hroom : b1.m_size < C := by
    rcases htop with htop | htop
    · omega
    · have := (unlinked_fields htop).2.2.2.2
      rw [this]
      exact hC
  simp only
  rw [hpeek1]
  apply bind_ne_oob (block_ne_oob _ _)
  intro b hb
  have hbb := Heap.block_ok_iff.mp hb
  rw [hbt1] at hbb
  cases hbb
  apply bind_ne_oob
  · split
    · apply bind_ne_oob (pop_ne_oob _)
      rintro ⟨p, rest⟩ hpop
      have hnodes := pop_ok hpop
      apply bind_ne_oob (modifyBlock_ne_oob _ _ _)
      intro h3 h3eq
      apply bind_ne_oob (modifyElement_ne_oob _ _ _)
      intro h4 h4eq
      apply bind_ne_oob (element_ne_oob _ _)
      intro e he
      obtain ⟨a3, b3, ha3, hb3, -, -, hget3⟩ := modifyBlock_lookup h3eq
      cases ha3
      rw [hbt1] at hb3
      cases hb3
      have hblocks4 : h4.blocks = h3.blocks := modifyElement_blocks h4eq
      -- the position that is read back is the popped one
      have hepos : e.m_pos = p := by
        cases el with
        | none => cases h4eq
        | some n =>
          obtain ⟨c, hc, rfl⟩ := Heap.modifyElement_ok_iff.mp h4eq
          have he2 := Heap.element_ok_iff.mp he
          simp only [getElem?_set_alive _ hc, if_true] at he2
          cases he2
          rfl
      have hcell : h4.blocks[t1]? = some (some { b1 with m_free_pos := rest }) := by
        rw [hblocks4, hget3]; simp
      refine construct_ne_oob x hcell ?_
      simp only
      rw [hepos, hc2]
      have : p < b1.m_head := hc6 p (by rw [hnodes]; exact List.mem_cons_self _ _)
      omega
    · next hemp =>
      have hempty : b1.m_free_pos.nodes = [] := by
        simp only [details.Stack.empty, Bool.not_eq_true', Bool.not_eq_false,
          List.isEmpty_iff] at hemp
        exact hemp
      rw [hempty] at hc4
      simp only [List.length_nil, Nat.add_zero] at hc4
      apply bind_ne_oob (construct_ne_oob x hbt1 (by rw [hc2]; omega))
      intro h3 _
      apply bind_ne_oob (modifyElement_ne_oob _ _ _)
      intro h4 _
      exact modifyBlock_ne_oob _ _ _
  · intro h5 _
    apply bind_ne_oob (modifyElement_ne_oob _ _ _)
    intro h6 _
    apply bind_ne_oob (modifyBlock_ne_oob _ _ _)
    intro h7 _
    exact pure_ne_oob _

/-- In a good container with `C > 0` an `insert` never writes at an index
`≥ C` of a block. -/
theorem insert_ne_oob {T : Type} {bs : BucketStorage} {h : Heap T} {as : List Nat} {o C : Nat}
    (x : T) (hgood : BucketStorage.Good (bs, h) C as o) (hC : 0 < C) :
    bs.insert h x ≠ .error .outOfBounds := by
  obtain ⟨-, -, ⟨pm, hpm, hpcap⟩, hblk⟩ := hgood
  simp only at hpm hblk
  unfold BucketStorage.insert BucketStorage.insert_impl
  apply bind_ne_oob (derefPtr_ne_oob _)
  intro vm _
  apply bind_ne_oob (element_ne_oob _ _)
  intro last _
  simp only
  apply bind_ne_oob (derefPtr_ne_oob _)
  intro pm0 hpm0
  rw [hpm] at hpm0
  simp only [derefPtr] at hpm0
  cases hpm0
  apply bind_ne_oob
  · exact push_ne_oob x _ hpcap hC (BlockInv_newElement hblk rfl)
  · rintro ⟨pm1, h1⟩ _
    apply bind_ne_oob (vpush_ne_oob _ _ _)
    rintro ⟨vm1, h2⟩ _
    exact pure_ne_oob _

/-! ## The slot bookkeeping of the blocks when no value constructor throws -/

/-- In a well-formed container whose heap has no stray node, every live node
that names a block is an element of the container: it stands at an index below
`size()` of the iteration order. -/
theorem index_of_node {T : Type} {s : BucketStorage × Heap T} {as : List Nat} {o : Nat}
    (hinv : BucketStorage.ListInv s as o) (hlisted : s.2.Listed (as ++ [o]))
    {a t : Nat} {e : BucketStorage.Element} (he : s.2.elements[a]? = some (some e))
    (hlink : e.m_block_link = some t) :
    ∃ k, k < s.1.size ∧ as[k]? = some a ∧ BucketStorage.iterAt s k = .ok ⟨some a⟩ := by
  have hmem := hlisted a e he
  have hao : a ≠ o := by
    intro hh
    obtain ⟨en, -, -, -, -, co, hco, hnone⟩ := hinv
    rw [hh, hco] at he
    cases he
    rw [hnone] at hlink
    cases hlink
  have hmem2 : a ∈ as := by
    rcases List.mem_append.mp hmem with hm | hm
    · exact hm
    · exact absurd (List.mem_singleton.mp hm) hao
  obtain ⟨k, hk⟩ := List.getElem?_of_mem hmem2
  have hklt : k < as.length := by
    by_contra hge
    rw [List.getElem?_eq_none (by omega)] at hk
    cases hk
  have hget : (as ++ [o])[k]? = some a := by
    rw [List.getElem?_append_left hklt]; exact hk
  refine ⟨k, ?_, hk, ?_⟩
  · have := size_inv hinv
    simp only [BucketStorage.size]
    omega
  · rw [iterAt_inv hinv (Nat.le_of_lt hklt), hget]

/-- In a well-formed container the iterator at an index below `size()` names
the node at that place of the list. -/
theorem node_of_index {T : Type} {s : BucketStorage × Heap T} {as : List Nat} {o : Nat}
    (hinv : BucketStorage.ListInv s as o) {k : Nat} (hk : k < s.1.size)
    {it : BucketStorage.BaseIterator} {e : BucketStorage.Element}
    (hit : BucketStorage.iterAt s k = .ok it) (he : s.2.element it.m_current = .ok e) :
    ∃ a, (as ++ [o])[k]? = some a ∧ s.2.elements[a]? = some (some e) := by
  have hsz := size_inv hinv
  simp only [BucketStorage.size] at hk
  obtain ⟨a, c, hget, hit2, hc, -⟩ := node_inv hinv (k := k) (by omega)
  rw [hit2] at hit
  cases hit
  exact ⟨a, hget, Heap.element_ok_iff.mp he⟩

/-- The slot bookkeeping on the runs in which no value constructor throws. For
a bucket capacity `cap > 0`, in every state `s` that a driver program of
inserts, erases, `clear()` and `shrink_to_fit()` reaches on a fresh container,
every allocated block `b` (at address `t`) has capacity `cap` and storage for
`cap` values, `size ≤ cap`, `head ≤ cap`, `size` equal to `head` minus the
number of entries of `free_positions`, and the entries of `free_positions` are
pairwise distinct indices below `head`; every index `p` below `head` that is
not in `free_positions` is the position of exactly one element of the container
that names block `t`. No `insert` on `s` ends in the out-of-bounds fault, and
two elements of the container that name the same block address never have the
same position. A driver program has no `insert` whose value constructor throws,
and an element may name a block that was destroyed: the statement does not
speak about either. -/
theorem run_block_slot_bookkeeping {T : Type} (cap : Nat) (hcap : 0 < cap)
    (calls : List (BucketStorage.Call T)) (s : BucketStorage × Heap T)
    (hrun : BucketStorage.run cap calls = .ok s) :
    (∀ (t : Nat) (b : BucketStorage.Block T), s.2.blocks[t]? = some (some b) →
      b.m_capacity = cap ∧ b.m_arr.length = cap ∧ b.m_size ≤ cap ∧ b.m_head ≤ cap ∧
      b.m_free_pos.nodes.length ≤ b.m_head ∧
      b.m_size = b.m_head - b.m_free_pos.nodes.length ∧
      b.m_free_pos.nodes.Nodup ∧ (∀ p, p ∈ b.m_free_pos.nodes → p < b.m_head) ∧
      (∀ p, p < b.m_head → p ∉ b.m_free_pos.nodes →
        ∃ k, k < s.1.size ∧
          (∃ (it : BucketStorage.BaseIterator) (e : BucketStorage.Element),
            BucketStorage.iterAt s k = .ok it ∧ s.2.element it.m_current = .ok e ∧
            e.m_block_link = some t ∧ e.m_pos = p) ∧
          (∀ (k2 : Nat) (it2 : BucketStorage.BaseIterator) (e2 : BucketStorage.Element),
            k2 < s.1.size → BucketStorage.iterAt s k2 = .ok it2 →
            s.2.element it2.m_current = .ok e2 → e2.m_block_link = some t → e2.m_pos = p →
            k2 = k))) ∧
    (∀ x : T, s.1.insert s.2 x ≠ .error .outOfBounds) ∧
    (∀ (k k2 t : Nat) (it it2 : BucketStorage.BaseIterator) (e e2 : BucketStorage.Element),
      k < s.1.size → k2 < s.1.size →
      BucketStorage.iterAt s k = .ok it → BucketStorage.iterAt s k2 = .ok it2 →
      s.2.element it.m_current = .ok e → s.2.element it2.m_current = .ok e2 →
      e.m_block_link = some t → e2.m_block_link = some t → e.m_pos = e2.m_pos → k = k2) := by
  obtain ⟨⟨as, o, hgood, hlisted⟩, -⟩ := run_good hcap hrun
  have hinv := hgood.1
  have hblk := hgood.2.2.2
  have hlinked : s.2.Linked (as ++ [o]) := by
    obtain ⟨en, -, -, -, hl, -⟩ := hinv
    exact hl
  -- two elements in one slot are the same element
  have hsame : ∀ (k k2 t : Nat) (it it2 : BucketStorage.BaseIterator)
      (e e2 : BucketStorage.Element), k < s.1.size → k2 < s.1.size →
      BucketStorage.iterAt s k = .ok it → BucketStorage.iterAt s k2 = .ok it2 →
      s.2.element it.m_current = .ok e → s.2.element it2.m_current = .ok e2 →
      e.m_block_link = some t → e2.m_block_link = some t → e.m_pos = e2.m_pos → k = k2 := by
    intro k k2 t it it2 e e2 hk hk2 hit hit2 he he2 hl hl2 hpos
    obtain ⟨a, hget, hea⟩ := node_of_index hinv hk hit he
    obtain ⟨a2, hget2, hea2⟩ := node_of_index hinv hk2 hit2 he2
    have haa : a = a2 := hblk.2.2.1 a a2 e e2 hea hea2 (by rw [hl]; simp)
      (by rw [hl, hl2]) hpos
    subst haa
    exact Linked_inj hlinked hget hget2
  refine ⟨?_, ?_, hsame⟩
  · intro t b hb
    obtain ⟨hc1, hc2, hc3, hc4, hc5, hc6, hc7⟩ := hblk.1 t b hb
    refine ⟨hc1, hc2, by omega, hc3, by omega, by omega, hc5, hc6, ?_⟩
    intro p hp hfree
    obtain ⟨a, e, hea, hl, hpos⟩ := hc7 p hp hfree
    obtain ⟨k, hk, -, hit⟩ := index_of_node hinv hlisted hea hl
    refine ⟨k, hk, ⟨⟨some a⟩, e, hit, Heap.element_ok_iff.mpr hea, hl, hpos⟩, ?_⟩
    intro k2 it2 e2 hk2 hit2 he2 hl2 hpos2
    exact hsame k2 k t it2 ⟨some a⟩ e2 e hk2 hk hit2 hit he2 (Heap.element_ok_iff.mpr hea)
      hl2 hl (hpos2.trans hpos.symm)
  · intro x
    exact insert_ne_oob x hgood hcap

/-! ## C21, C22, C23: the free-block stack and the deallocation of blocks -/

theorem run_block_slot_bookkeeping_example :
    ∃ s : BucketStorage × Heap Nat,
      BucketStorage.run 2 [.insert 1, .insert 2, .insert 3, .eraseAt 0, .insert 4, .insert 5,
        .eraseAt 1] = .ok s ∧ 0 < 2 ∧
      (∀ (t : Nat) (b : BucketStorage.Block Nat), s.2.blocks[t]? = some (some b) →
        b.m_capacity = 2 ∧ b.m_arr.length = 2 ∧ b.m_size ≤ 2 ∧ b.m_head ≤ 2 ∧
        b.m_free_pos.nodes.length ≤ b.m_head ∧
        b.m_size = b.m_head - b.m_free_pos.nodes.length ∧
        b.m_free_pos.nodes.Nodup ∧ (∀ p, p ∈ b.m_free_pos.nodes → p < b.m_head) ∧
        (∀ p, p < b.m_head → p ∉ b.m_free_pos.nodes →
          ∃ k, k < s.1.size ∧
            (∃ (it : BucketStorage.BaseIterator) (e : BucketStorage.Element),
              BucketStorage.iterAt s k = .ok it ∧ s.2.element it.m_current = .ok e ∧
              e.m_block_link = some t ∧ e.m_pos = p) ∧
            (∀ (k2 : Nat) (it2 : BucketStorage.BaseIterator) (e2 : BucketStorage.Element),
              k2 < s.1.size → BucketStorage.iterAt s k2 = .ok it2 →
              s.2.element it2.m_current = .ok e2 → e2.m_block_link = some t → e2.m_pos = p →
              k2 = k))) ∧
      (∀ x : Nat, s.1.insert s.2 x ≠ .error .outOfBounds) ∧
      (∀ (k k2 t : Nat) (it it2 : BucketStorage.BaseIterator) (e e2 : BucketStorage.Element),
        k < s.1.size → k2 < s.1.size →
        BucketStorage.iterAt s k = .ok it → BucketStorage.iterAt s k2 = .ok it2 →
        s.2.element it.m_current = .ok e → s.2.element it2.m_current = .ok e2 →
        e.m_block_link = some t → e2.m_block_link = some t → e.m_pos = e2.m_pos → k = k2) := by
  cases hrun : BucketStorage.run 2
    ([.insert 1, .insert 2, .insert 3, .eraseAt 0, .insert 4, .insert 5, .eraseAt 1] :
      List (BucketStorage.Call Nat)) with
  | error f =>
    have hok : (BucketStorage.run 2 ([.insert 1, .insert 2, .insert 3, .eraseAt 0, .insert 4,
      .insert 5, .eraseAt 1] : List (BucketStorage.Call Nat))).toBool = true := by
      decide
    rw [hrun] at hok
    cases hok
  | ok s => exact ⟨s, rfl, by decide, run_block_slot_bookkeeping 2 (by decide) _ s hrun⟩

/-- C22 (fails on the code). The sequence of the claim on a fresh container
(default capacity): after `insert(1)` and the erase of that element block 0 is
destroyed, the free-block stack still holds it, and `ensure_capacity`, the
first step of the allocation of the next insert, reads the destroyed block; the
third call does not return. The same with an element left in the container:
`C = 2`, insert `1,2,3`, erase `1`, erase `2` gives `[3]` with the destroyed
block 0 on top of the free-block stack, and the next insert reads it. -/
theorem C22_free_stack_keeps_destroyed_block :
    (do
      let s ← BucketStorage.run 64 ([.insert 1, .eraseAt 0] : List (BucketStorage.Call Nat))
      let pm ← derefPtr s.1.m_physical_memory
      pure (s.2.blocks.map Option.isSome, pm.m_free_blocks.nodes,
        s.2.block pm.m_free_blocks.peek)) =
      .ok ([false], [some 0], .error .useAfterFree) ∧
    (do
      let s ← BucketStorage.run 64 ([.insert 1, .eraseAt 0] : List (BucketStorage.Call Nat))
      let pm ← derefPtr s.1.m_physical_memory
      let r ← pm.ensure_capacity s.2
      pure r.1.m_size) = .error .useAfterFree ∧
    (do
      let s ← BucketStorage.run 64
        ([.insert 1, .eraseAt 0, .insert 2] : List (BucketStorage.Call Nat))
      pure s.1.size) = .error .useAfterFree ∧
    (do
      let s ← BucketStorage.run 2
        ([.insert 1, .insert 2, .insert 3, .eraseAt 0, .eraseAt 0] :
          List (BucketStorage.Call Nat))
      let pm ← derefPtr s.1.m_physical_memory
      let vs ← s.1.values s.2
      pure (vs, s.2.blocks.map Option.isSome, pm.m_free_blocks.nodes,
        s.2.block pm.m_free_blocks.peek)) =
      .ok ([3], [false, true], [some 0, some 1], .error .useAfterFree) ∧
    (do
      let s ← BucketStorage.run 2
        ([.insert 1, .insert 2, .insert 3, .eraseAt 0, .eraseAt 0, .insert 4] :
          List (BucketStorage.Call Nat))
      pure s.1.size) = .error .useAfterFree :=
  ⟨by decide, by decide, by decide, by decide, by decide⟩

/-- C23 (fails on the code). `C = 2`, insert `1,2,3`, erase `2`, insert `4,5`:
the sequence is `[1,3,4,5]`, element `3` is alone in block 1 and element `5`
alone in block 2. The erase of `3` brings block 1 to size 0, but the block that
is deallocated is block 2: block 1 stays allocated with size 0 and the live
element `5` names a destroyed block. `C = 1`, insert `10,20,30,40`, erase `30`:
block 2 is deallocated, and its successor block 3 still names it as `m_prev`. -/
theorem C23_erase_deallocates_other_block :
    (do
      let s ← BucketStorage.run 2 ([.insert 1, .insert 2, .insert 3, .eraseAt 1, .insert 4,
        .insert 5] : List (BucketStorage.Call Nat))
      let vs ← s.1.values s.2
      let i3 ← BucketStorage.iterAt s 1
      let e3 ← s.2.element i3.m_current
      let i5 ← BucketStorage.iterAt s 3
      let e5 ← s.2.element i5.m_current
      pure (vs, e3.m_block_link, e5.m_block_link,
        s.2.blocks.map (fun (ob : Option (BucketStorage.Block Nat)) =>
          ob.map (fun (b : BucketStorage.Block Nat) => b.m_size)))) =
      .ok ([1, 3, 4, 5], some 1, some 2, [some 2, some 1, some 1]) ∧
    (do
      let s ← BucketStorage.run 2 ([.insert 1, .insert 2, .insert 3, .eraseAt 1, .insert 4,
        .insert 5, .eraseAt 1] : List (BucketStorage.Call Nat))
      let i5 ← BucketStorage.iterAt s 2
      let e5 ← s.2.element i5.m_current
      pure (s.1.size, e5.m_block_link, s.2.block e5.m_block_link,
        s.2.blocks.map (fun (ob : Option (BucketStorage.Block Nat)) =>
          ob.map (fun (b : BucketStorage.Block Nat) => b.m_size)))) =
      .ok (3, some 2, .error .useAfterFree, [some 2, some 0, none]) ∧
    (do
      let s ← BucketStorage.run 1 ([.insert 10, .insert 20, .insert 30, .insert 40,
        .eraseAt 2] : List (BucketStorage.Call Nat))
      let vs ← s.1.values s.2
      let b3 ← s.2.block (some 3)
      pure (vs, s.2.blocks.map Option.isSome, b3.m_prev, s.2.block b3.m_prev)) =
      .ok ([10, 20, 40], [true, true, false, true], some 2, .error .useAfterFree) :=
  ⟨by decide, by decide, by decide⟩

/-! ## C24: the slot bookkeeping after a throwing value constructor -/

/-- C24 (fails on the code). `C = 2`, insert `1,2`, erase `1`: block 0 has size
1, head 2 and the free position 0, as the claim says. An `insert` whose value
constructor throws pops that free position before the constructor runs and does
not put it back. In the state in which the exception leaves `insert` the
sequence is still `[2]` with `size()` 1, but block 0 has size 1, head 2 and no
free position: size is not head minus the number of free positions, and index 0
is below head, not a free position, and the position of no live element (the
one element with a block is at position 1). The next `insert` finds the block
not full and its free positions empty, and writes at index `head = 2 = C`. -/
theorem C24_throwing_insert_breaks_slot_bookkeeping :
    (do
      let s ← BucketStorage.run 2
        ([.insert 1, .insert 2, .eraseAt 0] : List (BucketStorage.Call Nat))
      let b ← s.2.block (some 0)
      pure (b.m_capacity, b.m_size, b.m_head, b.m_free_pos.nodes)) = .ok (2, 1, 2, [0]) ∧
    (do
      let s ← BucketStorage.run 2
        ([.insert 1, .insert 2, .eraseAt 0] : List (BucketStorage.Call Nat))
      let r ← s.1.insert_impl_throwing s.2 .int
      let b ← r.2.block (some 0)
      pure (b.m_capacity, b.m_size, b.m_head, b.m_free_pos.nodes)) = .ok (2, 1, 2, []) ∧
    (do
      let s ← BucketStorage.run 2
        ([.insert 1, .insert 2, .eraseAt 0] : List (BucketStorage.Call Nat))
      let r ← s.1.insert_impl_throwing s.2 .int
      let vs ← r.1.values r.2
      pure (vs, r.1.size, r.2.liveBlocks)) = .ok ([2], 1, 1) ∧
    (do
      let s ← BucketStorage.run 2
        ([.insert 1, .insert 2, .eraseAt 0] : List (BucketStorage.Call Nat))
      let r ← s.1.insert_impl_throwing s.2 .int
      pure (r.2.elements.map (fun (oe : Option BucketStorage.Element) =>
        oe.map (fun (e : BucketStorage.Element) => (e.m_block_link, e.m_pos))))) =
      .ok [some (none, 0), none, some (some 0, 1), none] ∧
    (do
      let s ← BucketStorage.run 2
        ([.insert 1, .insert 2, .eraseAt 0] : List (BucketStorage.Call Nat))
      let r ← s.1.insert_impl_throwing s.2 .int
      let q ← r.1.insert r.2 3
      pure q.1.size) = .error .outOfBounds ∧
    (do
      let s ← BucketStorage.run 2
        ([.insert 1, .insert 2, .eraseAt 0] : List (BucketStorage.Call Nat))
      let r ← s.1.insert_impl_throwing s.2 .other
      let b ← r.2.block (some 0)
      let vs ← r.1.values r.2
      pure (vs, b.m_size, b.m_head, b.m_free_pos.nodes)) = .ok ([2], 1, 2, []) ∧
    (do
      let s ← BucketStorage.run 2
        ([.insert 1, .insert 2, .eraseAt 0] : List (BucketStorage.Call Nat))
      let r ← s.1.insert_impl_throwing s.2 .other
      let q ← r.1.insert r.2 3
      pure q.1.size) = .error .outOfBounds :=
  ⟨by decide, by decide, by decide, by decide, by decide, by decide, by decide⟩
